import Mathlib

/-!
# Schema workspace resolution (pkg/xsd/workspace.go)

A shallow embedding of `NewWorkspace`, `Workspace.loadXsd` and
`Workspace.compile`.

* A Go `*Schema` is a `Nat`, an index into `Workspace.heap`; the heap makes the aliasing
  between `Cache`, the document under construction and the documents handed
  back by nested loads explicit.
* Go maps are association lists with unique keys (`mapLookup`, `mapInsert`).
* Everything outside `workspace.go` that the code calls (transport, the
  document parser, path arithmetic, `Schema.compile`, the default package-name
  derivation, the order in which a map is ranged over) is a field of `Env`.
* `Workspace.trace` is a ghost log of the calls made, used only to state
  properties about how often a location is requested, fetched and parsed.
* Progress lines printed to stdout/stderr are not modelled.
* `loadXsd` is recursive over an arbitrary document graph, so it takes a fuel
  argument; `none` means the fuel ran out.
-/

namespace Xsd

/-- Opaque structural payload (an element, attribute, type, ...), identified by name. -/
abbrev Decl := String

/-- The entry `xs:include`; `IncludedSchema` is nil until `load` has run. -/
structure Include where
  SchemaLocation : String
  IncludedSchema : Option Nat := none
  deriving DecidableEq, Repr, Inhabited

/-- The entry `xs:import`; `ImportedSchema` is nil until `load` has run. -/
structure Import where
  Namespace : String
  SchemaLocation : String
  ImportedSchema : Option Nat := none
  deriving DecidableEq, Repr, Inhabited

/-- The fields of `Schema` that `workspace.go` reads or writes. -/
structure Schema where
  TargetNamespace : String := ""
  Includes : List Include := []
  Imports : List Import := []
  Elements : List Decl := []
  Attributes : List Decl := []
  AttributeGroups : List Decl := []
  ComplexTypes : List Decl := []
  SimpleTypes : List Decl := []
  inlinedElements : List Decl := []
  importedModules : List (String × Nat) := []
  ModulesPath : String := ""
  filePath : String := ""
  goPackageNameOverride : Option String := none
  deriving DecidableEq, Repr, Inhabited

/-- An `io.ReadCloser`: the bytes it yields and what `Close` returns. -/
structure ReadCloser where
  bytes : String
  closeErr : Option String := none
  deriving DecidableEq, Repr, Inhabited

/-- Ghost events recorded by the model. -/
inductive Event where
  | load (location : String) (cache : Bool)
  | fetch (location : String)
  | parse (location : String)
  deriving DecidableEq, Repr

/-- Lookup in a Go map. -/
def mapLookup {α : Type} : List (String × α) → String → Option α
  | [], _ => none
  | (k, v) :: rest, key => if k = key then some v else mapLookup rest key

/-- Assignment `m[key] = v` in a Go map: replaces the value of an existing key. -/
def mapInsert {α : Type} : List (String × α) → String → α → List (String × α)
  | [], key, v => [(key, v)]
  | (k, w) :: rest, key, v =>
    if k = key then (k, v) :: rest else (k, w) :: mapInsert rest key v

/-- The keys of a Go map. -/
def mapKeys {α : Type} (m : List (String × α)) : List String := m.map Prod.fst

/-- Character-wise `strings.HasPrefix`. -/
def startsWithChars : List Char → List Char → Bool
  | [], _ => true
  | _ :: _, [] => false
  | p :: ps, c :: cs => p = c && startsWithChars ps cs

/-- The function `strings.HasPrefix(s, pre)`. -/
def startsWith (s pre : String) : Bool := startsWithChars pre.data s.data

/-- Everything `workspace.go` calls but does not define. -/
structure Env where
  /-- `http.Get(url)`, reduced to the response body. -/
  httpGet : String → Except String ReadCloser
  /-- `os.Open(path)`. -/
  osOpen : String → Except String ReadCloser
  /-- `filepath.Clean`. -/
  filepathClean : String → String
  /-- `parseSchema(f)`: the external document parser. -/
  parseSchema : ReadCloser → Except String Schema
  /-- `url.Parse(dir)`, `u.Path = path.Dir(u.Path)`, `u.String()`. -/
  urlDir : String → Except String String
  /-- `filepath.Dir`. -/
  filepathDir : String → String
  /-- Joining a base directory or URL prefix with a schemaLocation. -/
  joinLocation : String → String → String
  /-- `Schema.compile()` of schema.go, run on a document once its graph is loaded. -/
  schemaCompile : Schema → Schema
  /-- The default derivation of a package name from a target namespace. -/
  defaultPackageName : String → String
  /-- `ParseXmlnsOverrides`. -/
  ParseXmlnsOverrides : List String → Except String (List (String × String))
  /-- The order in which the Go runtime ranges over a map with these entries. -/
  rangeOrder : List (String × Nat) → List (String × Nat)

/-- The type `Workspace`, with the heap of schema objects and the ghost trace. -/
structure Workspace where
  heap : List Schema := []
  Cache : List (String × Nat) := []
  GoModulesPath : String := ""
  xmlnsOverrides : List (String × String) := []
  trace : List Event := []
  deriving DecidableEq, Repr, Inhabited

/-- What a call returns: the workspace afterwards and the Go result pair. -/
abbrev LoadResult := Workspace × Option Nat × Option String

/-- Dereference `*p`. -/
def Workspace.deref (ws : Workspace) (p : Nat) : Schema := ws.heap.getD p default

/-- Assignment `*p = s`. -/
def Workspace.store (ws : Workspace) (p : Nat) (s : Schema) : Workspace :=
  { ws with heap := ws.heap.set p s }

/-- Allocation of a fresh schema object. -/
def Workspace.alloc (ws : Workspace) (s : Schema) : Workspace × Nat :=
  ({ ws with heap := ws.heap ++ [s] }, ws.heap.length)

/-- Append a ghost event. -/
def Workspace.log (ws : Workspace) (e : Event) : Workspace :=
  { ws with trace := ws.trace ++ [e] }

/-- Modelled from the spec: `xmlnsOverrides.override` is not in workspace.go; §6 gives
`override(namespace) -> optional package-name`, a lookup in the pre-parsed mapping. -/
def xmlnsOverride (ov : List (String × String)) (targetNamespace : String) : Option String :=
  mapLookup ov targetNamespace

/-- Modelled from the spec: `Schema.GoPackageName` is not in workspace.go; §4.2 gives
"the explicit override if present, else a deterministic transformation of
TargetNamespace". -/
def Schema.GoPackageName (env : Env) (s : Schema) : String :=
  match s.goPackageNameOverride with
  | some name => name
  | none => env.defaultPackageName s.TargetNamespace

/-- Lines 104-113: fold the included document `isch` into `schema`. -/
def mergeInclude (isch schema : Schema) : Schema :=
  { schema with
    Imports := isch.Imports ++ schema.Imports
    Elements := isch.Elements ++ schema.Elements
    Attributes := isch.Attributes ++ schema.Attributes
    AttributeGroups := isch.AttributeGroups ++ schema.AttributeGroups
    ComplexTypes := isch.ComplexTypes ++ schema.ComplexTypes
    SimpleTypes := isch.SimpleTypes ++ schema.SimpleTypes
    inlinedElements := isch.inlinedElements ++ schema.inlinedElements
    importedModules :=
      isch.importedModules.foldl (fun m kv => mapInsert m kv.1 kv.2) schema.importedModules }

/-- Modelled from the spec: `Include.load` is not in workspace.go; §4.1 step 8 resolves
the target location joined against the base directory as a non-cacheable `Resolve`
and keeps the resolved document in `IncludedSchema`. -/
def Include.load (env : Env) (load : Workspace → String → Bool → Option LoadResult)
    (si : Include) (ws : Workspace) (dir : String) : Option (Workspace × Include × Option String) :=
  match load ws (env.joinLocation dir si.SchemaLocation) false with
  | none => none
  | some (ws1, sch, err) => some (ws1, { si with IncludedSchema := sch }, err)

/-- Modelled from the spec: `Import.load` is not in workspace.go; §4.1 step 9 resolves
the target location joined against the base directory as a cacheable `Resolve`
and retains only the link. -/
def Import.load (env : Env) (load : Workspace → String → Bool → Option LoadResult)
    (im : Import) (ws : Workspace) (dir : String) : Option (Workspace × Import × Option String) :=
  match load ws (env.joinLocation dir im.SchemaLocation) true with
  | none => none
  | some (ws1, sch, err) => some (ws1, { im with ImportedSchema := sch }, err)

/-- Lines 97-114: the loop over `schema.Includes`, `schema` being `*p`. -/
def loadIncludes (env : Env) (load : Workspace → String → Bool → Option LoadResult)
    (dir : String) (p : Nat) : List Include → Workspace → Option (Workspace × Option String)
  | [], ws => some (ws, none)
  | si :: rest, ws =>
    match Include.load env load si ws dir with
    | none => none
    | some (ws1, _, some err) => some (ws1, some err)
    | some (ws1, si1, none) =>
      match si1.IncludedSchema with
      | none => none
      | some isch =>
        loadIncludes env load dir p rest
          (ws1.store p (mergeInclude (ws1.deref isch) (ws1.deref p)))

/-- Lines 116-120: the loop over `schema.Imports`, entry `idx` onwards. -/
def loadImports (env : Env) (load : Workspace → String → Bool → Option LoadResult)
    (dir : String) (p : Nat) : Nat → List Import → Workspace → Option (Workspace × Option String)
  | _, [], ws => some (ws, none)
  | idx, im :: rest, ws =>
    match Import.load env load im ws dir with
    | none => none
    | some (ws1, im1, err) =>
      let s := ws1.deref p
      let ws2 := ws1.store p { s with Imports := s.Imports.set idx im1 }
      match err with
      | some e => some (ws2, some e)
      | none => loadImports env load dir p (idx + 1) rest ws2

/-- Lines 84-95: the base directory or URL prefix of a location. -/
def baseDir (env : Env) (xsdPath : String) : Except String String :=
  if startsWith xsdPath "http" then env.urlDir xsdPath
  else .ok (env.filepathDir xsdPath)

/-- Lines 45-59: acquire the byte stream of a location. -/
def openLocation (env : Env) (xsdPath : String) : Except String ReadCloser :=
  if startsWith xsdPath "http://" || startsWith xsdPath "https://" then env.httpGet xsdPath
  else env.osOpen (env.filepathClean xsdPath)

/-- Lines 73-75: stamp the parsed document with the workspace's context. -/
def stampSchema (ws : Workspace) (xsdPath : String) (parsed : Schema) : Schema :=
  { parsed with
    ModulesPath := ws.GoModulesPath
    filePath := xsdPath
    goPackageNameOverride := xmlnsOverride ws.xmlnsOverrides parsed.TargetNamespace }

/-- Lines 78-80: `if cache { ws.Cache[xsdPath] = schema }`. -/
def registerSchema (ws : Workspace) (xsdPath : String) (cache : Bool) (p : Nat) : Workspace :=
  if cache then { ws with Cache := mapInsert ws.Cache xsdPath p } else ws

/-- Lines 84-122: the base directory, the two loops and `schema.compile()`, `schema`
being `*p`. -/
def loadDeps (env : Env) (load : Workspace → String → Bool → Option LoadResult)
    (ws : Workspace) (xsdPath : String) (p : Nat) : Option LoadResult :=
  match baseDir env xsdPath with
  | .error e => some (ws, none, some e)
  | .ok dir =>
    match loadIncludes env load dir p (ws.deref p).Includes ws with
    | none => none
    | some (ws3, some e) => some (ws3, none, some e)
    | some (ws3, none) =>
      match loadImports env load dir p 0 (ws3.deref p).Imports ws3 with
      | none => none
      | some (ws4, some e) => some (ws4, none, some e)
      | some (ws4, none) =>
        some (ws4.store p (env.schemaCompile (ws4.deref p)), some p, none)

/-- Lines 69-122: what runs between registering the deferred `Close` and returning. -/
def loadBody (env : Env) (load : Workspace → String → Bool → Option LoadResult)
    (ws : Workspace) (xsdPath : String) (cache : Bool) (f : ReadCloser) : Option LoadResult :=
  match env.parseSchema f with
  | .error e => some (ws.log (.parse xsdPath), none, some e)
  | .ok parsed =>
    let (ws1, p) := (ws.log (.parse xsdPath)).alloc (stampSchema ws xsdPath parsed)
    loadDeps env load (registerSchema ws1 xsdPath cache p) xsdPath p

/-- Lines 61-67: the deferred `Close`, which replaces a nil error by its own. -/
def deferredClose (f : ReadCloser) : LoadResult → LoadResult
  | (ws, schema, none) => (ws, schema, f.closeErr)
  | (ws, schema, some e) => (ws, schema, some e)

/-- The method `Workspace.loadXsd`; the first argument is the recursion fuel. -/
def Workspace.loadXsd (env : Env) : Nat → Workspace → String → Bool → Option LoadResult
  | 0, _, _, _ => none
  | fuel + 1, ws, xsdPath, cache =>
    let ws0 := ws.log (.load xsdPath cache)
    match mapLookup ws.Cache xsdPath with
    | some cached => some (ws0, some cached, none)
    | none =>
      match openLocation env xsdPath with
      | .error e => some (ws0.log (.fetch xsdPath), none, some e)
      | .ok f =>
        (loadBody env (Workspace.loadXsd env fuel) (ws0.log (.fetch xsdPath)) xsdPath cache f).map
          (deferredClose f)

/-- Lines 125-138 over a given enumeration of the cache: the error message, if any. -/
def compileLoop (env : Env) (ws : Workspace) :
    List (String × Nat) → List (String × String) → Option String
  | [], _ => none
  | (_, p) :: rest, uniqPkgNames =>
    let schema := ws.deref p
    let goPackageName := schema.GoPackageName env
    match mapLookup uniqPkgNames goPackageName with
    | some prevXmlns =>
      some ("Malformed workspace. Multiple XSD files refer to itself with xmlns shorthand: '"
        ++ goPackageName ++ "':\n - " ++ prevXmlns ++ "\n - " ++ schema.TargetNamespace
        ++ "\nWhile this is valid in XSD it is impractical for golang code generation.\n"
        ++ "Consider providing --xmlns-override=" ++ schema.TargetNamespace ++ "=mygopackage")
    | none => compileLoop env ws rest (mapInsert uniqPkgNames goPackageName schema.TargetNamespace)

/-- The method `Workspace.compile`: `nil` is `none`. -/
def Workspace.compile (env : Env) (ws : Workspace) : Option String :=
  compileLoop env ws (env.rangeOrder ws.Cache) []

/-- The function `NewWorkspace`: the returned `*Workspace` and error. -/
def NewWorkspace (env : Env) (fuel : Nat) (goModulesPath xsdPath : String)
    (xmlnsOverrides : List String) : Option (Option Workspace × Option String) :=
  let ws : Workspace := { GoModulesPath := goModulesPath }
  match env.ParseXmlnsOverrides xmlnsOverrides with
  | .error e => some (none, some e)
  | .ok ov =>
    let ws := { ws with xmlnsOverrides := ov }
    match ws.loadXsd env fuel xsdPath true with
    | none => none
    | some (_, _, some e) => some (none, some e)
    | some (ws1, _, none) => some (some ws1, ws1.compile env)

/-- Pointers stored in `Cache` point into the heap. -/
def CacheValid (ws : Workspace) : Prop :=
  ∀ (k : String) (v : Nat), mapLookup ws.Cache k = some v → v < ws.heap.length

/-- The state changes a call of `loadXsd` starting in `b` can make: `Reach env b ws`
holds when `ws` arises from `b` by the primitive steps of the code, each with the
facts the code has established when it takes the step.

* a fetch is only issued, and its result only parsed, for a location that is not a
  key of `Cache`;
* an object is only allocated for a document that was fetched and parsed;
* a location is only registered when it is not yet a key, together with the
  allocation of its object and after the call asking to cache it was logged;
* a document is only written through a pointer allocated after `b`: by merging an
  include into it (it then has includes), by linking one of its import entries, or by
  `Schema.compile`. -/
inductive Reach (env : Env) : Workspace → Workspace → Prop
  | refl (ws : Workspace) : Reach env ws ws
  | logLoad {b ws : Workspace} (loc : String) (c : Bool) :
      Reach env b ws → Reach env b (ws.log (.load loc c))
  | logFetch {b ws : Workspace} (loc : String) :
      Reach env b ws → mapLookup ws.Cache loc = none → Reach env b (ws.log (.fetch loc))
  | logParse {b ws : Workspace} (loc : String) :
      Reach env b ws → mapLookup ws.Cache loc = none → Reach env b (ws.log (.parse loc))
  | alloc {b ws : Workspace} (loc : String) (f : ReadCloser) (parsed : Schema) :
      Reach env b ws → openLocation env loc = .ok f → env.parseSchema f = .ok parsed →
      Reach env b (ws.alloc (stampSchema ws loc parsed)).1
  | register {b ws : Workspace} (loc : String) (f : ReadCloser) (parsed : Schema) :
      Reach env b ws → mapLookup ws.Cache loc = none → Event.load loc true ∈ ws.trace →
      openLocation env loc = .ok f → env.parseSchema f = .ok parsed →
      Reach env b (registerSchema (ws.alloc (stampSchema ws loc parsed)).1 loc true
        ws.heap.length)
  | merge {b ws : Workspace} (p isch : Nat) :
      Reach env b ws → b.heap.length ≤ p → p < ws.heap.length →
      (ws.deref p).Includes ≠ [] →
      Reach env b (ws.store p (mergeInclude (ws.deref isch) (ws.deref p)))
  | link {b ws : Workspace} (p idx : Nat) (im : Import) (d : Option Nat) :
      Reach env b ws → b.heap.length ≤ p → p < ws.heap.length →
      (ws.deref p).Imports[idx]? = some im →
      Reach env b (ws.store p { ws.deref p with
        Imports := (ws.deref p).Imports.set idx { im with ImportedSchema := d } })
  | compiled {b ws : Workspace} (p : Nat) :
      Reach env b ws → b.heap.length ≤ p → p < ws.heap.length →
      Reach env b (ws.store p (env.schemaCompile (ws.deref p)))
  | call {b ws ws2 : Workspace} :
      Reach env b ws → Reach env ws ws2 → Reach env b ws2

/-! ## Concrete worlds used by the examples -/

/-- A flat directory of schema files: `files` maps a file name to what the parser
makes of it. Every file sits in the working directory, no host is reachable, and
`Schema.compile` leaves the modelled fields alone. -/
def fsEnv (files : List (String × Schema)) : Env where
  httpGet := fun u => .error ("Get " ++ u ++ ": no such host")
  osOpen := fun path =>
    match mapLookup files path with
    | some _ => .ok { bytes := path }
    | none => .error ("open " ++ path ++ ": no such file or directory")
  filepathClean := fun path => path
  parseSchema := fun f =>
    match mapLookup files f.bytes with
    | some s => .ok s
    | none => .error "EOF"
  urlDir := fun u => .ok u
  filepathDir := fun _ => "."
  joinLocation := fun dir loc => if dir = "." then loc else dir ++ "/" ++ loc
  schemaCompile := fun s => s
  defaultPackageName := fun ns => ns
  ParseXmlnsOverrides := fun _ => .ok []
  rangeOrder := fun entries => entries

/-- The package names of the cached documents, in the order of `Cache`. -/
def packageNames (env : Env) (ws : Workspace) : List String :=
  ws.Cache.map (fun e => (ws.deref e.2).GoPackageName env)

/-- Two cached documents derive the same package name and differ in target namespace. -/
def NamespaceConflict (env : Env) (ws : Workspace) : Prop :=
  ∃ e1 ∈ ws.Cache, ∃ e2 ∈ ws.Cache,
    (ws.deref e1.2).GoPackageName env = (ws.deref e2.2).GoPackageName env ∧
    (ws.deref e1.2).TargetNamespace ≠ (ws.deref e2.2).TargetNamespace

/-- A workspace holding two documents of the same target namespace `urn:x`. -/
def sameNamespaceWs : Workspace :=
  { heap := [{ TargetNamespace := "urn:x", filePath := "a.xsd" },
             { TargetNamespace := "urn:x", filePath := "b.xsd" }]
    Cache := [("a.xsd", 0), ("b.xsd", 1)] }

/-- A root with two includes, each document holding one complex type of its own. -/
def twoIncludes : List (String × Schema) :=
  [("r.xsd", { Includes := [{ SchemaLocation := "i1.xsd" }, { SchemaLocation := "i2.xsd" }]
               ComplexTypes := ["TR"], SimpleTypes := ["SR"] }),
   ("i1.xsd", { ComplexTypes := ["T1"], SimpleTypes := ["S1"] }),
   ("i2.xsd", { ComplexTypes := ["T2"], SimpleTypes := ["S2"] })]

/-- The location `l.xsd` is the target of an include of the root and of an import of
`m.xsd`, which the root imports. -/
def sharedTarget : List (String × Schema) :=
  [("r.xsd", { TargetNamespace := "urn:r"
               Includes := [{ SchemaLocation := "l.xsd" }]
               Imports := [{ Namespace := "urn:m", SchemaLocation := "m.xsd" }] }),
   ("m.xsd", { TargetNamespace := "urn:m"
               Imports := [{ Namespace := "urn:r", SchemaLocation := "l.xsd" }] }),
   ("l.xsd", { TargetNamespace := "urn:r", ComplexTypes := ["TL"] })]

/-- A diamond of includes: the root includes `b.xsd` and `c.xsd`, which both include
`d.xsd`. -/
def diamond : List (String × Schema) :=
  [("r.xsd", { Includes := [{ SchemaLocation := "b.xsd" }, { SchemaLocation := "c.xsd" }]
               ComplexTypes := ["TR"] }),
   ("b.xsd", { Includes := [{ SchemaLocation := "d.xsd" }], ComplexTypes := ["TB"] }),
   ("c.xsd", { Includes := [{ SchemaLocation := "d.xsd" }], ComplexTypes := ["TC"] }),
   ("d.xsd", { ComplexTypes := ["TD"] })]

/-- Two documents that include each other. -/
def mutualIncludes : List (String × Schema) :=
  [("a.xsd", { Includes := [{ SchemaLocation := "b.xsd" }], ComplexTypes := ["TA"] }),
   ("b.xsd", { Includes := [{ SchemaLocation := "a.xsd" }], ComplexTypes := ["TB"] })]

/-- A root that includes a document which includes itself. -/
def selfInclude : List (String × Schema) :=
  [("root.xsd", { Includes := [{ SchemaLocation := "x.xsd" }] }),
   ("x.xsd", { Includes := [{ SchemaLocation := "x.xsd" }] })]

/-- A root importing the cached `a.xsd`. -/
def importsCached : List (String × Schema) :=
  [("r.xsd", { TargetNamespace := "urn:r"
               Imports := [{ Namespace := "urn:x", SchemaLocation := "a.xsd" }] }),
   ("a.xsd", { TargetNamespace := "urn:x" })]

/-- A root without includes that imports `m.xsd`. -/
def rootImports : List (String × Schema) :=
  [("r.xsd", { TargetNamespace := "urn:r", Elements := ["er"], ComplexTypes := ["TR"]
               Imports := [{ Namespace := "urn:m", SchemaLocation := "m.xsd" }] }),
   ("m.xsd", { TargetNamespace := "urn:m", Elements := ["em"], ComplexTypes := ["TM"] })]

/-- The scenario of §8: `a.xsd` includes `b.xsd`, which holds the one type `T`. -/
def scenario : List (String × Schema) :=
  [("a.xsd", { TargetNamespace := "urn:a", Includes := [{ SchemaLocation := "b.xsd" }] }),
   ("b.xsd", { TargetNamespace := "urn:a", ComplexTypes := ["T"] })]


/-! ## The structural collections of a document -/

/-- The five structural collections of a document (§3 "structural content"). -/
structure Content where
  Elements : List Decl := []
  Attributes : List Decl := []
  AttributeGroups : List Decl := []
  ComplexTypes : List Decl := []
  SimpleTypes : List Decl := []
  deriving DecidableEq, Repr, Inhabited

/-- Collection-wise concatenation. -/
def Content.append (a b : Content) : Content :=
  { Elements := a.Elements ++ b.Elements
    Attributes := a.Attributes ++ b.Attributes
    AttributeGroups := a.AttributeGroups ++ b.AttributeGroups
    ComplexTypes := a.ComplexTypes ++ b.ComplexTypes
    SimpleTypes := a.SimpleTypes ++ b.SimpleTypes }

instance : Append Content := ⟨Content.append⟩

/-- The structural collections held by a schema object. -/
def Schema.content (s : Schema) : Content :=
  { Elements := s.Elements
    Attributes := s.Attributes
    AttributeGroups := s.AttributeGroups
    ComplexTypes := s.ComplexTypes
    SimpleTypes := s.SimpleTypes }

/-- The assumption on `Schema.compile` (schema.go) under which statements about the
collections of a returned document are made: it resolves references inside the
declarations and changes neither the include list nor which declarations the five
structural collections hold. -/
def CompileKeepsContent (env : Env) : Prop :=
  ∀ s : Schema, (env.schemaCompile s).Includes = s.Includes ∧
    (env.schemaCompile s).content = s.content

/-- What `Cache` holds for a document without includes: the object registered for a
location whose document parses to `S` with `S.Includes = []` has no includes and
holds exactly the collections of `S`. -/
def LeafInv (env : Env) (ws : Workspace) : Prop :=
  ∀ (L : String) (q : Nat), mapLookup ws.Cache L = some q →
    ∀ (f : ReadCloser) (S : Schema), openLocation env L = .ok f → env.parseSchema f = .ok S →
      S.Includes = [] → (ws.deref q).Includes = [] ∧ (ws.deref q).content = S.content

/-- The workspace in which `loadXsd` starts resolving the dependencies of a freshly
parsed document: the request, fetch and parse are logged, the stamped document is
allocated at `ws.heap.length` and, when `cache` is set, registered under `loc`. -/
def startState (ws : Workspace) (loc : String) (cache : Bool) (parsed : Schema) : Workspace :=
  registerSchema
    ((((ws.log (.load loc cache)).log (.fetch loc)).log (.parse loc)).alloc
      (stampSchema ws loc parsed)).1 loc cache ws.heap.length

/-- The collections of the document an include entry resolves to, when that document
can be fetched and parsed (empty otherwise). -/
def includedContent (env : Env) (dir : String) (si : Include) : Content :=
  match openLocation env (env.joinLocation dir si.SchemaLocation) with
  | .ok f =>
    match env.parseSchema f with
    | .ok S => S.content
    | .error _ => {}
  | .error _ => {}

/-- An include entry resolves to a document that fetches, parses and has no includes
of its own. -/
def IncludesLeaf (env : Env) (dir : String) (si : Include) : Prop :=
  ∃ (f : ReadCloser) (S : Schema),
    openLocation env (env.joinLocation dir si.SchemaLocation) = .ok f ∧
    env.parseSchema f = .ok S ∧ S.Includes = []

/-- The document `s` with its import entries replaced. -/
def withImports (s : Schema) (imports : List Import) : Schema := { s with Imports := imports }

/-- The kinds of structural collection. -/
inductive Kind where
  | elements
  | attributes
  | attributeGroups
  | complexTypes
  | simpleTypes
  deriving DecidableEq, Repr

/-- The collection of a given kind. -/
def Content.get (c : Content) : Kind → List Decl
  | .elements => c.Elements
  | .attributes => c.Attributes
  | .attributeGroups => c.AttributeGroups
  | .complexTypes => c.ComplexTypes
  | .simpleTypes => c.SimpleTypes

/-- Everything of a workspace but the contents of its heap cells only grows: keys of
`Cache` keep their pointers, the trace is extended, the heap does not shrink and the
configuration is kept. -/
structure Grow (ws ws2 : Workspace) : Prop where
  cache : ∀ (k : String) (v : Nat), mapLookup ws.Cache k = some v → mapLookup ws2.Cache k = some v
  trace : ws.trace <+: ws2.trace
  heap : ws.heap.length ≤ ws2.heap.length
  modules : ws2.GoModulesPath = ws.GoModulesPath
  overrides : ws2.xmlnsOverrides = ws.xmlnsOverrides

/-- Different keys of `Cache` hold different pointers. -/
def CacheInj (ws : Workspace) : Prop :=
  ∀ (k1 k2 : String) (v : Nat),
    mapLookup ws.Cache k1 = some v → mapLookup ws.Cache k2 = some v → k1 = k2

/-- Every location whose load was requested with the cache flag set is a key of `Cache`. -/
def RequestedAreKeys (ws : Workspace) : Prop :=
  ∀ L : String, Event.load L true ∈ ws.trace → (mapLookup ws.Cache L).isSome

/-- The assumption on `Schema.compile` (schema.go) under which statements about which
locations a run requests are made: it does not change the import entries. -/
def CompileKeepsImports (env : Env) : Prop :=
  ∀ s : Schema, (env.schemaCompile s).Imports = s.Imports

/-- The event `ev` is a fetch that failed with `e`, or the parse of a fetched stream
that failed with `e`. -/
def FailedAt (env : Env) (ev : Event) (e : String) : Prop :=
  match ev with
  | .fetch L => openLocation env L = .error e
  | .parse L => ∃ f, openLocation env L = .ok f ∧ env.parseSchema f = .error e
  | .load _ _ => False

/-- Among the events `evs` there is a fetch or parse that failed with `e`. -/
def Failure (env : Env) (evs : List Event) (e : String) : Prop :=
  ∃ ev ∈ evs, FailedAt env ev e

/-- The workspace `NewWorkspace` starts from. -/
def initialWorkspace (goModulesPath : String) (ov : List (String × String)) : Workspace :=
  { GoModulesPath := goModulesPath, xmlnsOverrides := ov }

/-- How many of the locations `V` are not keys of the cache. -/
def uncachedKeys (V : List String) (cache : List (String × Nat)) : Nat :=
  (V.filter (fun L => (mapLookup cache L).isNone)).length

/-- Every import entry of every object on the heap is a reference that the document the
object was parsed from carries: `Imp L r` says that the document at location `L`
has, after its includes are merged, an import entry with schemaLocation `r`. The
object knows its location from the stamp of line 74. -/
def ImportsIn (Imp : String → String → Prop) (ws : Workspace) : Prop :=
  ∀ (q : Nat) (m : Import), m ∈ (ws.deref q).Imports →
    Imp (ws.deref q).filePath m.SchemaLocation

/-- Every key of `Cache` points to an object stamped with that key as its file path. -/
def CacheFiles (ws : Workspace) : Prop :=
  ∀ (k : String) (v : Nat), mapLookup ws.Cache k = some v → (ws.deref v).filePath = k

/-- A finite document graph on which `loadXsd` of `root` is shown to terminate. `V` is
the finite list of its locations. `Imp L r` holds of the import references of the
document at `L`: its own import entries and those of the documents it includes, which
the merge of line 104 hands to it. `V` contains what the include entries of a document
of `V` and its import references resolve to from its base directory. `rank` (bounded
by `R`) strictly decreases along every include edge that does not lead back to `root`,
so that every cycle of include edges passes through the root. Import edges are
unrestricted, and nothing is asked of locations that cannot be fetched or parsed. -/
structure IncludeRanked (env : Env) (V : List String) (Imp : String → String → Prop)
    (rank : String → Nat) (R : Nat) (root : String) : Prop where
  compile_imports : CompileKeepsImports env
  compile_filePath : ∀ s : Schema, (env.schemaCompile s).filePath = s.filePath
  own : ∀ L ∈ V, ∀ (f : ReadCloser) (S : Schema),
    openLocation env L = .ok f → env.parseSchema f = .ok S →
    ∀ m ∈ S.Imports, Imp L m.SchemaLocation
  inherited : ∀ L ∈ V, ∀ (f : ReadCloser) (S : Schema) (d : String),
    openLocation env L = .ok f → env.parseSchema f = .ok S → baseDir env L = .ok d →
    ∀ i ∈ S.Includes, ∀ r, Imp (env.joinLocation d i.SchemaLocation) r → Imp L r
  includes_closed : ∀ L ∈ V, ∀ (f : ReadCloser) (S : Schema) (d : String),
    openLocation env L = .ok f → env.parseSchema f = .ok S → baseDir env L = .ok d →
    ∀ i ∈ S.Includes, env.joinLocation d i.SchemaLocation ∈ V
  imports_closed : ∀ L ∈ V, ∀ (d r : String), baseDir env L = .ok d → Imp L r →
    env.joinLocation d r ∈ V
  bound : ∀ L ∈ V, rank L ≤ R
  rank_dec : ∀ L ∈ V, ∀ (f : ReadCloser) (S : Schema) (d : String),
    openLocation env L = .ok f → env.parseSchema f = .ok S → baseDir env L = .ok d →
    ∀ i ∈ S.Includes, env.joinLocation d i.SchemaLocation = root ∨
      rank (env.joinLocation d i.SchemaLocation) < rank L

/-- What a run on a ranked graph keeps true of the heap and the cache: the import
entries are references of their documents, the cached objects carry their keys, and
the cached pointers are allocated. -/
structure Tracked (Imp : String → String → Prop) (ws : Workspace) : Prop where
  imports : ImportsIn Imp ws
  files : CacheFiles ws
  valid : CacheValid ws

/-- The state in which a document resolves its dependencies during a run on a ranked
graph: the heap and cache are tracked, the root is registered, and at most `k`
locations of `V` are not registered. -/
structure Ready (V : List String) (Imp : String → String → Prop) (root : String) (k : Nat)
    (ws : Workspace) : Prop where
  tracked : Tracked Imp ws
  rooted : (mapLookup ws.Cache root).isSome = true
  bound : uncachedKeys V ws.Cache ≤ k

/-- A loader keeps the heap and cache tracked: a load of a location of `V` that returns
a nil error returns a tracked workspace and an object stamped with the location. -/
def KeepsTracked (V : List String) (Imp : String → String → Prop)
    (load : Workspace → String → Bool → Option LoadResult) : Prop :=
  ∀ (ws : Workspace) (loc : String) (c : Bool) (ws2 : Workspace) (d : Option Nat),
    loc ∈ V → Tracked Imp ws → load ws loc c = some (ws2, d, none) →
    Tracked Imp ws2 ∧ ∃ q, d = some q ∧ (ws2.deref q).filePath = loc

/-! ## Package names, the conflict message and further examples -/

/-- The part of a namespace after its last `/`: a default package-name derivation of
the kind §4.2 mentions ("last path segment"). -/
def lastSegment (ns : String) : String :=
  String.mk (ns.data.reverse.takeWhile (fun c => c != '/')).reverse

/-- The flat directory `files` with package names derived by `lastSegment`. -/
def pkgEnv (files : List (String × Schema)) : Env :=
  { fsEnv files with defaultPackageName := lastSegment }

/-- A root importing a document of another target namespace whose last segment is the
same. -/
def conflicting : List (String × Schema) :=
  [("a.xsd", { TargetNamespace := "urn:a/foo"
               Imports := [{ Namespace := "urn:b/foo", SchemaLocation := "b.xsd" }] }),
   ("b.xsd", { TargetNamespace := "urn:b/foo" })]

/-- Line 132: the text of the error, for the package name `goPackageName`, the
namespace `prevXmlns` found in `uniqPkgNames` and the namespace `targetNamespace` of the
document at hand. -/
def conflictMessage (goPackageName prevXmlns targetNamespace : String) : String :=
  "Malformed workspace. Multiple XSD files refer to itself with xmlns shorthand: '"
    ++ goPackageName ++ "':\n - " ++ prevXmlns ++ "\n - " ++ targetNamespace
    ++ "\nWhile this is valid in XSD it is impractical for golang code generation.\n"
    ++ "Consider providing --xmlns-override=" ++ targetNamespace ++ "=mygopackage"

/-- The text `sub` occurs in `s`: `strings.Contains(s, sub)`. -/
def Contains (s sub : String) : Prop := sub.data <:+: s.data

/-- The package name of the document a cache entry points to. -/
def entryPackage (env : Env) (ws : Workspace) (e : String × Nat) : String :=
  (ws.deref e.2).GoPackageName env

/-- The target namespace of the document a cache entry points to. -/
def entryNamespace (ws : Workspace) (e : String × Nat) : String :=
  (ws.deref e.2).TargetNamespace

/-- A workspace whose cache holds exactly the two documents `SA` and `SB`, registered
under `kA` and `kB` and stamped (lines 73-75) under the overrides `ov`. -/
def twoDocuments (g : String) (ov : List (String × String)) (kA kB : String)
    (SA SB : Schema) : Workspace :=
  let w0 : Workspace := { GoModulesPath := g, xmlnsOverrides := ov }
  { w0 with
    heap := [stampSchema w0 kA SA, stampSchema w0 kB SB]
    Cache := mapInsert (mapInsert [] kA 0) kB 1 }

/-- An include whose imported-modules table meets the one of the including document
on the key `m`; the included document imports the root back. -/
def includeWithModules : List (String × Schema) :=
  [("r.xsd", { Includes := [{ SchemaLocation := "i.xsd" }]
               Imports := [{ Namespace := "urn:n", SchemaLocation := "n.xsd" }]
               Elements := ["er"], Attributes := ["ar"], AttributeGroups := ["gr"]
               ComplexTypes := ["TR"], SimpleTypes := ["SR"], inlinedElements := ["xr"]
               importedModules := [("m", 3), ("n", 4)] }),
   ("i.xsd", { Imports := [{ Namespace := "urn:r", SchemaLocation := "r.xsd" }]
               Elements := ["ei"], Attributes := ["ai"], AttributeGroups := ["gi"]
               ComplexTypes := ["TI"], SimpleTypes := ["SI"], inlinedElements := ["xi"]
               importedModules := [("m", 7), ("k", 8)] })]

/-- The workspace in which the root `r.xsd` of `includeWithModules` starts resolving
its dependencies. -/
def includingRoot : Workspace :=
  startState {} "r.xsd" true
    { Includes := [{ SchemaLocation := "i.xsd" }]
      Imports := [{ Namespace := "urn:n", SchemaLocation := "n.xsd" }]
      Elements := ["er"], Attributes := ["ar"], AttributeGroups := ["gr"]
      ComplexTypes := ["TR"], SimpleTypes := ["SR"], inlinedElements := ["xr"]
      importedModules := [("m", 3), ("n", 4)] }

/-- Two cached documents of namespaces `urn:a/foo` and `urn:b/foo`, stamped under the
overrides `ov`. -/
def fooDocuments (ov : List (String × String)) : Workspace :=
  twoDocuments "" ov "a.xsd" "b.xsd" { TargetNamespace := "urn:a/foo" }
    { TargetNamespace := "urn:b/foo" }

/-- The function `filepath.Dir` on slash-separated relative paths: what stands before
the last `/`, and `.` when there is no `/`. -/
def parentDir (path : String) : String :=
  match path.data.reverse.dropWhile (fun c => c != '/') with
  | [] => "."
  | _ :: [] => "/"
  | _ :: d => String.mk d.reverse

/-- The files `files` in their directories: the base directory of a path is its parent
directory and a reference is joined to it with `/`. -/
def dirEnv (files : List (String × Schema)) : Env :=
  { fsEnv files with filepathDir := parentDir }

/-- A graph over two directories: the root `a.xsd` includes `sub/b.xsd` and `d.xsd` and
imports `sub/m.xsd`; `d.xsd` includes the root back; `sub/b.xsd` and `sub/m.xsd`
include `sub/c.xsd`; `sub/m.xsd` imports itself. -/
def twoDirectories : List (String × Schema) :=
  [("a.xsd", { Includes := [{ SchemaLocation := "sub/b.xsd" }, { SchemaLocation := "d.xsd" }]
               Imports := [{ Namespace := "urn:m", SchemaLocation := "sub/m.xsd" }]
               ComplexTypes := ["TA"] }),
   ("d.xsd", { Includes := [{ SchemaLocation := "a.xsd" }], ComplexTypes := ["TD"] }),
   ("sub/b.xsd", { Includes := [{ SchemaLocation := "c.xsd" }], ComplexTypes := ["TB"] }),
   ("sub/c.xsd", { ComplexTypes := ["TC"] }),
   ("sub/m.xsd", { TargetNamespace := "urn:m"
                   Includes := [{ SchemaLocation := "c.xsd" }]
                   Imports := [{ Namespace := "urn:m", SchemaLocation := "m.xsd" }]
                   ComplexTypes := ["TM"] })]

/-- The locations of `twoDirectories`. -/
def twoDirectoriesLocations : List String :=
  ["a.xsd", "d.xsd", "sub/b.xsd", "sub/c.xsd", "sub/m.xsd"]

/-- The import references of the documents of `twoDirectories`: the root's own, which
`d.xsd` inherits by including the root, and the one of `sub/m.xsd`. -/
def twoDirectoriesImp (L r : String) : Prop :=
  ((L = "a.xsd" ∨ L = "d.xsd") ∧ r = "sub/m.xsd") ∨ (L = "sub/m.xsd" ∧ r = "m.xsd")

/-- A rank on `twoDirectories` that decreases along the include edges that do not lead
to the root. -/
def twoDirectoriesRank (L : String) : Nat :=
  if L = "a.xsd" then 2 else if L = "sub/c.xsd" then 0 else 1

/-- The documents reachable from `root` through include and import edges: an edge
leads from a document that fetches and parses to what one of its include or import
entries resolves to from its base directory. -/
inductive Reachable (env : Env) (root : String) : String → Prop
  | root : Reachable env root root
  | included (L : String) (f : ReadCloser) (S : Schema) (d : String) (i : Include) :
      Reachable env root L → openLocation env L = .ok f → env.parseSchema f = .ok S →
      baseDir env L = .ok d → i ∈ S.Includes →
      Reachable env root (env.joinLocation d i.SchemaLocation)
  | imported (L : String) (f : ReadCloser) (S : Schema) (d : String) (m : Import) :
      Reachable env root L → openLocation env L = .ok f → env.parseSchema f = .ok S →
      baseDir env L = .ok d → m ∈ S.Imports →
      Reachable env root (env.joinLocation d m.SchemaLocation)

/-- The fetch of `L` fails, or it succeeds and the parse of the stream fails. -/
def Unloadable (env : Env) (L : String) : Prop :=
  (∃ e, openLocation env L = .error e) ∨
  (∃ f e, openLocation env L = .ok f ∧ env.parseSchema f = .error e)

/-- The document at `L` fetches and parses, its base directory is computed, and the
trace holds a request for the target of each of its include and import entries. -/
def Resolved (env : Env) (ws : Workspace) (L : String) : Prop :=
  ∃ (f : ReadCloser) (S : Schema) (d : String),
    openLocation env L = .ok f ∧ env.parseSchema f = .ok S ∧ baseDir env L = .ok d ∧
    (∀ i ∈ S.Includes, Event.load (env.joinLocation d i.SchemaLocation) false ∈ ws.trace) ∧
    (∀ m ∈ S.Imports, Event.load (env.joinLocation d m.SchemaLocation) true ∈ ws.trace)

/-- Every location that was requested or registered is resolved, except the locations
`P` whose loads are still in progress. -/
def Settled (env : Env) (P : List String) (ws : Workspace) : Prop :=
  (∀ L c, Event.load L c ∈ ws.trace → Resolved env ws L ∨ L ∈ P) ∧
  (∀ L, (mapLookup ws.Cache L).isSome = true → Resolved env ws L ∨ L ∈ P)

/-- A `Close` of a fetched stream fails with `e`. -/
def CloseFails (env : Env) (e : String) : Prop :=
  ∃ L f, openLocation env L = .ok f ∧ f.closeErr = some e

/-- The computation of a base directory (the `url.Parse` of line 86) fails with `e`. -/
def DirFails (env : Env) (e : String) : Prop :=
  ∃ L, baseDir env L = .error e

/-- A root whose two includes both point at files that do not exist. -/
def twoMissing : List (String × Schema) :=
  [("a.xsd", { Includes := [{ SchemaLocation := "gone1.xsd" }, { SchemaLocation := "gone2.xsd" }] })]

/-- Where the error `e` at the end of the trace of `ws` comes from: a fetch or parse
logged in the trace failed with `e`, or a `Close` failed with `e`, or the computation
of a base directory failed with `e`. -/
def ErrorOrigin (env : Env) (ws : Workspace) (e : String) : Prop :=
  Failure env ws.trace e ∨ CloseFails env e ∨ DirFails env e

/-- A root that includes `b.xsd`, which exists, and imports `gone.xsd`, which does not. -/
def missingImport : List (String × Schema) :=
  [("a.xsd", { TargetNamespace := "urn:a", Includes := [{ SchemaLocation := "b.xsd" }]
               Imports := [{ Namespace := "urn:g", SchemaLocation := "gone.xsd" }] }),
   ("b.xsd", { TargetNamespace := "urn:a", ComplexTypes := ["TB"] })]

/-- The locations of `missingImport`. -/
def missingImportLocations : List String := ["a.xsd", "b.xsd", "gone.xsd"]

/-- The import references of the documents of `missingImport`. -/
def missingImportImp (L r : String) : Prop := L = "a.xsd" ∧ r = "gone.xsd"

/-- A rank on `missingImport`. -/
def missingImportRank (L : String) : Nat := if L = "a.xsd" then 1 else 0

/-- The collections of the document at `L` as the parser delivers them (empty when it
cannot be fetched or parsed). -/
def ownContent (env : Env) (L : String) : Content :=
  match openLocation env L with
  | .ok f =>
    match env.parseSchema f with
    | .ok S => S.content
    | .error _ => {}
  | .error _ => {}

/-- The collections of the documents `docs`, one block per entry, in this order. -/
def blockContent (env : Env) (docs : List String) : Content :=
  (docs.map (ownContent env)).foldr (fun c acc => c ++ acc) {}

/-- Fold of the include entries `incs` of a document whose base directory is `d`: the
blocks `expand` gives for each target are put in front of the blocks `cur` held so
far. -/
def foldBlocks (env : Env) (expand : String → Option (List String)) (d : String) :
    List Include → List String → Option (List String)
  | [], cur => some cur
  | i :: rest, cur =>
    match expand (env.joinLocation d i.SchemaLocation) with
    | none => none
    | some ds => foldBlocks env expand d rest (ds ++ cur)

/-- The include paths below `loc`, as the list of the documents at their ends in the
order in which their collections are merged: the blocks of each include target, the
later entries first, then `loc` itself. An include entry that names the root ends
the path with the blocks `acc` the root holds at that moment. The first argument
bounds the length of the paths. -/
def includeBlocks (env : Env) (root : String) (acc : List String) :
    Nat → String → Option (List String)
  | 0, _ => none
  | n + 1, loc =>
    if loc = root then some acc
    else
      match openLocation env loc with
      | .error _ => none
      | .ok f =>
        match env.parseSchema f with
        | .error _ => none
        | .ok S =>
          match baseDir env loc with
          | .error _ => none
          | .ok d => foldBlocks env (includeBlocks env root acc n) d S.Includes [loc]

/-- The fold of the include entries of the root: as `foldBlocks`, an include entry being
expanded with the blocks the root holds when it is reached. -/
def foldRootBlocks (env : Env) (root : String) (n : Nat) (d : String) :
    List Include → List String → Option (List String)
  | [], cur => some cur
  | i :: rest, cur =>
    match includeBlocks env root cur n (env.joinLocation d i.SchemaLocation) with
    | none => none
    | some ds => foldRootBlocks env root n d rest (ds ++ cur)

/-- The include paths from the root, as the list of the documents at their ends in the
order in which their collections are merged into the root. -/
def rootBlocks (env : Env) : Nat → String → Option (List String)
  | 0, _ => none
  | n + 1, root =>
    match openLocation env root with
    | .error _ => none
    | .ok f =>
      match env.parseSchema f with
      | .error _ => none
      | .ok S =>
        match baseDir env root with
        | .error _ => none
        | .ok d => foldRootBlocks env root n d S.Includes [root]

/-- No request for an include target other than the root comes after a request for the
same location as an import target: `seen` are the locations requested with the
cache flag so far. -/
def includesFresh (root : String) : List Event → List String → Bool
  | [], _ => true
  | Event.load L true :: rest, seen => includesFresh root rest (L :: seen)
  | Event.load L false :: rest, seen =>
    (decide (L = root) || !decide (L ∈ seen)) && includesFresh root rest seen
  | Event.fetch _ :: rest, seen => includesFresh root rest seen
  | Event.parse _ :: rest, seen => includesFresh root rest seen

/-- Every key of `Cache` other than the root was requested with the cache flag. -/
def KeysLogged (root : String) (ws : Workspace) : Prop :=
  ∀ T, (mapLookup ws.Cache T).isSome = true → T = root ∨ Event.load T true ∈ ws.trace

/-- A chain of includes: the root includes `b.xsd`, which includes `d.xsd`. -/
def includeChain : List (String × Schema) :=
  [("r.xsd", { Includes := [{ SchemaLocation := "b.xsd" }], ComplexTypes := ["TR"] }),
   ("b.xsd", { Includes := [{ SchemaLocation := "d.xsd" }], ComplexTypes := ["TB"] }),
   ("d.xsd", { ComplexTypes := ["TD"] })]

/-- The trace `t` holds no request for an include target other than the root after a
request for the same location as an import target. -/
def FreshIncludes (root : String) (t : List Event) : Prop :=
  ∀ (a b : List Event) (T : String), t = a ++ Event.load T false :: b →
    T = root ∨ Event.load T true ∉ a

/-- What is to be shown of loads of include targets with fuel `m`: when the root is
registered at `p0` and holds the blocks `acc`, a successful load of `loc` as an include
target, in a run with fresh includes, returns the blocks `includeBlocks` computes. -/
def IncludeBlocksSound (env : Env) (root : String) (m : Nat) : Prop :=
  ∀ (acc : List String) (p0 : Nat) (ws : Workspace) (loc : String) (ws2 : Workspace) (q : Nat),
    ws.loadXsd env m loc false = some (ws2, some q, none) →
    FreshIncludes root ws2.trace → KeysLogged root ws →
    mapLookup ws.Cache root = some p0 → p0 < ws.heap.length →
    (ws.deref p0).content = blockContent env acc →
    ∃ docs, includeBlocks env root acc m loc = some docs ∧
      (ws2.deref q).content = blockContent env docs

/-- Every location of `V` fetches, parses and closes without error, and its base
directory is computed without error. -/
def AllLoad (env : Env) (V : List String) : Prop :=
  ∀ L ∈ V, ∃ (f : ReadCloser) (S : Schema) (d : String), openLocation env L = .ok f ∧
    f.closeErr = none ∧ env.parseSchema f = .ok S ∧ baseDir env L = .ok d

/-- The location `T` is requested by a document of `V`: with the flag `false`, an include
entry of a document of `V` resolves to `T`; with the flag `true`, an import reference
of a document of `V` does. -/
def Requested (env : Env) (V : List String) (Imp : String → String → Prop) (T : String) :
    Bool → Prop
  | false => ∃ L ∈ V, ∃ (f : ReadCloser) (S : Schema) (d : String) (i : Include),
      openLocation env L = .ok f ∧ env.parseSchema f = .ok S ∧ baseDir env L = .ok d ∧
      i ∈ S.Includes ∧ env.joinLocation d i.SchemaLocation = T
  | true => ∃ L ∈ V, ∃ (d r : String), baseDir env L = .ok d ∧ Imp L r ∧
      env.joinLocation d r = T

/-- No include entry of a document of `V`, other than one that names the root, resolves
to a location that an import reference of a document of `V` resolves to. -/
def IncludesApart (env : Env) (V : List String) (Imp : String → String → Prop)
    (root : String) : Prop :=
  ∀ T, Requested env V Imp T false → T = root ∨ ¬ Requested env V Imp T true

/-- What is to be shown of the requests a successful load logs: each is one the
workspace had logged before, the request of this load, or a request of a document of
`V`. -/
def KeepsRequests (env : Env) (V : List String) (Imp : String → String → Prop)
    (load : Workspace → String → Bool → Option LoadResult) : Prop :=
  ∀ (ws : Workspace) (loc : String) (c : Bool) (ws2 : Workspace) (d : Option Nat),
    loc ∈ V → Tracked Imp ws → load ws loc c = some (ws2, d, none) →
    ∀ (T : String) (b : Bool), Event.load T b ∈ ws2.trace →
      Event.load T b ∈ ws.trace ∨ (T = loc ∧ b = c) ∨ Requested env V Imp T b

/-- The pair `a.xsd` and `b.xsd`, which include each other, where `a.xsd` also imports
the leaf `leaf.xsd`. -/
def pairWithLeaf : List (String × Schema) :=
  [("a.xsd", { TargetNamespace := "urn:a", Includes := [{ SchemaLocation := "b.xsd" }]
               Imports := [{ Namespace := "urn:l", SchemaLocation := "leaf.xsd" }]
               ComplexTypes := ["TA"] }),
   ("b.xsd", { TargetNamespace := "urn:a", Includes := [{ SchemaLocation := "a.xsd" }]
               ComplexTypes := ["TB"] }),
   ("leaf.xsd", { TargetNamespace := "urn:l", ComplexTypes := ["TL"] })]

/-- The locations of `pairWithLeaf`. -/
def pairWithLeafLocations : List String := ["a.xsd", "b.xsd", "leaf.xsd"]

/-- The import references of the documents of `pairWithLeaf`: the one of `a.xsd`, which
`b.xsd` inherits by including `a.xsd`. -/
def pairWithLeafImp (L r : String) : Prop := (L = "a.xsd" ∨ L = "b.xsd") ∧ r = "leaf.xsd"

/-- A rank on `pairWithLeaf`. -/
def pairWithLeafRank (L : String) : Nat := if L = "a.xsd" then 1 else 0

/-- The pair `a.xsd` and `b.xsd`, which include each other, where `a.xsd` holds the
include entry for `b.xsd` twice. -/
def doubleInclude : List (String × Schema) :=
  [("a.xsd", { Includes := [{ SchemaLocation := "b.xsd" }, { SchemaLocation := "b.xsd" }]
               ComplexTypes := ["TA"] }),
   ("b.xsd", { Includes := [{ SchemaLocation := "a.xsd" }], ComplexTypes := ["TB"] })]

/-- The pair `a.xsd` and `b.xsd`, which include each other, where `b.xsd` also includes
itself. -/
def pairSelfInclude : List (String × Schema) :=
  [("a.xsd", { Includes := [{ SchemaLocation := "b.xsd" }], ComplexTypes := ["TA"] }),
   ("b.xsd", { Includes := [{ SchemaLocation := "a.xsd" }, { SchemaLocation := "b.xsd" }]
               ComplexTypes := ["TB"] })]

/-- The pair `a.xsd` and `b.xsd`, which include each other, where `a.xsd` also includes
`gone.xsd`, which does not exist. -/
def pairMissing : List (String × Schema) :=
  [("a.xsd", { Includes := [{ SchemaLocation := "b.xsd" }, { SchemaLocation := "gone.xsd" }]
               ComplexTypes := ["TA"] }),
   ("b.xsd", { Includes := [{ SchemaLocation := "a.xsd" }], ComplexTypes := ["TB"] })]

/-- An include entry resolved after an import entry for the same location: the root
`a.xsd` includes `b.xsd`, which imports `c.xsd`, and then `c.xsd`, which includes the
root. -/
def includeAfterImport : List (String × Schema) :=
  [("a.xsd", { Includes := [{ SchemaLocation := "b.xsd" }, { SchemaLocation := "c.xsd" }]
               ComplexTypes := ["TA"] }),
   ("b.xsd", { Imports := [{ Namespace := "urn:c", SchemaLocation := "c.xsd" }]
               ComplexTypes := ["TB"] }),
   ("c.xsd", { TargetNamespace := "urn:c", Includes := [{ SchemaLocation := "a.xsd" }]
               ComplexTypes := ["TC"] })]

/-! ## Maps and the heap -/

theorem mapLookup_mapInsert {α : Type} (m : List (String × α)) (k k2 : String) (v : α) :
    mapLookup (mapInsert m k v) k2 = if k = k2 then some v else mapLookup m k2 := by
  induction m with
  | nil => simp [mapInsert, mapLookup]
  | cons hd tl ih =>
    obtain ⟨a, w⟩ := hd
    by_cases h : a = k
    · subst h
      by_cases h2 : a = k2 <;> simp [mapInsert, mapLookup, h2]
    · by_cases h2 : a = k2
      · subst h2
        have : ¬ k = a := fun e => h e.symm
        simp [mapInsert, mapLookup, h, this]
      · simp [mapInsert, mapLookup, h, h2, ih]

theorem mapLookup_isSome_iff {α : Type} (m : List (String × α)) (k : String) :
    (mapLookup m k).isSome ↔ k ∈ mapKeys m := by
  induction m with
  | nil => simp [mapLookup, mapKeys]
  | cons hd tl ih =>
    obtain ⟨a, w⟩ := hd
    by_cases h : a = k
    · simp [mapLookup, mapKeys, h]
    · have h2 : ¬ k = a := fun e => h e.symm
      simp only [mapLookup, h, if_false, ih]
      simp [mapKeys, h2]

theorem mapLookup_eq_none_iff {α : Type} (m : List (String × α)) (k : String) :
    mapLookup m k = none ↔ k ∉ mapKeys m := by
  rw [← mapLookup_isSome_iff]
  cases mapLookup m k <;> simp

@[simp] theorem log_heap (ws : Workspace) (e : Event) : (ws.log e).heap = ws.heap := rfl
@[simp] theorem log_Cache (ws : Workspace) (e : Event) : (ws.log e).Cache = ws.Cache := rfl
@[simp] theorem log_trace (ws : Workspace) (e : Event) : (ws.log e).trace = ws.trace ++ [e] := rfl
@[simp] theorem log_GoModulesPath (ws : Workspace) (e : Event) :
    (ws.log e).GoModulesPath = ws.GoModulesPath := rfl
@[simp] theorem log_xmlnsOverrides (ws : Workspace) (e : Event) :
    (ws.log e).xmlnsOverrides = ws.xmlnsOverrides := rfl
@[simp] theorem log_deref (ws : Workspace) (e : Event) (p : Nat) :
    (ws.log e).deref p = ws.deref p := rfl

@[simp] theorem store_heap (ws : Workspace) (p : Nat) (s : Schema) :
    (ws.store p s).heap = ws.heap.set p s := rfl
@[simp] theorem store_Cache (ws : Workspace) (p : Nat) (s : Schema) :
    (ws.store p s).Cache = ws.Cache := rfl
@[simp] theorem store_trace (ws : Workspace) (p : Nat) (s : Schema) :
    (ws.store p s).trace = ws.trace := rfl
@[simp] theorem store_GoModulesPath (ws : Workspace) (p : Nat) (s : Schema) :
    (ws.store p s).GoModulesPath = ws.GoModulesPath := rfl
@[simp] theorem store_xmlnsOverrides (ws : Workspace) (p : Nat) (s : Schema) :
    (ws.store p s).xmlnsOverrides = ws.xmlnsOverrides := rfl

@[simp] theorem alloc_heap (ws : Workspace) (s : Schema) :
    (ws.alloc s).1.heap = ws.heap ++ [s] := rfl
@[simp] theorem alloc_ptr (ws : Workspace) (s : Schema) : (ws.alloc s).2 = ws.heap.length := rfl
@[simp] theorem alloc_Cache (ws : Workspace) (s : Schema) : (ws.alloc s).1.Cache = ws.Cache := rfl
@[simp] theorem alloc_trace (ws : Workspace) (s : Schema) : (ws.alloc s).1.trace = ws.trace := rfl
@[simp] theorem alloc_GoModulesPath (ws : Workspace) (s : Schema) :
    (ws.alloc s).1.GoModulesPath = ws.GoModulesPath := rfl
@[simp] theorem alloc_xmlnsOverrides (ws : Workspace) (s : Schema) :
    (ws.alloc s).1.xmlnsOverrides = ws.xmlnsOverrides := rfl

theorem deref_store_same (ws : Workspace) (p : Nat) (s : Schema) (h : p < ws.heap.length) :
    (ws.store p s).deref p = s := by
  simp [Workspace.deref, Workspace.store, List.getD_eq_getElem?_getD, List.getElem?_set, h]

theorem deref_store_other (ws : Workspace) (p q : Nat) (s : Schema) (h : p ≠ q) :
    (ws.store p s).deref q = ws.deref q := by
  simp [Workspace.deref, Workspace.store, List.getD_eq_getElem?_getD, List.getElem?_set, h]

theorem deref_alloc_new (ws : Workspace) (s : Schema) :
    (ws.alloc s).1.deref ws.heap.length = s := by
  simp [Workspace.deref, Workspace.alloc, List.getD_eq_getElem?_getD]

theorem deref_alloc_old (ws : Workspace) (s : Schema) (q : Nat) (h : q < ws.heap.length) :
    (ws.alloc s).1.deref q = ws.deref q := by
  simp [Workspace.deref, Workspace.alloc, List.getD_eq_getElem?_getD, List.getElem?_append_left h]

/-! ## The loops, one iteration at a time -/

theorem loadIncludes_cons (env : Env) (load : Workspace → String → Bool → Option LoadResult)
    (dir : String) (p : Nat) (si : Include) (rest : List Include) (ws : Workspace) :
    loadIncludes env load dir p (si :: rest) ws =
      match load ws (env.joinLocation dir si.SchemaLocation) false with
      | none => none
      | some (ws1, _, some err) => some (ws1, some err)
      | some (_, none, none) => none
      | some (ws1, some isch, none) =>
        loadIncludes env load dir p rest
          (ws1.store p (mergeInclude (ws1.deref isch) (ws1.deref p))) := by
  simp only [loadIncludes, Include.load]
  cases h : load ws (env.joinLocation dir si.SchemaLocation) false with
  | none => rfl
  | some r =>
    obtain ⟨ws1, d, e⟩ := r
    cases e <;> cases d <;> rfl

theorem loadImports_cons (env : Env) (load : Workspace → String → Bool → Option LoadResult)
    (dir : String) (p : Nat) (idx : Nat) (im : Import) (rest : List Import) (ws : Workspace) :
    loadImports env load dir p idx (im :: rest) ws =
      match load ws (env.joinLocation dir im.SchemaLocation) true with
      | none => none
      | some (ws1, d, some err) =>
        some (ws1.store p { ws1.deref p with
          Imports := (ws1.deref p).Imports.set idx { im with ImportedSchema := d } }, some err)
      | some (ws1, d, none) =>
        loadImports env load dir p (idx + 1) rest
          (ws1.store p { ws1.deref p with
            Imports := (ws1.deref p).Imports.set idx { im with ImportedSchema := d } }) := by
  simp only [loadImports, Import.load]
  cases h : load ws (env.joinLocation dir im.SchemaLocation) true with
  | none => rfl
  | some r =>
    obtain ⟨ws1, d, e⟩ := r
    cases e <;> rfl

/-! ## Every run stays within `Reach` -/

theorem registerSchema_heap (ws : Workspace) (loc : String) (c : Bool) (p : Nat) :
    (registerSchema ws loc c p).heap = ws.heap := by cases c <;> rfl

theorem Reach.heap_length_le {env : Env} {b ws : Workspace} (h : Reach env b ws) :
    b.heap.length ≤ ws.heap.length := by
  induction h with
  | refl => exact le_rfl
  | logLoad _ _ _ ih => simpa using ih
  | logFetch _ _ _ ih => simpa using ih
  | logParse _ _ _ ih => simpa using ih
  | alloc _ _ _ _ _ _ ih => simp; omega
  | register _ _ _ _ _ _ _ _ ih => simp [registerSchema]; omega
  | merge _ _ _ _ _ _ ih => simpa using ih
  | link _ _ _ _ _ _ _ _ ih => simpa using ih
  | compiled _ _ _ _ ih => simpa using ih
  | call _ _ ih1 ih2 => exact le_trans ih1 ih2

theorem Reach.heap_get {env : Env} {b ws : Workspace} (h : Reach env b ws)
    (q : Nat) (hq : q < b.heap.length) : ws.heap[q]? = b.heap[q]? := by
  induction h with
  | refl => rfl
  | logLoad _ _ _ ih => simpa using ih hq
  | logFetch _ _ _ ih => simpa using ih hq
  | logParse _ _ _ ih => simpa using ih hq
  | @alloc b ws loc f parsed hr _ _ ih =>
    have hle := hr.heap_length_le
    have := ih hq
    simp only [alloc_heap]
    rw [List.getElem?_append_left (by omega)]
    exact this
  | @register b ws loc f parsed hr _ _ _ _ ih =>
    have hle := hr.heap_length_le
    have := ih hq
    rw [registerSchema_heap, alloc_heap, List.getElem?_append_left (by omega)]
    exact this
  | merge p _ _ hp _ _ ih =>
    have := ih hq
    simp only [store_heap, List.getElem?_set]
    have hne : p ≠ q := by omega
    simpa [hne] using this
  | link p _ _ _ _ hp _ _ ih =>
    have := ih hq
    simp only [store_heap, List.getElem?_set]
    have hne : p ≠ q := by omega
    simpa [hne] using this
  | compiled p _ hp _ ih =>
    have := ih hq
    simp only [store_heap, List.getElem?_set]
    have hne : p ≠ q := by omega
    simpa [hne] using this
  | @call b ws ws2 h1 _ ih1 ih2 =>
    have hle := h1.heap_length_le
    rw [ih2 (by omega), ih1 hq]

theorem Reach.deref_eq {env : Env} {b ws : Workspace} (h : Reach env b ws)
    (q : Nat) (hq : q < b.heap.length) : ws.deref q = b.deref q := by
  simp only [Workspace.deref, List.getD_eq_getElem?_getD, h.heap_get q hq]

theorem loadIncludes_reach (env : Env) (load : Workspace → String → Bool → Option LoadResult)
    (hload : ∀ ws loc c r, load ws loc c = some r → Reach env ws r.1)
    (dir : String) (p : Nat) (b : Workspace) (hp : b.heap.length ≤ p) :
    ∀ (incs : List Include) (ws : Workspace) (r : Workspace × Option String),
      Reach env b ws → p < ws.heap.length → (incs ≠ [] → (ws.deref p).Includes ≠ []) →
      loadIncludes env load dir p incs ws = some r → Reach env b r.1 ∧ p < r.1.heap.length := by
  intro incs
  induction incs with
  | nil =>
    intro ws r hb hlt _ h
    simp only [loadIncludes, Option.some.injEq] at h
    subst h; exact ⟨hb, hlt⟩
  | cons si rest ih =>
    intro ws r hb hlt hne h
    rw [loadIncludes_cons] at h
    cases hl : load ws (env.joinLocation dir si.SchemaLocation) false with
    | none => rw [hl] at h; simp at h
    | some res =>
      obtain ⟨ws1, d, e⟩ := res
      have hr1 : Reach env ws ws1 := hload _ _ _ _ hl
      have h1 : Reach env b ws1 := Reach.call hb hr1
      have hlt1 : p < ws1.heap.length := lt_of_lt_of_le hlt hr1.heap_length_le
      have hinc : (ws1.deref p).Includes ≠ [] := by
        rw [hr1.deref_eq p hlt]; exact hne (by simp)
      rw [hl] at h
      cases e with
      | some err =>
        simp only [Option.some.injEq] at h
        subst h; exact ⟨h1, hlt1⟩
      | none =>
        cases d with
        | none => simp at h
        | some isch =>
          simp only at h
          refine ih _ _ (Reach.merge p isch h1 hp hlt1 hinc) (by simpa using hlt1) ?_ h
          intro _
          rw [deref_store_same _ _ _ hlt1]
          exact hinc

theorem loadImports_reach (env : Env) (load : Workspace → String → Bool → Option LoadResult)
    (hload : ∀ ws loc c r, load ws loc c = some r → Reach env ws r.1)
    (dir : String) (p : Nat) (b : Workspace) (hp : b.heap.length ≤ p) :
    ∀ (imps : List Import) (idx : Nat) (ws : Workspace) (r : Workspace × Option String),
      Reach env b ws → p < ws.heap.length → (ws.deref p).Imports.drop idx = imps →
      loadImports env load dir p idx imps ws = some r → Reach env b r.1 ∧ p < r.1.heap.length := by
  intro imps
  induction imps with
  | nil =>
    intro idx ws r hb hlt _ h
    simp only [loadImports, Option.some.injEq] at h
    subst h; exact ⟨hb, hlt⟩
  | cons im rest ih =>
    intro idx ws r hb hlt hdrop h
    rw [loadImports_cons] at h
    cases hl : load ws (env.joinLocation dir im.SchemaLocation) true with
    | none => rw [hl] at h; simp at h
    | some res =>
      obtain ⟨ws1, d, e⟩ := res
      have hr1 : Reach env ws ws1 := hload _ _ _ _ hl
      have h1 : Reach env b ws1 := Reach.call hb hr1
      have hlt1 : p < ws1.heap.length := lt_of_lt_of_le hlt hr1.heap_length_le
      have hdrop1 : (ws1.deref p).Imports.drop idx = im :: rest := by
        rw [hr1.deref_eq p hlt]; exact hdrop
      have hget : (ws1.deref p).Imports[idx]? = some im := by
        have := List.getElem?_drop (ws1.deref p).Imports idx 0
        rw [hdrop1] at this
        simpa using this.symm
      have h2 := Reach.link p idx im d h1 hp hlt1 hget
      rw [hl] at h
      cases e with
      | some err =>
        simp only [Option.some.injEq] at h
        subst h; exact ⟨h2, by simpa using hlt1⟩
      | none =>
        simp only at h
        refine ih _ _ _ h2 (by simpa using hlt1) ?_ h
        rw [deref_store_same _ _ _ hlt1]
        show ((ws1.deref p).Imports.set idx _).drop (idx + 1) = rest
        rw [List.drop_set_of_lt _ _ (Nat.lt_succ_self idx), ← List.tail_drop, hdrop1]
        rfl

theorem loadDeps_reach (env : Env) (load : Workspace → String → Bool → Option LoadResult)
    (hload : ∀ ws loc c r, load ws loc c = some r → Reach env ws r.1)
    (b ws : Workspace) (xsdPath : String) (p : Nat) (r : LoadResult)
    (hb : Reach env b ws) (hp0 : b.heap.length ≤ p) (hlt : p < ws.heap.length)
    (h : loadDeps env load ws xsdPath p = some r) : Reach env b r.1 := by
  unfold loadDeps at h
  cases hd : baseDir env xsdPath with
  | error e =>
    rw [hd] at h
    simp only [Option.some.injEq] at h
    subst h; exact hb
  | ok dir =>
    rw [hd] at h
    simp only at h
    cases hi : loadIncludes env load dir p (ws.deref p).Includes ws with
    | none => rw [hi] at h; simp at h
    | some ri =>
      obtain ⟨ws3, e3⟩ := ri
      obtain ⟨h3, hlt3⟩ :=
        loadIncludes_reach env load hload dir _ b hp0 _ _ _ hb hlt (fun hne => hne) hi
      rw [hi] at h
      cases e3 with
      | some e =>
        simp only [Option.some.injEq] at h
        subst h; exact h3
      | none =>
        simp only at h
        cases hm : loadImports env load dir p 0 (ws3.deref p).Imports ws3 with
        | none => rw [hm] at h; simp at h
        | some rm =>
          obtain ⟨ws4, e4⟩ := rm
          obtain ⟨h4, hlt4⟩ :=
            loadImports_reach env load hload dir _ b hp0 _ _ _ _ h3 hlt3 (by simp) hm
          rw [hm] at h
          cases e4 with
          | some e =>
            simp only [Option.some.injEq] at h
            subst h; exact h4
          | none =>
            simp only [Option.some.injEq] at h
            subst h; exact Reach.compiled _ h4 hp0 hlt4

theorem loadBody_reach (env : Env) (load : Workspace → String → Bool → Option LoadResult)
    (hload : ∀ ws loc c r, load ws loc c = some r → Reach env ws r.1)
    (b ws : Workspace) (xsdPath : String) (cache : Bool) (f : ReadCloser) (r : LoadResult)
    (hb : Reach env b ws) (hmiss : mapLookup ws.Cache xsdPath = none)
    (hlog : cache = true → Event.load xsdPath true ∈ ws.trace)
    (hopen : openLocation env xsdPath = .ok f)
    (h : loadBody env load ws xsdPath cache f = some r) : Reach env b r.1 := by
  unfold loadBody at h
  cases hp : env.parseSchema f with
  | error e =>
    rw [hp] at h
    simp only [Option.some.injEq] at h
    subst h; exact Reach.logParse _ hb hmiss
  | ok parsed =>
    rw [hp] at h
    simp only at h
    have hq : b.heap.length ≤ ws.heap.length := hb.heap_length_le
    have h1 : Reach env b ((ws.log (.parse xsdPath)).alloc (stampSchema ws xsdPath parsed)).1 :=
      Reach.alloc xsdPath f parsed (Reach.logParse _ hb hmiss) hopen hp
    refine loadDeps_reach env load hload b _ xsdPath _ r ?_ (by simpa using hq) ?_ h
    · cases cache with
      | false => exact h1
      | true =>
        refine Reach.register xsdPath f parsed (Reach.logParse _ hb hmiss)
          (by simpa using hmiss) ?_ hopen hp
        have := hlog rfl
        simp [this]
    · cases cache <;> simp [registerSchema]

theorem deferredClose_fst (f : ReadCloser) (r : LoadResult) : (deferredClose f r).1 = r.1 := by
  obtain ⟨ws, d, e⟩ := r
  cases e <;> rfl

/-- Every workspace a call of `loadXsd` returns is reachable from the one it started in. -/
theorem loadXsd_reach (env : Env) :
    ∀ (fuel : Nat) (ws : Workspace) (loc : String) (c : Bool) (r : LoadResult),
      ws.loadXsd env fuel loc c = some r → Reach env ws r.1 := by
  intro fuel
  induction fuel with
  | zero => intro ws loc c r h; simp [Workspace.loadXsd] at h
  | succ n ih =>
    intro ws loc c r h
    simp only [Workspace.loadXsd] at h
    cases hl : mapLookup ws.Cache loc with
    | some cached =>
      rw [hl] at h
      simp only [Option.some.injEq] at h
      subst h; exact Reach.logLoad _ _ (Reach.refl _)
    | none =>
      rw [hl] at h
      simp only at h
      cases ho : openLocation env loc with
      | error e =>
        rw [ho] at h
        simp only [Option.some.injEq] at h
        subst h
        exact Reach.logFetch _ (Reach.logLoad _ _ (Reach.refl _)) (by simpa using hl)
      | ok f =>
        rw [ho] at h
        simp only [Option.map_eq_some'] at h
        obtain ⟨r0, hr0, rfl⟩ := h
        rw [deferredClose_fst]
        refine loadBody_reach env _ ih ws _ loc c f r0 ?_ (by simpa using hl) ?_ ho hr0
        · exact Reach.logFetch _ (Reach.logLoad _ _ (Reach.refl _)) (by simpa using hl)
        · intro hc; subst hc; simp

/-! ## What a run cannot change -/

theorem registerSchema_true_Cache (ws : Workspace) (loc : String) (p : Nat) :
    (registerSchema ws loc true p).Cache = mapInsert ws.Cache loc p := rfl

theorem registerSchema_trace (ws : Workspace) (loc : String) (c : Bool) (p : Nat) :
    (registerSchema ws loc c p).trace = ws.trace := by cases c <;> rfl

theorem registerSchema_deref (ws : Workspace) (loc : String) (c : Bool) (p q : Nat) :
    (registerSchema ws loc c p).deref q = ws.deref q := by cases c <;> rfl

theorem Reach.cache_mono {env : Env} {b ws : Workspace} (h : Reach env b ws)
    (k : String) (v : Nat) (hk : mapLookup b.Cache k = some v) : mapLookup ws.Cache k = some v := by
  induction h with
  | refl => exact hk
  | logLoad _ _ _ ih => simpa using ih hk
  | logFetch _ _ _ ih => simpa using ih hk
  | logParse _ _ _ ih => simpa using ih hk
  | alloc _ _ _ _ _ _ ih => simpa using ih hk
  | register loc _ _ _ hmiss _ _ _ ih =>
    have h1 := ih hk
    rw [registerSchema_true_Cache, mapLookup_mapInsert]
    by_cases hloc : loc = k
    · subst hloc; rw [hmiss] at h1; cases h1
    · simpa [hloc] using h1
  | merge _ _ _ _ _ _ ih => simpa using ih hk
  | link _ _ _ _ _ _ _ _ ih => simpa using ih hk
  | compiled _ _ _ _ ih => simpa using ih hk
  | call _ _ ih1 ih2 => exact ih2 (ih1 hk)

theorem Reach.config_eq {env : Env} {b ws : Workspace} (h : Reach env b ws) :
    ws.GoModulesPath = b.GoModulesPath ∧ ws.xmlnsOverrides = b.xmlnsOverrides := by
  induction h with
  | refl => exact ⟨rfl, rfl⟩
  | logLoad _ _ _ ih => simpa using ih
  | logFetch _ _ _ ih => simpa using ih
  | logParse _ _ _ ih => simpa using ih
  | alloc _ _ _ _ _ _ ih => simpa using ih
  | register _ _ _ _ _ _ _ _ ih => simpa [registerSchema] using ih
  | merge _ _ _ _ _ _ ih => simpa using ih
  | link _ _ _ _ _ _ _ _ ih => simpa using ih
  | compiled _ _ _ _ ih => simpa using ih
  | call _ _ ih1 ih2 => exact ⟨ih2.1.trans ih1.1, ih2.2.trans ih1.2⟩

theorem Reach.trace_extends {env : Env} {b ws : Workspace} (h : Reach env b ws) :
    b.trace <+: ws.trace := by
  induction h with
  | refl => exact List.prefix_refl _
  | logLoad _ _ _ ih => exact ih.trans (List.prefix_append _ _)
  | logFetch _ _ _ ih => exact ih.trans (List.prefix_append _ _)
  | logParse _ _ _ ih => exact ih.trans (List.prefix_append _ _)
  | alloc _ _ _ _ _ _ ih => simpa using ih
  | register _ _ _ _ _ _ _ _ ih => simpa [registerSchema] using ih
  | merge _ _ _ _ _ _ ih => simpa using ih
  | link _ _ _ _ _ _ _ _ ih => simpa using ih
  | compiled _ _ _ _ ih => simpa using ih
  | call _ _ ih1 ih2 => exact ih1.trans ih2

theorem Reach.cacheValid {env : Env} {b ws : Workspace} (h : Reach env b ws)
    (hb : CacheValid b) : CacheValid ws := by
  induction h with
  | refl => exact hb
  | logLoad _ _ _ ih => exact fun k v hk => by simpa using ih hb k v (by simpa using hk)
  | logFetch _ _ _ ih => exact fun k v hk => by simpa using ih hb k v (by simpa using hk)
  | logParse _ _ _ ih => exact fun k v hk => by simpa using ih hb k v (by simpa using hk)
  | alloc _ _ _ _ _ _ ih =>
    intro k v hk
    have := ih hb k v (by simpa using hk)
    simp only [alloc_heap, List.length_append, List.length_singleton]; omega
  | @register b ws loc f parsed _ _ _ _ _ ih =>
    intro k v hk
    rw [registerSchema_true_Cache, mapLookup_mapInsert] at hk
    rw [registerSchema_heap, alloc_heap, List.length_append, List.length_singleton]
    by_cases hloc : loc = k
    · simp only [hloc, if_true, Option.some.injEq] at hk
      subst hk; omega
    · simp only [hloc, if_false] at hk
      have := ih hb k v hk
      omega
  | merge _ _ _ _ _ _ ih =>
    intro k v hk
    have := ih hb k v (by simpa using hk)
    simpa using this
  | link _ _ _ _ _ _ _ _ ih =>
    intro k v hk
    have := ih hb k v (by simpa using hk)
    simpa using this
  | compiled _ _ _ _ ih =>
    intro k v hk
    have := ih hb k v (by simpa using hk)
    simpa using this
  | call _ _ ih1 ih2 => exact ih2 (ih1 hb)

/-- A location that is a key of `Cache` is never fetched again. -/
theorem Reach.fetch_count {env : Env} {b ws : Workspace} (h : Reach env b ws)
    (L : String) (q : Nat) (hL : mapLookup b.Cache L = some q) :
    ws.trace.count (Event.fetch L) = b.trace.count (Event.fetch L) := by
  induction h with
  | refl => rfl
  | logLoad _ _ _ ih => simp [ih hL]
  | @logFetch b ws loc hr hmiss ih =>
    have hne : loc ≠ L := by
      intro e; subst e
      rw [hr.cache_mono _ _ hL] at hmiss; cases hmiss
    have h0 : List.count (Event.fetch L) [Event.fetch loc] = 0 :=
      List.count_eq_zero_of_not_mem (by simp [Ne.symm hne])
    simp [ih hL, h0]
  | logParse _ _ _ ih => simp [ih hL]
  | alloc _ _ _ _ _ _ ih => simpa using ih hL
  | register _ _ _ _ _ _ _ _ ih => simpa [registerSchema] using ih hL
  | merge _ _ _ _ _ _ ih => simpa using ih hL
  | link _ _ _ _ _ _ _ _ ih => simpa using ih hL
  | compiled _ _ _ _ ih => simpa using ih hL
  | call h1 _ ih1 ih2 => rw [ih2 (h1.cache_mono _ _ hL), ih1 hL]

/-- Every key of `Cache` was a key before or was requested with the cache flag set. -/
theorem Reach.keys_requested {env : Env} {b ws : Workspace} (h : Reach env b ws)
    (k : String) (hk : (mapLookup ws.Cache k).isSome) :
    (mapLookup b.Cache k).isSome ∨ Event.load k true ∈ ws.trace := by
  induction h with
  | refl => exact Or.inl hk
  | logLoad _ _ _ ih =>
    rcases ih (by simpa using hk) with h1 | h1
    · exact Or.inl h1
    · exact Or.inr (by simp [h1])
  | logFetch _ _ _ ih =>
    rcases ih (by simpa using hk) with h1 | h1
    · exact Or.inl h1
    · exact Or.inr (by simp [h1])
  | logParse _ _ _ ih =>
    rcases ih (by simpa using hk) with h1 | h1
    · exact Or.inl h1
    · exact Or.inr (by simp [h1])
  | alloc _ _ _ _ _ _ ih => simpa using ih (by simpa using hk)
  | register loc _ _ _ _ hlog _ _ ih =>
    rw [registerSchema_true_Cache, mapLookup_mapInsert] at hk
    rw [registerSchema_trace]
    by_cases hloc : loc = k
    · subst hloc; exact Or.inr hlog
    · simp only [hloc, if_false] at hk
      exact ih hk
  | merge _ _ _ _ _ _ ih => simpa using ih (by simpa using hk)
  | link _ _ _ _ _ _ _ _ ih => simpa using ih (by simpa using hk)
  | compiled _ _ _ _ ih => simpa using ih (by simpa using hk)
  | call _ h2 ih1 ih2 =>
    rcases ih2 hk with h1 | h1
    · rcases ih1 h1 with h3 | h3
      · exact Or.inl h3
      · exact Or.inr (h2.trace_extends.subset h3)
    · exact Or.inr h1

/-- The stream of a location that is a key of `Cache` is never parsed again. -/
theorem Reach.parse_count {env : Env} {b ws : Workspace} (h : Reach env b ws)
    (L : String) (q : Nat) (hL : mapLookup b.Cache L = some q) :
    ws.trace.count (Event.parse L) = b.trace.count (Event.parse L) := by
  induction h with
  | refl => rfl
  | logLoad _ _ _ ih => simp [ih hL]
  | logFetch _ _ _ ih => simp [ih hL]
  | @logParse b ws loc hr hmiss ih =>
    have hne : loc ≠ L := by
      intro e; subst e
      rw [hr.cache_mono _ _ hL] at hmiss; cases hmiss
    have h0 : List.count (Event.parse L) [Event.parse loc] = 0 :=
      List.count_eq_zero_of_not_mem (by simp [Ne.symm hne])
    simp [ih hL, h0]
  | alloc _ _ _ _ _ _ ih => simpa using ih hL
  | register _ _ _ _ _ _ _ _ ih => simpa [registerSchema] using ih hL
  | merge _ _ _ _ _ _ ih => simpa using ih hL
  | link _ _ _ _ _ _ _ _ ih => simpa using ih hL
  | compiled _ _ _ _ ih => simpa using ih hL
  | call h1 _ ih1 ih2 => rw [ih2 (h1.cache_mono _ _ hL), ih1 hL]

/-! ## C9: a location already in the cache -/

/-- C9: when location `L` is already a key of `Cache` holding pointer `p`, `loadXsd(L, c)`
returns, for either value of the flag `c` and any positive fuel, exactly `p` with a
nil error; the heap, `Cache` and the configuration are unchanged and the only event
logged is the request itself, so nothing is fetched or parsed. -/
theorem C9_cached_location_is_returned (env : Env) (fuel : Nat) (ws : Workspace)
    (L : String) (c : Bool) (p : Nat) (h : mapLookup ws.Cache L = some p) :
    ∃ ws2, ws.loadXsd env (fuel + 1) L c = some (ws2, some p, none) ∧
      ws2.Cache = ws.Cache ∧ ws2.heap = ws.heap ∧
      ws2.GoModulesPath = ws.GoModulesPath ∧ ws2.xmlnsOverrides = ws.xmlnsOverrides ∧
      ws2.trace = ws.trace ++ [Event.load L c] ∧
      (∀ loc, ws2.trace.count (Event.fetch loc) = ws.trace.count (Event.fetch loc)) ∧
      (∀ loc, ws2.trace.count (Event.parse loc) = ws.trace.count (Event.parse loc)) := by
  refine ⟨ws.log (.load L c), ?_, rfl, rfl, rfl, rfl, rfl, ?_, ?_⟩
  · simp [Workspace.loadXsd, h]
  · intro loc
    have h0 : List.count (Event.fetch loc) [Event.load L c] = 0 :=
      List.count_eq_zero_of_not_mem (by simp)
    simp [h0]
  · intro loc
    have h0 : List.count (Event.parse loc) [Event.load L c] = 0 :=
      List.count_eq_zero_of_not_mem (by simp)
    simp [h0]

/-- C9 at a concrete cache: `b.xsd` is cached at pointer 1 and is asked for as an include. -/
theorem C9_cached_location_is_returned_witness :
    mapLookup sameNamespaceWs.Cache "b.xsd" = some 1 ∧
    ∃ ws2, sameNamespaceWs.loadXsd (fsEnv []) (0 + 1) "b.xsd" false = some (ws2, some 1, none) ∧
      ws2.Cache = sameNamespaceWs.Cache ∧ ws2.heap = sameNamespaceWs.heap ∧
      ws2.GoModulesPath = sameNamespaceWs.GoModulesPath ∧
      ws2.xmlnsOverrides = sameNamespaceWs.xmlnsOverrides ∧
      ws2.trace = sameNamespaceWs.trace ++ [Event.load "b.xsd" false] ∧
      (∀ loc, ws2.trace.count (Event.fetch loc) = sameNamespaceWs.trace.count (Event.fetch loc)) ∧
      (∀ loc, ws2.trace.count (Event.parse loc) = sameNamespaceWs.trace.count (Event.parse loc)) :=
  ⟨by decide, C9_cached_location_is_returned (fsEnv []) 0 sameNamespaceWs "b.xsd" false 1 (by decide)⟩

/-! ## C2: the package-name check -/

theorem compileLoop_eq_none_iff (env : Env) (ws : Workspace) :
    ∀ (entries : List (String × Nat)) (uniq : List (String × String)),
      compileLoop env ws entries uniq = none ↔
        (entries.map (fun e => (ws.deref e.2).GoPackageName env)).Nodup ∧
        ∀ n ∈ entries.map (fun e => (ws.deref e.2).GoPackageName env), mapLookup uniq n = none := by
  intro entries
  induction entries with
  | nil => intro uniq; simp [compileLoop]
  | cons hd tl ih =>
    intro uniq
    obtain ⟨k, p⟩ := hd
    simp only [compileLoop, List.map_cons, List.nodup_cons, List.mem_cons, forall_eq_or_imp]
    cases hlk : mapLookup uniq ((ws.deref p).GoPackageName env) with
    | some prev => simp
    | none =>
      simp only [ih, mapLookup_mapInsert, true_and]
      constructor
      · rintro ⟨hnd, hall⟩
        refine ⟨⟨?_, hnd⟩, ?_⟩
        · intro hmem
          have := hall _ hmem
          simp at this
        · intro n hn
          have := hall n hn
          by_cases hne : (ws.deref p).GoPackageName env = n
          · simp [hne] at this
          · simpa [hne] using this
      · rintro ⟨⟨hnot, hnd⟩, hall⟩
        refine ⟨hnd, ?_⟩
        intro n hn
        have hne : ¬ (ws.deref p).GoPackageName env = n := by
          intro e; subst e; exact hnot hn
        simpa [hne] using hall n hn

/-- C2, as stated, fails: with two cached documents of the same target namespace
(hence the same package name) `compile` returns an error although no two documents
that share a package name differ in target namespace. -/
theorem C2_counterexample :
    (sameNamespaceWs.compile (fsEnv [])).isSome = true ∧
      ¬ NamespaceConflict (fsEnv []) sameNamespaceWs := by
  refine ⟨by decide, ?_⟩
  rintro ⟨e1, h1, e2, h2, -, hne⟩
  simp only [sameNamespaceWs, List.mem_cons, List.mem_singleton, List.not_mem_nil, or_false] at h1 h2
  rcases h1 with rfl | rfl <;> rcases h2 with rfl | rfl <;> exact hne (by decide)

/-- C2 (amended): whatever order the cache is ranged over, `compile` returns an error
if and only if two entries of the cache derive the same package name, that is, the
list of package names of the cached documents has a duplicate; the target namespaces
play no part in the decision. -/
theorem C2_compile_fails_iff_duplicate_package (env : Env) (ws : Workspace)
    (hperm : (env.rangeOrder ws.Cache).Perm ws.Cache) :
    (ws.compile env).isSome = true ↔ ¬ (packageNames env ws).Nodup := by
  have hp : ((env.rangeOrder ws.Cache).map (fun e => (ws.deref e.2).GoPackageName env)).Perm
      (packageNames env ws) := hperm.map _
  have key := compileLoop_eq_none_iff env ws (env.rangeOrder ws.Cache) []
  simp only [mapLookup, implies_true, and_true] at key
  rw [hp.nodup_iff] at key
  unfold Workspace.compile
  rw [← key]
  cases compileLoop env ws (env.rangeOrder ws.Cache) [] <;> simp

/-- C2 (amended) at the two-document cache: the package names `urn:x`, `urn:x` repeat. -/
theorem C2_compile_fails_iff_duplicate_package_witness :
    ((fsEnv []).rangeOrder sameNamespaceWs.Cache).Perm sameNamespaceWs.Cache ∧
      ((sameNamespaceWs.compile (fsEnv [])).isSome = true ↔
        ¬ (packageNames (fsEnv []) sameNamespaceWs).Nodup) :=
  ⟨List.Perm.refl _,
    C2_compile_fails_iff_duplicate_package (fsEnv []) sameNamespaceWs (List.Perm.refl _)⟩

/-! ## Documents without includes keep their collections -/

theorem mergeInclude_content (isch schema : Schema) :
    (mergeInclude isch schema).content = isch.content ++ schema.content := rfl

theorem mergeInclude_Includes (isch schema : Schema) :
    (mergeInclude isch schema).Includes = schema.Includes := rfl

theorem stampSchema_content (ws : Workspace) (loc : String) (s : Schema) :
    (stampSchema ws loc s).content = s.content := rfl

theorem stampSchema_Includes (ws : Workspace) (loc : String) (s : Schema) :
    (stampSchema ws loc s).Includes = s.Includes := rfl

theorem stampSchema_Imports (ws : Workspace) (loc : String) (s : Schema) :
    (stampSchema ws loc s).Imports = s.Imports := rfl

theorem Content.append_assoc (a b c : Content) : a ++ b ++ c = a ++ (b ++ c) := by
  show Content.append (Content.append a b) c = Content.append a (Content.append b c)
  simp [Content.append]

theorem Content.append_ComplexTypes (a b : Content) :
    (a ++ b).ComplexTypes = a.ComplexTypes ++ b.ComplexTypes := rfl

theorem Content.append_SimpleTypes (a b : Content) :
    (a ++ b).SimpleTypes = a.SimpleTypes ++ b.SimpleTypes := rfl

theorem Reach.leafInv {env : Env} {b ws : Workspace} (h : Reach env b ws)
    (hkeep : CompileKeepsContent env) (hv : CacheValid b) (hb : LeafInv env b) :
    LeafInv env ws := by
  induction h with
  | refl => exact hb
  | logLoad _ _ _ ih => exact ih hv hb
  | logFetch _ _ _ ih => exact ih hv hb
  | logParse _ _ _ ih => exact ih hv hb
  | @alloc b ws loc f parsed hr _ _ ih =>
    intro L q hq f2 S ho hp hS
    have hlt : q < ws.heap.length := hr.cacheValid hv L q hq
    rw [deref_alloc_old _ _ _ hlt]
    exact ih hv hb L q hq f2 S ho hp hS
  | @register b ws loc f parsed hr hmiss _ hopen hparse ih =>
    intro L q hq f2 S ho hp hS
    rw [registerSchema_true_Cache, mapLookup_mapInsert] at hq
    rw [registerSchema_deref]
    by_cases hloc : loc = L
    · subst hloc
      simp only [if_true, Option.some.injEq] at hq
      subst hq
      rw [hopen] at ho
      cases ho
      rw [hparse] at hp
      cases hp
      rw [deref_alloc_new]
      exact ⟨hS, rfl⟩
    · simp only [hloc, if_false] at hq
      have hq2 : mapLookup ws.Cache L = some q := hq
      have hlt : q < ws.heap.length := hr.cacheValid hv L q hq2
      rw [deref_alloc_old _ _ _ hlt]
      exact ih hv hb L q hq2 f2 S ho hp hS
  | @merge b ws p isch hr _ hlt hinc ih =>
    intro L q hq f2 S ho hp hS
    have hq2 : mapLookup ws.Cache L = some q := hq
    have hold := ih hv hb L q hq2 f2 S ho hp hS
    by_cases hpq : p = q
    · subst hpq; exact absurd hold.1 hinc
    · rw [deref_store_other _ _ _ _ hpq]; exact hold
  | @link b ws p idx im d hr _ hlt _ ih =>
    intro L q hq f2 S ho hp hS
    have hq2 : mapLookup ws.Cache L = some q := hq
    have hold := ih hv hb L q hq2 f2 S ho hp hS
    by_cases hpq : p = q
    · subst hpq; rw [deref_store_same _ _ _ hlt]; exact hold
    · rw [deref_store_other _ _ _ _ hpq]; exact hold
  | @compiled b ws p hr _ hlt ih =>
    intro L q hq f2 S ho hp hS
    have hq2 : mapLookup ws.Cache L = some q := hq
    have hold := ih hv hb L q hq2 f2 S ho hp hS
    by_cases hpq : p = q
    · subst hpq
      rw [deref_store_same _ _ _ hlt]
      exact ⟨(hkeep _).1.trans hold.1, (hkeep _).2.trans hold.2⟩
    · rw [deref_store_other _ _ _ _ hpq]; exact hold
  | call h1 _ ih1 ih2 => exact ih2 (h1.cacheValid hv) (ih1 hv hb)

/-! ## Unfolding a successful call -/

theorem loadXsd_hit (env : Env) (n : Nat) (ws : Workspace) (loc : String) (c : Bool) (q : Nat)
    (h : mapLookup ws.Cache loc = some q) :
    ws.loadXsd env (n + 1) loc c = some (ws.log (.load loc c), some q, none) := by
  simp [Workspace.loadXsd, h]

theorem loadXsd_miss (env : Env) (n : Nat) (ws : Workspace) (loc : String) (c : Bool)
    (f : ReadCloser) (parsed : Schema)
    (h : mapLookup ws.Cache loc = none) (ho : openLocation env loc = .ok f)
    (hp : env.parseSchema f = .ok parsed) :
    ws.loadXsd env (n + 1) loc c =
      (loadDeps env (Workspace.loadXsd env n) (startState ws loc c parsed) loc
        ws.heap.length).map (deferredClose f) := by
  simp only [Workspace.loadXsd, h, ho, loadBody, hp]
  rfl

theorem startState_deref (ws : Workspace) (loc : String) (c : Bool) (parsed : Schema) :
    (startState ws loc c parsed).deref ws.heap.length = stampSchema ws loc parsed := by
  unfold startState
  rw [registerSchema_deref]
  exact deref_alloc_new _ _

theorem startState_length (ws : Workspace) (loc : String) (c : Bool) (parsed : Schema) :
    (startState ws loc c parsed).heap.length = ws.heap.length + 1 := by
  unfold startState
  rw [registerSchema_heap]
  simp

theorem startState_reach (env : Env) (ws : Workspace) (loc : String) (c : Bool)
    (f : ReadCloser) (parsed : Schema)
    (h : mapLookup ws.Cache loc = none) (ho : openLocation env loc = .ok f)
    (hp : env.parseSchema f = .ok parsed) : Reach env ws (startState ws loc c parsed) := by
  have h0 : Reach env ws (((ws.log (.load loc c)).log (.fetch loc)).log (.parse loc)) :=
    Reach.logParse _ (Reach.logFetch _ (Reach.logLoad _ _ (Reach.refl _)) (by simpa using h))
      (by simpa using h)
  unfold startState
  cases c with
  | false => exact Reach.alloc loc f parsed h0 ho hp
  | true => exact Reach.register loc f parsed h0 (by simpa using h) (by simp) ho hp

theorem deferredClose_eq_ok (f : ReadCloser) (r : LoadResult) (ws : Workspace) (d : Option Nat)
    (h : deferredClose f r = (ws, d, none)) : r = (ws, d, none) ∧ f.closeErr = none := by
  obtain ⟨ws0, d0, e⟩ := r
  cases e with
  | none =>
    simp only [deferredClose, Prod.mk.injEq] at h
    obtain ⟨rfl, rfl, hc⟩ := h
    exact ⟨rfl, hc⟩
  | some e => simp [deferredClose] at h

/-- What a call that returned a nil error did: it either answered from the cache or
ran the whole body on a freshly allocated object; either way it returned a document. -/
theorem loadXsd_ok_inv (env : Env) (fuel : Nat) (ws : Workspace) (loc : String) (c : Bool)
    (ws2 : Workspace) (d : Option Nat)
    (h : ws.loadXsd env fuel loc c = some (ws2, d, none)) :
    ∃ q : Nat, d = some q ∧
    ((mapLookup ws.Cache loc = some q ∧ ws2 = ws.log (.load loc c)) ∨
    ∃ (n : Nat) (f : ReadCloser) (parsed : Schema) (dir : String) (ws3 ws4 : Workspace),
      fuel = n + 1 ∧ mapLookup ws.Cache loc = none ∧ openLocation env loc = .ok f ∧
      f.closeErr = none ∧ env.parseSchema f = .ok parsed ∧ baseDir env loc = .ok dir ∧
      q = ws.heap.length ∧
      loadIncludes env (Workspace.loadXsd env n) dir q (stampSchema ws loc parsed).Includes
        (startState ws loc c parsed) = some (ws3, none) ∧
      loadImports env (Workspace.loadXsd env n) dir q 0 (ws3.deref q).Imports ws3
        = some (ws4, none) ∧
      ws2 = ws4.store q (env.schemaCompile (ws4.deref q))) := by
  cases fuel with
  | zero => simp [Workspace.loadXsd] at h
  | succ n =>
    cases hl : mapLookup ws.Cache loc with
    | some cached =>
      rw [loadXsd_hit env n ws loc c cached hl] at h
      simp only [Option.some.injEq, Prod.mk.injEq, and_true] at h
      obtain ⟨h1, h2⟩ := h
      subst h1; subst h2
      exact ⟨cached, rfl, Or.inl ⟨rfl, rfl⟩⟩
    | none =>
      cases ho : openLocation env loc with
      | error e => simp [Workspace.loadXsd, hl, ho] at h
      | ok f =>
        cases hp : env.parseSchema f with
        | error e =>
          simp [Workspace.loadXsd, hl, ho, loadBody, hp, deferredClose] at h
        | ok parsed =>
          rw [loadXsd_miss env n ws loc c f parsed hl ho hp] at h
          simp only [Option.map_eq_some'] at h
          obtain ⟨r0, hr0, hdc⟩ := h
          obtain ⟨rfl, hclose⟩ := deferredClose_eq_ok f r0 ws2 d hdc
          unfold loadDeps at hr0
          cases hd : baseDir env loc with
          | error e => rw [hd] at hr0; simp at hr0
          | ok dir =>
            rw [hd] at hr0
            simp only [startState_deref] at hr0
            cases hi : loadIncludes env (Workspace.loadXsd env n) dir ws.heap.length
                (stampSchema ws loc parsed).Includes (startState ws loc c parsed) with
            | none => rw [hi] at hr0; simp at hr0
            | some ri =>
              obtain ⟨ws3, e3⟩ := ri
              rw [hi] at hr0
              cases e3 with
              | some e => simp at hr0
              | none =>
                simp only at hr0
                cases hm : loadImports env (Workspace.loadXsd env n) dir ws.heap.length 0
                    (ws3.deref ws.heap.length).Imports ws3 with
                | none => rw [hm] at hr0; simp at hr0
                | some rm =>
                  obtain ⟨ws4, e4⟩ := rm
                  rw [hm] at hr0
                  cases e4 with
                  | some e => simp at hr0
                  | none =>
                    simp only [Option.some.injEq, Prod.mk.injEq, and_true] at hr0
                    obtain ⟨h1, h2⟩ := hr0
                    subst h2
                    exact ⟨ws.heap.length, rfl, Or.inr ⟨n, f, parsed, dir, ws3, ws4, rfl, rfl,
                      rfl, hclose, hp, rfl, rfl, hi, hm, h1.symm⟩⟩

theorem loadXsd_success_inv (env : Env) (fuel : Nat) (ws : Workspace) (loc : String) (c : Bool)
    (ws2 : Workspace) (q : Nat)
    (h : ws.loadXsd env fuel loc c = some (ws2, some q, none)) :
    (mapLookup ws.Cache loc = some q ∧ ws2 = ws.log (.load loc c)) ∨
    ∃ (n : Nat) (f : ReadCloser) (parsed : Schema) (dir : String) (ws3 ws4 : Workspace),
      fuel = n + 1 ∧ mapLookup ws.Cache loc = none ∧ openLocation env loc = .ok f ∧
      f.closeErr = none ∧ env.parseSchema f = .ok parsed ∧ baseDir env loc = .ok dir ∧
      q = ws.heap.length ∧
      loadIncludes env (Workspace.loadXsd env n) dir q (stampSchema ws loc parsed).Includes
        (startState ws loc c parsed) = some (ws3, none) ∧
      loadImports env (Workspace.loadXsd env n) dir q 0 (ws3.deref q).Imports ws3
        = some (ws4, none) ∧
      ws2 = ws4.store q (env.schemaCompile (ws4.deref q)) := by
  obtain ⟨q2, hq, hrest⟩ := loadXsd_ok_inv env fuel ws loc c ws2 (some q) h
  cases hq
  exact hrest

/-! ## What the two loops do to the document under construction -/

/-- The import loop only rewrites the import entries of the document `*p`. -/
theorem loadImports_cell (env : Env) (load : Workspace → String → Bool → Option LoadResult)
    (hload : ∀ ws loc c r, load ws loc c = some r → Reach env ws r.1)
    (dir : String) (p : Nat) :
    ∀ (imps : List Import) (idx : Nat) (ws : Workspace) (r : Workspace × Option String),
      p < ws.heap.length → loadImports env load dir p idx imps ws = some r →
      p < r.1.heap.length ∧
      ∃ imports : List Import, r.1.deref p = withImports (ws.deref p) imports := by
  intro imps
  induction imps with
  | nil =>
    intro idx ws r hlt h
    simp only [loadImports, Option.some.injEq] at h
    subst h
    exact ⟨hlt, (ws.deref p).Imports, rfl⟩
  | cons im rest ih =>
    intro idx ws r hlt h
    rw [loadImports_cons] at h
    cases hl : load ws (env.joinLocation dir im.SchemaLocation) true with
    | none => rw [hl] at h; simp at h
    | some res =>
      obtain ⟨ws1, d, e⟩ := res
      have hr1 : Reach env ws ws1 := hload _ _ _ _ hl
      have hlt1 : p < ws1.heap.length := lt_of_lt_of_le hlt hr1.heap_length_le
      have hcell : ws1.deref p = ws.deref p := hr1.deref_eq p hlt
      rw [hl] at h
      cases e with
      | some err =>
        simp only [Option.some.injEq] at h
        subst h
        refine ⟨by simpa using hlt1,
          (ws.deref p).Imports.set idx { im with ImportedSchema := d }, ?_⟩
        rw [deref_store_same _ _ _ hlt1, hcell]
        rfl
      | none =>
        simp only at h
        obtain ⟨hlt2, imports, hfin⟩ := ih _ _ _ (by simpa using hlt1) h
        refine ⟨hlt2, imports, ?_⟩
        rw [hfin, deref_store_same _ _ _ hlt1, hcell]
        rfl

/-- A successful load of a document without includes hands back an object holding
exactly the collections the parser produced, whether it was answered from the cache
or loaded afresh. -/
theorem loadXsd_leaf_result (env : Env) (hkeep : CompileKeepsContent env) (n : Nat)
    (ws : Workspace) (l : String) (c : Bool) (ws2 : Workspace) (q : Nat)
    (f : ReadCloser) (S : Schema) (hinv : LeafInv env ws)
    (ho : openLocation env l = .ok f) (hp : env.parseSchema f = .ok S) (hS : S.Includes = [])
    (h : ws.loadXsd env n l c = some (ws2, some q, none)) :
    (ws2.deref q).content = S.content := by
  rcases loadXsd_success_inv env n ws l c ws2 q h with ⟨hhit, rfl⟩ |
    ⟨m, f2, parsed, dir, ws3, ws4, rfl, hmiss, ho2, -, hp2, -, rfl, hi, hm, rfl⟩
  · exact (hinv l q hhit f S ho hp hS).2
  · rw [ho] at ho2
    cases ho2
    rw [hp] at hp2
    cases hp2
    rw [stampSchema_Includes, hS] at hi
    simp only [loadIncludes, Option.some.injEq, Prod.mk.injEq, and_true] at hi
    subst hi
    have hlt : ws.heap.length < (startState ws l c S).heap.length := by
      rw [startState_length]; omega
    obtain ⟨hlt4, imports, hcell⟩ :=
      loadImports_cell env _ (loadXsd_reach env m) dir _ _ _ _ _ hlt hm
    rw [deref_store_same _ _ _ hlt4, (hkeep _).2, hcell, startState_deref]
    rfl

theorem includedContent_eq (env : Env) (dir : String) (si : Include) (f : ReadCloser)
    (S : Schema) (ho : openLocation env (env.joinLocation dir si.SchemaLocation) = .ok f)
    (hp : env.parseSchema f = .ok S) : includedContent env dir si = S.content := by
  simp [includedContent, ho, hp]

/-- The include loop over entries that all resolve to documents without includes:
each included document's collections are put in front of what the including document
holds at that moment, so the collections of the later entries end up first. -/
theorem loadIncludes_leaves (env : Env) (n : Nat) (hkeep : CompileKeepsContent env)
    (dir : String) (p : Nat) (b : Workspace) (hbp : b.heap.length ≤ p)
    (hvb : CacheValid b) (hlb : LeafInv env b) :
    ∀ (incs : List Include) (ws : Workspace) (ws2 : Workspace),
      Reach env b ws → p < ws.heap.length → (incs ≠ [] → (ws.deref p).Includes ≠ []) →
      (∀ si ∈ incs, IncludesLeaf env dir si) →
      loadIncludes env (Workspace.loadXsd env n) dir p incs ws = some (ws2, none) →
      Reach env b ws2 ∧ p < ws2.heap.length ∧
      (ws2.deref p).content =
        (incs.map (includedContent env dir)).foldl (fun acc c => c ++ acc) (ws.deref p).content := by
  intro incs
  induction incs with
  | nil =>
    intro ws ws2 hb hlt _ _ h
    simp only [loadIncludes, Option.some.injEq, Prod.mk.injEq, and_true] at h
    subst h
    exact ⟨hb, hlt, rfl⟩
  | cons si rest ih =>
    intro ws ws2 hb hlt hne hleaf h
    rw [loadIncludes_cons] at h
    cases hl : Workspace.loadXsd env n ws (env.joinLocation dir si.SchemaLocation) false with
    | none => rw [hl] at h; simp at h
    | some res =>
      obtain ⟨ws1, d, e⟩ := res
      rw [hl] at h
      cases e with
      | some err => simp at h
      | none =>
        cases d with
        | none => simp at h
        | some isch =>
          simp only at h
          have hr1 : Reach env ws ws1 := loadXsd_reach env n _ _ _ _ hl
          have h1 : Reach env b ws1 := Reach.call hb hr1
          have hlt1 : p < ws1.heap.length := lt_of_lt_of_le hlt hr1.heap_length_le
          have hcell : ws1.deref p = ws.deref p := hr1.deref_eq p hlt
          have hinc : (ws1.deref p).Includes ≠ [] := by
            rw [hcell]; exact hne (by simp)
          obtain ⟨f, S, ho, hp, hS⟩ := hleaf si (by simp)
          have hres : (ws1.deref isch).content = S.content :=
            loadXsd_leaf_result env hkeep n ws _ false ws1 isch f S
              (hb.leafInv hkeep hvb hlb) ho hp hS hl
          obtain ⟨hfin, hltf, hcont⟩ :=
            ih _ ws2 (Reach.merge p isch h1 hbp hlt1 hinc) (by simpa using hlt1)
              (fun _ => by rw [deref_store_same _ _ _ hlt1]; exact hinc)
              (fun x hx => hleaf x (by simp [hx])) h
          refine ⟨hfin, hltf, ?_⟩
          rw [hcont, deref_store_same _ _ _ hlt1, mergeInclude_content, hres, hcell,
            List.map_cons, List.foldl_cons, includedContent_eq env dir si f S ho hp]

/-- The collections of a freshly loaded document all of whose include entries resolve
to documents without includes: the included collections, last entry first, followed
by the document's own. -/
theorem loadXsd_leaf_includes (env : Env) (hkeep : CompileKeepsContent env) (fuel : Nat)
    (ws : Workspace) (root : String) (c : Bool) (fR : ReadCloser) (R : Schema) (dir : String)
    (ws2 : Workspace) (p : Nat)
    (hv : CacheValid ws) (hinv : LeafInv env ws) (hmiss : mapLookup ws.Cache root = none)
    (ho : openLocation env root = .ok fR) (hp : env.parseSchema fR = .ok R)
    (hdir : baseDir env root = .ok dir)
    (hleaves : ∀ si ∈ R.Includes, IncludesLeaf env dir si)
    (hrun : ws.loadXsd env fuel root c = some (ws2, some p, none)) :
    p = ws.heap.length ∧ p < ws2.heap.length ∧ Reach env ws ws2 ∧
    (ws2.deref p).content =
      (R.Includes.map (includedContent env dir)).foldl (fun acc c => c ++ acc) R.content := by
  have hreach : Reach env ws ws2 := loadXsd_reach env fuel ws root c _ hrun
  rcases loadXsd_success_inv env fuel ws root c ws2 p hrun with ⟨hhit, -⟩ |
    ⟨m, f2, parsed, dir2, ws3, ws4, rfl, -, ho2, -, hp2, hd2, rfl, hi, hm, rfl⟩
  · rw [hmiss] at hhit; cases hhit
  · rw [ho] at ho2
    cases ho2
    rw [hp] at hp2
    cases hp2
    rw [hdir] at hd2
    cases hd2
    rw [stampSchema_Includes] at hi
    have hlt : ws.heap.length < (startState ws root c R).heap.length := by
      rw [startState_length]; omega
    obtain ⟨h3, hlt3, hcont⟩ :=
      loadIncludes_leaves env m hkeep dir ws.heap.length ws le_rfl hv hinv R.Includes
        (startState ws root c R) ws3 (startState_reach env ws root c fR R hmiss ho hp) hlt
        (fun hne => by rw [startState_deref, stampSchema_Includes]; exact hne) hleaves hi
    obtain ⟨hlt4, imports, hcell⟩ :=
      loadImports_cell env _ (loadXsd_reach env m) dir _ _ _ _ _ hlt3 hm
    refine ⟨rfl, by simpa using hlt4, hreach, ?_⟩
    rw [deref_store_same _ _ _ hlt4, (hkeep _).2, hcell]
    show (ws3.deref ws.heap.length).content = _
    rw [hcont, startState_deref, stampSchema_content]

theorem cacheValid_of_empty (ws : Workspace) (h : ws.Cache = []) : CacheValid ws := by
  intro k v hk
  rw [h] at hk
  simp [mapLookup] at hk

theorem leafInv_of_empty (env : Env) (ws : Workspace) (h : ws.Cache = []) : LeafInv env ws := by
  intro L q hq
  rw [h] at hq
  simp [mapLookup] at hq

theorem compileKeepsContent_fsEnv (files : List (String × Schema)) :
    CompileKeepsContent (fsEnv files) := fun _ => ⟨rfl, rfl⟩

/-! ## C1: the order of merged includes -/

/-- C1, as stated, fails: for the root `r.xsd` with includes `[i1.xsd, i2.xsd]` the
returned document lists the types of `i2.xsd` first, then those of `i1.xsd`, then its
own; it does not list `i1.xsd`'s types first. -/
theorem C1_counterexample :
    ∃ ws2 p, ({} : Workspace).loadXsd (fsEnv twoIncludes) 2 "r.xsd" true
        = some (ws2, some p, none) ∧
      (ws2.deref p).ComplexTypes = ["T2", "T1", "TR"] ∧
      (ws2.deref p).ComplexTypes ≠ ["T1"] ++ ["T2"] ++ ["TR"] ∧
      (ws2.deref p).SimpleTypes ≠ ["S1"] ++ ["S2"] ++ ["SR"] := by
  refine ⟨_, 0, rfl, ?_, ?_, ?_⟩ <;> decide

/-- C1 (amended): for every root document `R` loaded into a fresh cache whose include
list is `[i1, i2]`, both entries resolving to documents `S1`, `S2` that fetch and parse
and have no includes of their own, the document `loadXsd` returns holds `S2`'s types,
followed by `S1`'s types, followed by `R`'s own (ComplexTypes, and likewise
SimpleTypes): each include is put in front of what was merged before it. -/
theorem C1_second_include_comes_first (env : Env) (hkeep : CompileKeepsContent env)
    (fuel : Nat) (ws : Workspace) (root : String) (c : Bool)
    (fR f1 f2 : ReadCloser) (R S1 S2 : Schema) (i1 i2 : Include) (dir : String)
    (ws2 : Workspace) (p : Nat)
    (hfresh : ws.Cache = [])
    (hoR : openLocation env root = .ok fR) (hpR : env.parseSchema fR = .ok R)
    (hincs : R.Includes = [i1, i2]) (hdir : baseDir env root = .ok dir)
    (ho1 : openLocation env (env.joinLocation dir i1.SchemaLocation) = .ok f1)
    (hp1 : env.parseSchema f1 = .ok S1) (hS1 : S1.Includes = [])
    (ho2 : openLocation env (env.joinLocation dir i2.SchemaLocation) = .ok f2)
    (hp2 : env.parseSchema f2 = .ok S2) (hS2 : S2.Includes = [])
    (hrun : ws.loadXsd env fuel root c = some (ws2, some p, none)) :
    (ws2.deref p).ComplexTypes = S2.ComplexTypes ++ S1.ComplexTypes ++ R.ComplexTypes ∧
    (ws2.deref p).SimpleTypes = S2.SimpleTypes ++ S1.SimpleTypes ++ R.SimpleTypes := by
  have hleaves : ∀ si ∈ R.Includes, IncludesLeaf env dir si := by
    intro si hsi
    rw [hincs] at hsi
    simp only [List.mem_cons, List.mem_singleton, List.not_mem_nil, or_false] at hsi
    rcases hsi with rfl | rfl
    · exact ⟨f1, S1, ho1, hp1, hS1⟩
    · exact ⟨f2, S2, ho2, hp2, hS2⟩
  obtain ⟨-, -, -, hcont⟩ :=
    loadXsd_leaf_includes env hkeep fuel ws root c fR R dir ws2 p
      (cacheValid_of_empty ws hfresh) (leafInv_of_empty env ws hfresh)
      (by rw [hfresh]; rfl) hoR hpR hdir hleaves hrun
  rw [hincs] at hcont
  simp only [List.map_cons, List.map_nil, List.foldl_cons, List.foldl_nil,
    includedContent_eq env dir i1 f1 S1 ho1 hp1,
    includedContent_eq env dir i2 f2 S2 ho2 hp2] at hcont
  have hct := congrArg Content.ComplexTypes hcont
  have hst := congrArg Content.SimpleTypes hcont
  simp only [Content.append_ComplexTypes, Content.append_SimpleTypes] at hct hst
  exact ⟨by rw [List.append_assoc]; exact hct, by rw [List.append_assoc]; exact hst⟩

/-- C1 (amended) on the root `r.xsd` with includes `[i1.xsd, i2.xsd]`. -/
theorem C1_second_include_comes_first_witness :
    ∃ ws2 p, ({} : Workspace).loadXsd (fsEnv twoIncludes) 2 "r.xsd" true
        = some (ws2, some p, none) ∧
      (ws2.deref p).ComplexTypes = ["T2"] ++ ["T1"] ++ ["TR"] ∧
      (ws2.deref p).SimpleTypes = ["S2"] ++ ["S1"] ++ ["SR"] :=
  ⟨_, 0, rfl,
    C1_second_include_comes_first (fsEnv twoIncludes) (compileKeepsContent_fsEnv _) 2 {}
      "r.xsd" true { bytes := "r.xsd" } { bytes := "i1.xsd" } { bytes := "i2.xsd" }
      { Includes := [{ SchemaLocation := "i1.xsd" }, { SchemaLocation := "i2.xsd" }]
        ComplexTypes := ["TR"], SimpleTypes := ["SR"] }
      { ComplexTypes := ["T1"], SimpleTypes := ["S1"] }
      { ComplexTypes := ["T2"], SimpleTypes := ["S2"] }
      { SchemaLocation := "i1.xsd" } { SchemaLocation := "i2.xsd" } "." _ 0
      rfl rfl rfl rfl rfl rfl rfl rfl rfl rfl rfl rfl⟩

/-! ## C3: how often a location is fetched -/

/-- C3, as stated, fails: `l.xsd` is the target of an include of the root and of an import
of `m.xsd`; the run succeeds and fetches and parses `l.xsd` twice, once for
the include (which does not register it) and once for the import. -/
theorem C3_counterexample :
    ∃ ws2 p, ({} : Workspace).loadXsd (fsEnv sharedTarget) 3 "r.xsd" true
        = some (ws2, some p, none) ∧
      ws2.trace.count (Event.fetch "l.xsd") = 2 ∧
      ws2.trace.count (Event.parse "l.xsd") = 2 ∧
      ¬ ws2.trace.count (Event.fetch "l.xsd") ≤ 1 := by
  refine ⟨_, 0, rfl, ?_, ?_, ?_⟩ <;> decide

/-- C3 (amended): once a location `L` is a key of `Cache` (it was loaded as the root
or as an import target), no call of `loadXsd`, whatever it loads and however many
include and import edges of the graph point at `L`, fetches or parses `L` again, and
`L` stays registered with the same document. -/
theorem C3_registered_location_not_fetched_again (env : Env) (fuel : Nat) (ws : Workspace)
    (loc : String) (c : Bool) (r : LoadResult) (L : String) (q : Nat)
    (hL : mapLookup ws.Cache L = some q)
    (hrun : ws.loadXsd env fuel loc c = some r) :
    r.1.trace.count (Event.fetch L) = ws.trace.count (Event.fetch L) ∧
    r.1.trace.count (Event.parse L) = ws.trace.count (Event.parse L) ∧
    mapLookup r.1.Cache L = some q := by
  have hreach := loadXsd_reach env fuel ws loc c r hrun
  exact ⟨hreach.fetch_count L q hL, hreach.parse_count L q hL, hreach.cache_mono L q hL⟩

/-- C3 (amended) at a cache holding `a.xsd`: loading a root that imports `a.xsd` does
not fetch it. -/
theorem C3_registered_location_not_fetched_again_witness :
    mapLookup sameNamespaceWs.Cache "a.xsd" = some 0 ∧
    ∃ r, sameNamespaceWs.loadXsd (fsEnv importsCached) 2 "r.xsd" true = some r ∧
      r.1.trace.count (Event.fetch "a.xsd") = sameNamespaceWs.trace.count (Event.fetch "a.xsd") ∧
      r.1.trace.count (Event.parse "a.xsd") = sameNamespaceWs.trace.count (Event.parse "a.xsd") ∧
      mapLookup r.1.Cache "a.xsd" = some 0 :=
  ⟨by decide, _, rfl,
    C3_registered_location_not_fetched_again (fsEnv importsCached) 2 sameNamespaceWs "r.xsd"
      true _ "a.xsd" 0 (by decide) rfl⟩

/-! ## C4: how often a declaration is merged -/

theorem Content.get_append (a b : Content) (k : Kind) :
    (a ++ b).get k = a.get k ++ b.get k := by
  cases k <;> rfl

theorem Content.get_foldl (k : Kind) (cs : List Content) (init : Content) :
    (cs.foldl (fun acc c => c ++ acc) init).get k
      = (cs.reverse.map (fun c => c.get k)).flatten ++ init.get k := by
  induction cs generalizing init with
  | nil => simp
  | cons c cs ih =>
    rw [List.foldl_cons, ih, Content.get_append]
    simp [List.flatten_append]

/-- C4, as stated, fails. In the diamond (`b.xsd` and `c.xsd` both include `d.xsd`)
the load of the root succeeds and the one type of `d.xsd` is merged twice; and when
`b.xsd` includes the root `a.xsd` back, the root's own type is merged twice. -/
theorem C4_counterexample :
    (∃ ws2 p, ({} : Workspace).loadXsd (fsEnv diamond) 3 "r.xsd" true
        = some (ws2, some p, none) ∧
      (ws2.deref p).ComplexTypes = ["TD", "TC", "TD", "TB", "TR"] ∧
      (ws2.deref p).ComplexTypes.count "TD" = 2) ∧
    (∃ ws2 p, ({} : Workspace).loadXsd (fsEnv mutualIncludes) 3 "a.xsd" true
        = some (ws2, some p, none) ∧
      (ws2.deref p).ComplexTypes = ["TA", "TB", "TA"] ∧
      (ws2.deref p).ComplexTypes.count "TA" = 2) := by
  refine ⟨⟨_, 0, rfl, ?_, ?_⟩, ⟨_, 0, rfl, ?_, ?_⟩⟩ <;> decide

/-! ## Growth of the cache across the loops -/

theorem Grow.refl (ws : Workspace) : Grow ws ws :=
  ⟨fun _ _ h => h, List.prefix_refl _, le_rfl, rfl, rfl⟩

theorem Grow.trans {a b c : Workspace} (h1 : Grow a b) (h2 : Grow b c) : Grow a c :=
  ⟨fun k v h => h2.cache k v (h1.cache k v h), h1.trace.trans h2.trace,
    le_trans h1.heap h2.heap, h2.modules.trans h1.modules, h2.overrides.trans h1.overrides⟩

theorem Reach.grow {env : Env} {b ws : Workspace} (h : Reach env b ws) : Grow b ws :=
  ⟨h.cache_mono, h.trace_extends, h.heap_length_le, h.config_eq.1, h.config_eq.2⟩

theorem Grow.store (ws : Workspace) (p : Nat) (s : Schema) : Grow ws (ws.store p s) :=
  ⟨fun _ _ h => h, List.prefix_refl _, by simp, rfl, rfl⟩

theorem loadIncludes_grow (env : Env) (load : Workspace → String → Bool → Option LoadResult)
    (hload : ∀ ws loc c r, load ws loc c = some r → Reach env ws r.1)
    (dir : String) (p : Nat) :
    ∀ (incs : List Include) (ws : Workspace) (r : Workspace × Option String),
      loadIncludes env load dir p incs ws = some r → Grow ws r.1 := by
  intro incs
  induction incs with
  | nil =>
    intro ws r h
    simp only [loadIncludes, Option.some.injEq] at h
    subst h; exact Grow.refl _
  | cons si rest ih =>
    intro ws r h
    rw [loadIncludes_cons] at h
    cases hl : load ws (env.joinLocation dir si.SchemaLocation) false with
    | none => rw [hl] at h; simp at h
    | some res =>
      obtain ⟨ws1, d, e⟩ := res
      have g1 : Grow ws ws1 := (hload _ _ _ _ hl).grow
      rw [hl] at h
      cases e with
      | some err =>
        simp only [Option.some.injEq] at h
        subst h; exact g1
      | none =>
        cases d with
        | none => simp at h
        | some isch =>
          simp only at h
          exact g1.trans ((Grow.store _ _ _).trans (ih _ _ h))

theorem loadImports_grow (env : Env) (load : Workspace → String → Bool → Option LoadResult)
    (hload : ∀ ws loc c r, load ws loc c = some r → Reach env ws r.1)
    (dir : String) (p : Nat) :
    ∀ (imps : List Import) (idx : Nat) (ws : Workspace) (r : Workspace × Option String),
      loadImports env load dir p idx imps ws = some r → Grow ws r.1 := by
  intro imps
  induction imps with
  | nil =>
    intro idx ws r h
    simp only [loadImports, Option.some.injEq] at h
    subst h; exact Grow.refl _
  | cons im rest ih =>
    intro idx ws r h
    rw [loadImports_cons] at h
    cases hl : load ws (env.joinLocation dir im.SchemaLocation) true with
    | none => rw [hl] at h; simp at h
    | some res =>
      obtain ⟨ws1, d, e⟩ := res
      have g1 : Grow ws ws1 := (hload _ _ _ _ hl).grow
      rw [hl] at h
      cases e with
      | some err =>
        simp only [Option.some.injEq] at h
        subst h; exact g1.trans (Grow.store _ _ _)
      | none =>
        simp only at h
        exact g1.trans ((Grow.store _ _ _).trans (ih _ _ _ h))

theorem Reach.cacheInj {env : Env} {b ws : Workspace} (h : Reach env b ws)
    (hv : CacheValid b) (hb : CacheInj b) : CacheInj ws := by
  induction h with
  | refl => exact hb
  | logLoad _ _ _ ih => exact ih hv hb
  | logFetch _ _ _ ih => exact ih hv hb
  | logParse _ _ _ ih => exact ih hv hb
  | alloc _ _ _ _ _ _ ih => exact ih hv hb
  | @register b ws loc f parsed hr hmiss _ _ _ ih =>
    intro k1 k2 v h1 h2
    rw [registerSchema_true_Cache, mapLookup_mapInsert] at h1 h2
    have hvalid := hr.cacheValid hv
    by_cases e1 : loc = k1
    · by_cases e2 : loc = k2
      · exact e1.symm.trans e2
      · simp only [e1, if_true, Option.some.injEq] at h1
        simp only [e2, if_false] at h2
        have := hvalid k2 v h2
        omega
    · by_cases e2 : loc = k2
      · simp only [e2, if_true, Option.some.injEq] at h2
        simp only [e1, if_false] at h1
        have := hvalid k1 v h1
        omega
      · simp only [e1, if_false] at h1
        simp only [e2, if_false] at h2
        exact ih hv hb k1 k2 v h1 h2
  | merge _ _ _ _ _ _ ih => exact ih hv hb
  | link _ _ _ _ _ _ _ _ ih => exact ih hv hb
  | compiled _ _ _ _ ih => exact ih hv hb
  | call h1 _ ih1 ih2 => exact ih2 (h1.cacheValid hv) (ih1 hv hb)

/-! ## What a successful cacheable load registers -/

theorem startState_true_lookup (ws : Workspace) (loc : String) (parsed : Schema) :
    mapLookup (startState ws loc true parsed).Cache loc = some ws.heap.length := by
  unfold startState
  rw [registerSchema_true_Cache, mapLookup_mapInsert]
  simp

/-- A load with the cache flag set that returns a nil error leaves the location
registered with the very document it returns. -/
theorem loadXsd_ok_registered (env : Env) (fuel : Nat) (ws : Workspace) (loc : String)
    (ws2 : Workspace) (d : Option Nat)
    (h : ws.loadXsd env fuel loc true = some (ws2, d, none)) :
    ∃ q, d = some q ∧ mapLookup ws2.Cache loc = some q := by
  obtain ⟨q, hq, hcase⟩ := loadXsd_ok_inv env fuel ws loc true ws2 d h
  refine ⟨q, hq, ?_⟩
  rcases hcase with ⟨hhit, rfl⟩ | ⟨n, f, parsed, dir, ws3, ws4, -, -, -, -, -, -, rfl, hi, hm, rfl⟩
  · exact hhit
  · have g3 := loadIncludes_grow env _ (loadXsd_reach env n) dir _ _ _ _ hi
    have g4 := loadImports_grow env _ (loadXsd_reach env n) dir _ _ _ _ _ hm
    exact g4.cache _ _ (g3.cache _ _ (startState_true_lookup ws loc parsed))

/-- After the import loop has run through without error every entry's target is a key
of `Cache`. -/
theorem loadImports_registered (env : Env) (n : Nat) (dir : String) (p : Nat) :
    ∀ (imps : List Import) (idx : Nat) (ws ws2 : Workspace),
      loadImports env (Workspace.loadXsd env n) dir p idx imps ws = some (ws2, none) →
      ∀ im ∈ imps, (mapLookup ws2.Cache (env.joinLocation dir im.SchemaLocation)).isSome := by
  intro imps
  induction imps with
  | nil => intro idx ws ws2 _ im him; cases him
  | cons im0 rest ih =>
    intro idx ws ws2 h im him
    rw [loadImports_cons] at h
    cases hl : Workspace.loadXsd env n ws (env.joinLocation dir im0.SchemaLocation) true with
    | none => rw [hl] at h; simp at h
    | some res =>
      obtain ⟨ws1, d, e⟩ := res
      rw [hl] at h
      cases e with
      | some err => simp at h
      | none =>
        simp only at h
        rcases List.mem_cons.1 him with rfl | hrest
        · obtain ⟨q, -, hq⟩ := loadXsd_ok_registered env n ws _ ws1 d hl
          have g := loadImports_grow env _ (loadXsd_reach env n) dir p _ _ _ _ h
          have := g.cache _ _ (by simpa using hq)
          simp [this]
        · exact ih _ _ _ h im hrest

/-! ## C8: imports are not merged -/

theorem cacheInj_of_empty (ws : Workspace) (h : ws.Cache = []) : CacheInj ws := by
  intro k1 k2 v h1
  rw [h] at h1
  simp [mapLookup] at h1

/-- C8: for every root document `R` without includes, loaded into a fresh cache, and
every import entry `M` of `R`, a successful `loadXsd(R, true)` returns a document whose
Elements, Attributes, AttributeGroups, ComplexTypes and SimpleTypes are exactly what
parsing `R` alone produced (nothing of `M` is added), `R` is registered under its own
location, and the location `M` resolves to is a key of `Cache` of its own, holding a
different document from `R` whenever it is a different location. -/
theorem C8_import_is_not_merged (env : Env) (hkeep : CompileKeepsContent env)
    (fuel : Nat) (ws : Workspace) (root : String) (fR : ReadCloser) (R : Schema)
    (dir : String) (ws2 : Workspace) (p : Nat) (M : Import)
    (hfresh : ws.Cache = [])
    (hoR : openLocation env root = .ok fR) (hpR : env.parseSchema fR = .ok R)
    (hnoinc : R.Includes = []) (hdir : baseDir env root = .ok dir) (hM : M ∈ R.Imports)
    (hrun : ws.loadXsd env fuel root true = some (ws2, some p, none)) :
    (ws2.deref p).Elements = R.Elements ∧
    (ws2.deref p).Attributes = R.Attributes ∧
    (ws2.deref p).AttributeGroups = R.AttributeGroups ∧
    (ws2.deref p).ComplexTypes = R.ComplexTypes ∧
    (ws2.deref p).SimpleTypes = R.SimpleTypes ∧
    mapLookup ws2.Cache root = some p ∧
    ∃ q, mapLookup ws2.Cache (env.joinLocation dir M.SchemaLocation) = some q ∧
      (env.joinLocation dir M.SchemaLocation ≠ root → q ≠ p) := by
  have hmiss : mapLookup ws.Cache root = none := by rw [hfresh]; rfl
  obtain ⟨-, -, hreach, hcont⟩ :=
    loadXsd_leaf_includes env hkeep fuel ws root true fR R dir ws2 p
      (cacheValid_of_empty ws hfresh) (leafInv_of_empty env ws hfresh) hmiss hoR hpR hdir
      (by rw [hnoinc]; intro si hsi; cases hsi) hrun
  rw [hnoinc] at hcont
  simp only [List.map_nil, List.foldl_nil] at hcont
  obtain ⟨q0, hq0, hroot⟩ := loadXsd_ok_registered env fuel ws root ws2 (some p) hrun
  cases hq0
  have hinj : CacheInj ws2 :=
    hreach.cacheInj (cacheValid_of_empty ws hfresh) (cacheInj_of_empty ws hfresh)
  have hreg : (mapLookup ws2.Cache (env.joinLocation dir M.SchemaLocation)).isSome := by
    rcases loadXsd_success_inv env fuel ws root true ws2 p hrun with ⟨hhit, -⟩ |
      ⟨n, f, parsed, dir2, ws3, ws4, -, -, ho2, -, hp2, hd2, rfl, hi, hm, rfl⟩
    · rw [hmiss] at hhit; cases hhit
    · rw [hoR] at ho2
      cases ho2
      rw [hpR] at hp2
      cases hp2
      rw [hdir] at hd2
      cases hd2
      rw [stampSchema_Includes, hnoinc] at hi
      simp only [loadIncludes, Option.some.injEq, Prod.mk.injEq, and_true] at hi
      subst hi
      rw [startState_deref, stampSchema_Imports] at hm
      exact loadImports_registered env n dir _ _ _ _ _ hm M hM
  refine ⟨congrArg Content.Elements hcont, congrArg Content.Attributes hcont,
    congrArg Content.AttributeGroups hcont, congrArg Content.ComplexTypes hcont,
    congrArg Content.SimpleTypes hcont, hroot, ?_⟩
  cases hq : mapLookup ws2.Cache (env.joinLocation dir M.SchemaLocation) with
  | none => rw [hq] at hreg; cases hreg
  | some q =>
    refine ⟨q, rfl, ?_⟩
    intro hne hqp
    subst hqp
    exact hne (hinj _ _ _ hq hroot)

/-- C8 on the root `r.xsd` importing `m.xsd`. -/
theorem C8_import_is_not_merged_witness :
    ∃ ws2 p, ({} : Workspace).loadXsd (fsEnv rootImports) 2 "r.xsd" true
        = some (ws2, some p, none) ∧
      (ws2.deref p).Elements = ["er"] ∧
      (ws2.deref p).Attributes = [] ∧
      (ws2.deref p).AttributeGroups = [] ∧
      (ws2.deref p).ComplexTypes = ["TR"] ∧
      (ws2.deref p).SimpleTypes = [] ∧
      mapLookup ws2.Cache "r.xsd" = some p ∧
      ∃ q, mapLookup ws2.Cache
          ((fsEnv rootImports).joinLocation "."
            (Import.SchemaLocation { Namespace := "urn:m", SchemaLocation := "m.xsd" })) = some q ∧
        ((fsEnv rootImports).joinLocation "."
            (Import.SchemaLocation { Namespace := "urn:m", SchemaLocation := "m.xsd" }) ≠ "r.xsd" →
          q ≠ p) :=
  ⟨_, 0, rfl,
    C8_import_is_not_merged (fsEnv rootImports) (compileKeepsContent_fsEnv _) 2 {} "r.xsd"
      { bytes := "r.xsd" }
      { TargetNamespace := "urn:r", Elements := ["er"], ComplexTypes := ["TR"]
        Imports := [{ Namespace := "urn:m", SchemaLocation := "m.xsd" }] }
      "." _ 0 { Namespace := "urn:m", SchemaLocation := "m.xsd" }
      rfl rfl rfl rfl rfl (by simp) rfl⟩

/-! ## Invariants along the successful path -/

theorem loadIncludes_ok_preserves (env : Env)
    (load : Workspace → String → Bool → Option LoadResult) (I : Workspace → Prop)
    (hstore : ∀ ws p s, I ws → I (ws.store p s))
    (hload : ∀ ws loc c ws2 d, I ws → load ws loc c = some (ws2, d, none) → I ws2)
    (dir : String) (p : Nat) :
    ∀ (incs : List Include) (ws ws2 : Workspace),
      I ws → loadIncludes env load dir p incs ws = some (ws2, none) → I ws2 := by
  intro incs
  induction incs with
  | nil =>
    intro ws ws2 hI h
    simp only [loadIncludes, Option.some.injEq, Prod.mk.injEq, and_true] at h
    subst h; exact hI
  | cons si rest ih =>
    intro ws ws2 hI h
    rw [loadIncludes_cons] at h
    cases hl : load ws (env.joinLocation dir si.SchemaLocation) false with
    | none => rw [hl] at h; simp at h
    | some res =>
      obtain ⟨ws1, d, e⟩ := res
      rw [hl] at h
      cases e with
      | some err => simp at h
      | none =>
        cases d with
        | none => simp at h
        | some isch =>
          simp only at h
          exact ih _ _ (hstore _ _ _ (hload _ _ _ _ _ hI hl)) h

theorem loadImports_ok_preserves (env : Env)
    (load : Workspace → String → Bool → Option LoadResult) (I : Workspace → Prop)
    (hstore : ∀ ws p s, I ws → I (ws.store p s))
    (hload : ∀ ws loc c ws2 d, I ws → load ws loc c = some (ws2, d, none) → I ws2)
    (dir : String) (p : Nat) :
    ∀ (imps : List Import) (idx : Nat) (ws ws2 : Workspace),
      I ws → loadImports env load dir p idx imps ws = some (ws2, none) → I ws2 := by
  intro imps
  induction imps with
  | nil =>
    intro idx ws ws2 hI h
    simp only [loadImports, Option.some.injEq, Prod.mk.injEq, and_true] at h
    subst h; exact hI
  | cons im rest ih =>
    intro idx ws ws2 hI h
    rw [loadImports_cons] at h
    cases hl : load ws (env.joinLocation dir im.SchemaLocation) true with
    | none => rw [hl] at h; simp at h
    | some res =>
      obtain ⟨ws1, d, e⟩ := res
      rw [hl] at h
      cases e with
      | some err => simp at h
      | none =>
        simp only at h
        exact ih _ _ _ (hstore _ _ _ (hload _ _ _ _ _ hI hl)) h

theorem startState_trace (ws : Workspace) (loc : String) (c : Bool) (parsed : Schema) :
    (startState ws loc c parsed).trace
      = ws.trace ++ [Event.load loc c, Event.fetch loc, Event.parse loc] := by
  unfold startState
  rw [registerSchema_trace]
  simp

theorem startState_false_Cache (ws : Workspace) (loc : String) (parsed : Schema) :
    (startState ws loc false parsed).Cache = ws.Cache := rfl

theorem startState_true_Cache (ws : Workspace) (loc : String) (parsed : Schema) :
    (startState ws loc true parsed).Cache = mapInsert ws.Cache loc ws.heap.length := rfl

/-- A call that returns a nil error leaves every location requested with the cache
flag registered. -/
theorem loadXsd_ok_requestedAreKeys (env : Env) :
    ∀ (fuel : Nat) (ws : Workspace) (loc : String) (c : Bool) (ws2 : Workspace) (d : Option Nat),
      RequestedAreKeys ws → ws.loadXsd env fuel loc c = some (ws2, d, none) →
      RequestedAreKeys ws2 := by
  intro fuel
  induction fuel with
  | zero => intro ws loc c ws2 d _ h; simp [Workspace.loadXsd] at h
  | succ m ih =>
    intro ws loc c ws2 d hI h
    obtain ⟨q, -, hcase⟩ := loadXsd_ok_inv env (m + 1) ws loc c ws2 d h
    rcases hcase with ⟨hhit, rfl⟩ |
      ⟨n, f, parsed, dir, ws3, ws4, hn, hmiss, ho, -, hp, -, rfl, hi, hm, rfl⟩
    · intro L hL
      simp only [log_trace, List.mem_append, List.mem_singleton, Event.load.injEq] at hL
      rcases hL with hL | ⟨rfl, -⟩
      · exact hI L hL
      · simp [hhit]
    · have hn2 : n = m := by omega
      subst hn2
      have hstart : RequestedAreKeys (startState ws loc c parsed) := by
        intro L hL
        rw [startState_trace] at hL
        simp only [List.mem_append, List.mem_cons, Event.load.injEq, List.mem_singleton,
          List.not_mem_nil, or_false, reduceCtorEq] at hL
        rcases hL with hL | ⟨rfl, rfl⟩
        · have h1 := hI L hL
          cases hq : mapLookup ws.Cache L with
          | none => rw [hq] at h1; cases h1
          | some v =>
            have := (startState_reach env ws loc c f parsed hmiss ho hp).cache_mono L v hq
            simp [this]
        · simp [startState_true_lookup]
      have hstore : ∀ (w : Workspace) (p : Nat) (s : Schema),
          RequestedAreKeys w → RequestedAreKeys (w.store p s) := fun _ _ _ hw => hw
      have h3 := loadIncludes_ok_preserves env _ RequestedAreKeys hstore
        (fun w l c2 w2 d2 hw hl => ih w l c2 w2 d2 hw hl) dir _ _ _ _ hstart hi
      have h4 := loadImports_ok_preserves env _ RequestedAreKeys hstore
        (fun w l c2 w2 d2 hw hl => ih w l c2 w2 d2 hw hl) dir _ _ _ _ _ h3 hm
      exact hstore _ _ _ h4

/-! ## Running the code forward on small graphs -/

theorem loadDeps_noDeps (env : Env) (load : Workspace → String → Bool → Option LoadResult)
    (ws : Workspace) (loc : String) (p : Nat) (dir : String)
    (hdir : baseDir env loc = .ok dir) (hinc : (ws.deref p).Includes = [])
    (himp : (ws.deref p).Imports = []) :
    loadDeps env load ws loc p
      = some (ws.store p (env.schemaCompile (ws.deref p)), some p, none) := by
  simp [loadDeps, hdir, hinc, himp, loadIncludes, loadImports]

/-- A document without includes and imports that is not registered yet is fetched,
parsed, allocated, compiled and returned. -/
theorem loadXsd_noDeps (env : Env) (n : Nat) (ws : Workspace) (loc : String) (c : Bool)
    (f : ReadCloser) (S : Schema) (dir : String)
    (hmiss : mapLookup ws.Cache loc = none) (ho : openLocation env loc = .ok f)
    (hclose : f.closeErr = none) (hp : env.parseSchema f = .ok S)
    (hdir : baseDir env loc = .ok dir) (hinc : S.Includes = []) (himp : S.Imports = []) :
    ws.loadXsd env (n + 1) loc c
      = some ((startState ws loc c S).store ws.heap.length
          (env.schemaCompile (stampSchema ws loc S)), some ws.heap.length, none) := by
  rw [loadXsd_miss env n ws loc c f S hmiss ho hp,
    loadDeps_noDeps env _ _ loc _ dir hdir (by rw [startState_deref]; exact hinc)
      (by rw [startState_deref]; exact himp), startState_deref]
  simp [deferredClose, hclose]

theorem store_store_deref_other (ws : Workspace) (p q : Nat) (s : Schema) (h : q ≠ p) :
    (ws.store q s).deref p = ws.deref p := deref_store_other ws q p s h

theorem startState_deref_old (ws : Workspace) (loc : String) (c : Bool) (S : Schema) (q : Nat)
    (h : q < ws.heap.length) : (startState ws loc c S).deref q = ws.deref q := by
  unfold startState
  rw [registerSchema_deref]
  exact deref_alloc_old _ _ _ (by simpa using h)

/-- A root with a single include of a document without dependencies, and no imports:
the exact outcome of the load. -/
theorem loadXsd_singleInclude (env : Env) (hki : CompileKeepsImports env)
    (n : Nat) (ws : Workspace) (root : String) (c : Bool)
    (fR fS : ReadCloser) (R S : Schema) (i : Include) (dir dirS : String)
    (hmiss : mapLookup ws.Cache root = none)
    (hmissS : mapLookup (startState ws root c R).Cache (env.joinLocation dir i.SchemaLocation) = none)
    (hoR : openLocation env root = .ok fR) (hcR : fR.closeErr = none)
    (hpR : env.parseSchema fR = .ok R) (hdir : baseDir env root = .ok dir)
    (hincR : R.Includes = [i]) (himpR : R.Imports = [])
    (hoS : openLocation env (env.joinLocation dir i.SchemaLocation) = .ok fS)
    (hcS : fS.closeErr = none) (hpS : env.parseSchema fS = .ok S)
    (hdirS : baseDir env (env.joinLocation dir i.SchemaLocation) = .ok dirS)
    (hincS : S.Includes = []) (himpS : S.Imports = []) :
    ∃ ws2, ws.loadXsd env (n + 2) root c = some (ws2, some ws.heap.length, none) ∧
      ws2.Cache = (startState ws root c R).Cache ∧
      ws2.deref ws.heap.length = env.schemaCompile
        (mergeInclude (env.schemaCompile (stampSchema ws
          (env.joinLocation dir i.SchemaLocation) S)) (stampSchema ws root R)) := by
  have hlen : (startState ws root c R).heap.length = ws.heap.length + 1 := startState_length _ _ _ _
  have hnested := loadXsd_noDeps env n (startState ws root c R)
    (env.joinLocation dir i.SchemaLocation) false fS S dirS hmissS hoS hcS hpS hdirS hincS himpS
  -- the state after the include has been loaded
  generalize hst : startState ws root c R = st at hnested hlen hmissS
  have hstderef : st.deref ws.heap.length = stampSchema ws root R := by
    rw [← hst]; exact startState_deref _ _ _ _
  have hstamp : stampSchema st (env.joinLocation dir i.SchemaLocation) S
      = stampSchema ws (env.joinLocation dir i.SchemaLocation) S := by
    rw [← hst]
    have := (startState_reach env ws root c fR R hmiss hoR hpR).config_eq
    simp only [stampSchema, this.1, this.2]
  generalize hw1 : (startState st (env.joinLocation dir i.SchemaLocation) false S).store
    st.heap.length (env.schemaCompile (stampSchema st (env.joinLocation dir i.SchemaLocation) S))
    = w1 at hnested
  have hw1len : w1.heap.length = ws.heap.length + 2 := by
    rw [← hw1, store_heap, List.length_set, startState_length, hlen]
  have hw1q : w1.deref st.heap.length
      = env.schemaCompile (stampSchema ws (env.joinLocation dir i.SchemaLocation) S) := by
    rw [← hw1, deref_store_same _ _ _ (by rw [startState_length]; omega), hstamp]
  have hw1p : w1.deref ws.heap.length = stampSchema ws root R := by
    rw [← hw1, deref_store_other _ _ _ _ (by omega),
      startState_deref_old _ _ _ _ _ (by omega), hstderef]
  have hw1cache : w1.Cache = st.Cache := by rw [← hw1]; rfl
  generalize hw2 : w1.store ws.heap.length
    (mergeInclude (w1.deref st.heap.length) (w1.deref ws.heap.length)) = w2
  have hw2p : w2.deref ws.heap.length = mergeInclude
      (env.schemaCompile (stampSchema ws (env.joinLocation dir i.SchemaLocation) S))
      (stampSchema ws root R) := by
    rw [← hw2, deref_store_same _ _ _ (by omega), hw1q, hw1p]
  have himp2 : (w2.deref ws.heap.length).Imports = [] := by
    rw [hw2p]
    show (env.schemaCompile _).Imports ++ (stampSchema ws root R).Imports = []
    rw [hki, stampSchema_Imports, stampSchema_Imports, himpS, himpR]
    rfl
  refine ⟨w2.store ws.heap.length (env.schemaCompile (w2.deref ws.heap.length)), ?_, ?_, ?_⟩
  · rw [loadXsd_miss env (n + 1) ws root c fR R hmiss hoR hpR, hst]
    unfold loadDeps
    rw [hdir]
    simp only [hstderef, stampSchema_Includes, hincR]
    rw [loadIncludes_cons, hnested]
    simp only [hw2, loadIncludes, himp2, loadImports]
    simp [deferredClose, hcR]
  · rw [store_Cache, ← hw2, store_Cache, hw1cache]
  · rw [deref_store_same _ _ _ (by rw [← hw2, store_heap, List.length_set]; omega), hw2p]

/-! ## C7: which locations are keys of the cache -/

theorem NewWorkspace_ok_inv (env : Env) (fuel : Nat) (goModulesPath xsdPath : String)
    (xmlnsOverrides : List String) (ws2 : Workspace) (err : Option String)
    (h : NewWorkspace env fuel goModulesPath xsdPath xmlnsOverrides = some (some ws2, err)) :
    ∃ ov d, env.ParseXmlnsOverrides xmlnsOverrides = .ok ov ∧
      ({ GoModulesPath := goModulesPath, xmlnsOverrides := ov } : Workspace).loadXsd env fuel
        xsdPath true = some (ws2, d, none) ∧
      err = ws2.compile env := by
  unfold NewWorkspace at h
  cases hov : env.ParseXmlnsOverrides xmlnsOverrides with
  | error e => rw [hov] at h; simp at h
  | ok ov =>
    rw [hov] at h
    simp only at h
    cases hl : ({ GoModulesPath := goModulesPath, xmlnsOverrides := ov } : Workspace).loadXsd env
        fuel xsdPath true with
    | none => rw [hl] at h; simp at h
    | some r =>
      obtain ⟨ws1, d, e⟩ := r
      rw [hl] at h
      cases e with
      | some e => simp at h
      | none =>
        simp only [Option.some.injEq, Prod.mk.injEq] at h
        obtain ⟨h1, h2⟩ := h
        subst h1
        exact ⟨ov, d, rfl, hl, h2.symm⟩

/-- C7: after a successful run of `NewWorkspace` a location is a key of `Cache` exactly
when its load was requested with the cache flag set, that is, when it is the root or
was resolved as an import target (own or inherited from an include); a location that
was only resolved as an include target is not a key. In particular, for a root whose
only dependency is an include of a document without dependencies holding the one
type `T`, the load succeeds, the returned document has the type collection `[T]` and
`Cache` has the root as its only key. -/
theorem C7_cache_keys_are_root_and_import_targets :
    (∀ (env : Env) (fuel : Nat) (goModulesPath root : String) (overrides : List String)
        (ws2 : Workspace),
        NewWorkspace env fuel goModulesPath root overrides = some (some ws2, none) →
        (∀ L, (mapLookup ws2.Cache L).isSome ↔ Event.load L true ∈ ws2.trace) ∧
        (∀ L, Event.load L true ∉ ws2.trace → L ∉ mapKeys ws2.Cache)) ∧
    (∀ (env : Env) (fuel : Nat) (ws : Workspace) (root : String) (fR fS : ReadCloser)
        (R S : Schema) (i : Include) (dir dirS : String) (T : Decl),
        CompileKeepsContent env → CompileKeepsImports env → ws.Cache = [] →
        openLocation env root = .ok fR → fR.closeErr = none → env.parseSchema fR = .ok R →
        baseDir env root = .ok dir → R.Includes = [i] → R.Imports = [] → R.ComplexTypes = [] →
        openLocation env (env.joinLocation dir i.SchemaLocation) = .ok fS →
        fS.closeErr = none → env.parseSchema fS = .ok S →
        baseDir env (env.joinLocation dir i.SchemaLocation) = .ok dirS →
        S.Includes = [] → S.Imports = [] → S.ComplexTypes = [T] →
        ∃ ws2 p, ws.loadXsd env (fuel + 2) root true = some (ws2, some p, none) ∧
          (ws2.deref p).ComplexTypes = [T] ∧ mapKeys ws2.Cache = [root]) := by
  refine ⟨?_, ?_⟩
  · intro env fuel goModulesPath root overrides ws2 h
    obtain ⟨ov, d, -, hrun, -⟩ := NewWorkspace_ok_inv env fuel goModulesPath root overrides ws2 none h
    have hreach := loadXsd_reach env fuel _ root true _ hrun
    have hreq := loadXsd_ok_requestedAreKeys env fuel _ root true ws2 d
      (by intro L hL; cases hL) hrun
    have hiff : ∀ L, (mapLookup ws2.Cache L).isSome ↔ Event.load L true ∈ ws2.trace := by
      intro L
      constructor
      · intro hk
        rcases hreach.keys_requested L hk with h0 | h1
        · simp [mapLookup] at h0
        · exact h1
      · exact hreq L
    refine ⟨hiff, ?_⟩
    intro L hL hmem
    exact hL ((hiff L).1 ((mapLookup_isSome_iff _ _).2 hmem))
  · intro env fuel ws root fR fS R S i dir dirS T hkc hki hfresh hoR hcR hpR hdir hincR himpR
      hctR hoS hcS hpS hdirS hincS himpS hctS
    have hmiss : mapLookup ws.Cache root = none := by rw [hfresh]; rfl
    have hne : root ≠ env.joinLocation dir i.SchemaLocation := by
      intro e
      rw [← e, hoR] at hoS
      cases hoS
      rw [hpR] at hpS
      cases hpS
      rw [hincR] at hincS
      cases hincS
    have hmissS : mapLookup (startState ws root true R).Cache
        (env.joinLocation dir i.SchemaLocation) = none := by
      rw [startState_true_Cache, mapLookup_mapInsert, if_neg hne, hfresh]; rfl
    obtain ⟨ws2, hrun, hcache, hderef⟩ :=
      loadXsd_singleInclude env hki fuel ws root true fR fS R S i dir dirS hmiss hmissS hoR hcR
        hpR hdir hincR himpR hoS hcS hpS hdirS hincS himpS
    refine ⟨ws2, ws.heap.length, hrun, ?_, ?_⟩
    · have h1 := congrArg Content.ComplexTypes ((hkc (mergeInclude (env.schemaCompile
        (stampSchema ws (env.joinLocation dir i.SchemaLocation) S)) (stampSchema ws root R))).2)
      have h2 := congrArg Content.ComplexTypes ((hkc (stampSchema ws
        (env.joinLocation dir i.SchemaLocation) S)).2)
      rw [hderef]
      change (env.schemaCompile _).ComplexTypes = _ at h1
      change (env.schemaCompile _).ComplexTypes = _ at h2
      rw [h1]
      show (env.schemaCompile _).ComplexTypes ++ R.ComplexTypes = [T]
      rw [h2]
      show S.ComplexTypes ++ R.ComplexTypes = [T]
      rw [hctS, hctR]
      rfl
    · rw [hcache, startState_true_Cache, hfresh]
      rfl

/-- C7 on the scenario of §8: `a.xsd` includes `b.xsd`. -/
theorem C7_cache_keys_are_root_and_import_targets_witness :
    (∃ ws2, NewWorkspace (fsEnv scenario) 2 "" "a.xsd" [] = some (some ws2, none) ∧
      (∀ L, (mapLookup ws2.Cache L).isSome ↔ Event.load L true ∈ ws2.trace) ∧
      (∀ L, Event.load L true ∉ ws2.trace → L ∉ mapKeys ws2.Cache)) ∧
    (∃ ws2 p, ({} : Workspace).loadXsd (fsEnv scenario) (0 + 2) "a.xsd" true
        = some (ws2, some p, none) ∧
      (ws2.deref p).ComplexTypes = ["T"] ∧ mapKeys ws2.Cache = ["a.xsd"]) :=
  ⟨⟨_, rfl, C7_cache_keys_are_root_and_import_targets.1 (fsEnv scenario) 2 "" "a.xsd" [] _ rfl⟩,
    C7_cache_keys_are_root_and_import_targets.2 (fsEnv scenario) 0 {} "a.xsd"
      { bytes := "a.xsd" } { bytes := "b.xsd" }
      { TargetNamespace := "urn:a", Includes := [{ SchemaLocation := "b.xsd" }] }
      { TargetNamespace := "urn:a", ComplexTypes := ["T"] }
      { SchemaLocation := "b.xsd" } "." "." "T"
      (compileKeepsContent_fsEnv _) (fun _ => rfl) rfl rfl rfl rfl rfl rfl rfl rfl rfl rfl rfl
      rfl rfl rfl rfl⟩

/-! ## C10: a failed fetch or parse aborts the whole run -/

theorem Failure.of_append {env : Env} {a b : List Event} {e : String}
    (h : Failure env (a ++ b) e) : Failure env a e ∨ Failure env b e := by
  obtain ⟨ev, hmem, hf⟩ := h
  rcases List.mem_append.1 hmem with h1 | h1
  · exact Or.inl ⟨ev, h1, hf⟩
  · exact Or.inr ⟨ev, h1, hf⟩

theorem loadIncludes_failure (env : Env) (load : Workspace → String → Bool → Option LoadResult)
    (hreach : ∀ ws loc c r, load ws loc c = some r → Reach env ws r.1)
    (hQ : ∀ ws loc c ws2 d err evs e, load ws loc c = some (ws2, d, err) →
      ws2.trace = ws.trace ++ evs → Failure env evs e → d = none ∧ err = some e)
    (dir : String) (p : Nat) :
    ∀ (incs : List Include) (ws ws2 : Workspace) (r : Option String) (evs : List Event)
      (e : String),
      loadIncludes env load dir p incs ws = some (ws2, r) → ws2.trace = ws.trace ++ evs →
      Failure env evs e → r = some e := by
  intro incs
  induction incs with
  | nil =>
    intro ws ws2 r evs e h ht hf
    simp only [loadIncludes, Option.some.injEq, Prod.mk.injEq] at h
    obtain ⟨rfl, -⟩ := h
    have : evs = [] := by simpa using ht
    subst this
    obtain ⟨ev, hmem, -⟩ := hf
    cases hmem
  | cons si rest ih =>
    intro ws ws2 r evs e h ht hf
    rw [loadIncludes_cons] at h
    cases hl : load ws (env.joinLocation dir si.SchemaLocation) false with
    | none => rw [hl] at h; simp at h
    | some res =>
      obtain ⟨ws1, d, e1⟩ := res
      obtain ⟨evs1, hevs1⟩ := (hreach _ _ _ _ hl).trace_extends
      rw [hl] at h
      cases e1 with
      | some err =>
        simp only [Option.some.injEq, Prod.mk.injEq] at h
        obtain ⟨rfl, rfl⟩ := h
        have : evs = evs1 := List.append_cancel_left (ht.symm.trans hevs1.symm)
        subst this
        exact (hQ _ _ _ _ _ _ _ _ hl hevs1.symm hf).2
      | none =>
        cases d with
        | none => simp at h
        | some isch =>
          simp only at h
          obtain ⟨evs2, hevs2⟩ :=
            (loadIncludes_grow env load hreach dir p _ _ _ h).trace
          simp only [store_trace] at hevs2
          have : evs = evs1 ++ evs2 := by
            apply @List.append_cancel_left _ ws.trace
            rw [← ht, ← hevs2, ← hevs1, List.append_assoc]
          subst this
          rcases hf.of_append with hf1 | hf2
          · have := (hQ _ _ _ _ _ _ _ _ hl hevs1.symm hf1).2
            cases this
          · exact ih _ _ _ _ _ h (by simpa using hevs2.symm) hf2

theorem loadImports_failure (env : Env) (load : Workspace → String → Bool → Option LoadResult)
    (hreach : ∀ ws loc c r, load ws loc c = some r → Reach env ws r.1)
    (hQ : ∀ ws loc c ws2 d err evs e, load ws loc c = some (ws2, d, err) →
      ws2.trace = ws.trace ++ evs → Failure env evs e → d = none ∧ err = some e)
    (dir : String) (p : Nat) :
    ∀ (imps : List Import) (idx : Nat) (ws ws2 : Workspace) (r : Option String)
      (evs : List Event) (e : String),
      loadImports env load dir p idx imps ws = some (ws2, r) → ws2.trace = ws.trace ++ evs →
      Failure env evs e → r = some e := by
  intro imps
  induction imps with
  | nil =>
    intro idx ws ws2 r evs e h ht hf
    simp only [loadImports, Option.some.injEq, Prod.mk.injEq] at h
    obtain ⟨rfl, -⟩ := h
    have : evs = [] := by simpa using ht
    subst this
    obtain ⟨ev, hmem, -⟩ := hf
    cases hmem
  | cons im rest ih =>
    intro idx ws ws2 r evs e h ht hf
    rw [loadImports_cons] at h
    cases hl : load ws (env.joinLocation dir im.SchemaLocation) true with
    | none => rw [hl] at h; simp at h
    | some res =>
      obtain ⟨ws1, d, e1⟩ := res
      obtain ⟨evs1, hevs1⟩ := (hreach _ _ _ _ hl).trace_extends
      rw [hl] at h
      cases e1 with
      | some err =>
        simp only [Option.some.injEq, Prod.mk.injEq] at h
        obtain ⟨rfl, rfl⟩ := h
        have : evs = evs1 := by
          apply @List.append_cancel_left _ ws.trace
          rw [← ht, store_trace, hevs1]
        subst this
        exact (hQ _ _ _ _ _ _ _ _ hl hevs1.symm hf).2
      | none =>
        simp only at h
        obtain ⟨evs2, hevs2⟩ :=
          (loadImports_grow env load hreach dir p _ _ _ _ h).trace
        simp only [store_trace] at hevs2
        have : evs = evs1 ++ evs2 := by
          apply @List.append_cancel_left _ ws.trace
          rw [← ht, ← hevs2, ← hevs1, List.append_assoc]
        subst this
        rcases hf.of_append with hf1 | hf2
        · have := (hQ _ _ _ _ _ _ _ _ hl hevs1.symm hf1).2
          cases this
        · exact ih _ _ _ _ _ _ h (by simpa using hevs2.symm) hf2

theorem deferredClose_snd (f : ReadCloser) (ws : Workspace) (e : String) :
    deferredClose f (ws, none, some e) = (ws, none, some e) := rfl

/-- Whenever, during a call of `loadXsd`, a fetch is issued that fails, or a fetched
stream fails to parse, the call returns that error and no document. -/
theorem loadXsd_failure (env : Env) :
    ∀ (fuel : Nat) (ws : Workspace) (loc : String) (c : Bool) (ws2 : Workspace)
      (d : Option Nat) (err : Option String) (evs : List Event) (e : String),
      ws.loadXsd env fuel loc c = some (ws2, d, err) → ws2.trace = ws.trace ++ evs →
      Failure env evs e → d = none ∧ err = some e := by
  intro fuel
  induction fuel with
  | zero => intro ws loc c ws2 d err evs e h; simp [Workspace.loadXsd] at h
  | succ n ih =>
    intro ws loc c ws2 d err evs e h ht hf
    cases hl : mapLookup ws.Cache loc with
    | some cached =>
      rw [loadXsd_hit env n ws loc c cached hl] at h
      simp only [Option.some.injEq, Prod.mk.injEq] at h
      obtain ⟨rfl, -, -⟩ := h
      have : evs = [Event.load loc c] := by
        apply @List.append_cancel_left _ ws.trace
        rw [← ht]; rfl
      subst this
      obtain ⟨ev, hmem, hfail⟩ := hf
      simp only [List.mem_singleton] at hmem
      subst hmem
      exact absurd hfail (by simp [FailedAt])
    | none =>
      cases ho : openLocation env loc with
      | error e0 =>
        simp only [Workspace.loadXsd, hl, ho, Option.some.injEq, Prod.mk.injEq] at h
        obtain ⟨rfl, rfl, rfl⟩ := h
        have : evs = [Event.load loc c, Event.fetch loc] := by
          apply @List.append_cancel_left _ ws.trace
          rw [← ht]; simp
        subst this
        obtain ⟨ev, hmem, hfail⟩ := hf
        simp only [List.mem_cons, List.mem_singleton, List.not_mem_nil, or_false] at hmem
        rcases hmem with rfl | rfl
        · exact absurd hfail (by simp [FailedAt])
        · simp only [FailedAt] at hfail
          rw [ho] at hfail
          cases hfail
          exact ⟨rfl, rfl⟩
      | ok f =>
        cases hp : env.parseSchema f with
        | error e0 =>
          simp only [Workspace.loadXsd, hl, ho, loadBody, hp, Option.map_some',
            deferredClose_snd, Option.some.injEq, Prod.mk.injEq] at h
          obtain ⟨rfl, rfl, rfl⟩ := h
          have : evs = [Event.load loc c, Event.fetch loc, Event.parse loc] := by
            apply @List.append_cancel_left _ ws.trace
            rw [← ht]; simp
          subst this
          obtain ⟨ev, hmem, hfail⟩ := hf
          simp only [List.mem_cons, List.mem_singleton, List.not_mem_nil, or_false] at hmem
          rcases hmem with rfl | rfl | rfl
          · exact absurd hfail (by simp [FailedAt])
          · simp only [FailedAt] at hfail
            rw [ho] at hfail
            cases hfail
          · simp only [FailedAt] at hfail
            obtain ⟨f2, hf2, hp2⟩ := hfail
            rw [ho] at hf2
            cases hf2
            rw [hp] at hp2
            cases hp2
            exact ⟨rfl, rfl⟩
        | ok parsed =>
          rw [loadXsd_miss env n ws loc c f parsed hl ho hp] at h
          simp only [Option.map_eq_some'] at h
          obtain ⟨r0, hr0, hdc⟩ := h
          -- the three events of this frame are not failures
          have hown : ¬ Failure env [Event.load loc c, Event.fetch loc, Event.parse loc] e := by
            rintro ⟨ev, hmem, hfail⟩
            simp only [List.mem_cons, List.mem_singleton, List.not_mem_nil, or_false] at hmem
            rcases hmem with rfl | rfl | rfl
            · exact absurd hfail (by simp [FailedAt])
            · simp only [FailedAt] at hfail
              rw [ho] at hfail
              cases hfail
            · simp only [FailedAt] at hfail
              obtain ⟨f2, hf2, hp2⟩ := hfail
              rw [ho] at hf2
              cases hf2
              rw [hp] at hp2
              cases hp2
          have hreach := loadXsd_reach env n
          unfold loadDeps at hr0
          cases hd : baseDir env loc with
          | error e0 =>
            rw [hd] at hr0
            simp only [Option.some.injEq] at hr0
            subst hr0
            simp only [deferredClose, Prod.mk.injEq] at hdc
            obtain ⟨rfl, rfl, rfl⟩ := hdc
            have : evs = [Event.load loc c, Event.fetch loc, Event.parse loc] := by
              apply @List.append_cancel_left _ ws.trace
              rw [← ht, startState_trace]
            subst this
            exact absurd hf hown
          | ok dir =>
            rw [hd] at hr0
            simp only at hr0
            cases hi : loadIncludes env (Workspace.loadXsd env n) dir ws.heap.length
                ((startState ws loc c parsed).deref ws.heap.length).Includes
                (startState ws loc c parsed) with
            | none => rw [hi] at hr0; simp at hr0
            | some ri =>
              obtain ⟨ws3, e3⟩ := ri
              rw [hi] at hr0
              obtain ⟨evs3, hevs3⟩ := (loadIncludes_grow env _ hreach dir _ _ _ _ hi).trace
              have hinc := loadIncludes_failure env _ hreach
                (fun w l c2 w2 d2 er ev2 e2 => ih w l c2 w2 d2 er ev2 e2) dir _ _ _ _ _ evs3 e hi
                hevs3.symm
              cases e3 with
              | some e0 =>
                simp only [Option.some.injEq] at hr0
                subst hr0
                simp only [deferredClose, Prod.mk.injEq] at hdc
                obtain ⟨rfl, rfl, rfl⟩ := hdc
                have : evs = [Event.load loc c, Event.fetch loc, Event.parse loc] ++ evs3 := by
                  apply @List.append_cancel_left _ ws.trace
                  rw [← ht, ← hevs3, startState_trace, List.append_assoc]
                subst this
                rcases hf.of_append with h1 | h1
                · exact absurd h1 hown
                · exact ⟨rfl, hinc h1⟩
              | none =>
                simp only at hr0
                cases hm : loadImports env (Workspace.loadXsd env n) dir ws.heap.length 0
                    (ws3.deref ws.heap.length).Imports ws3 with
                | none => rw [hm] at hr0; simp at hr0
                | some rm =>
                  obtain ⟨ws4, e4⟩ := rm
                  rw [hm] at hr0
                  obtain ⟨evs4, hevs4⟩ :=
                    (loadImports_grow env _ hreach dir _ _ _ _ _ hm).trace
                  have himp := loadImports_failure env _ hreach
                    (fun w l c2 w2 d2 er ev2 e2 => ih w l c2 w2 d2 er ev2 e2) dir _ _ _ _ _ _
                    evs4 e hm hevs4.symm
                  have hnone3 : ¬ Failure env evs3 e := fun h1 => by
                    have := hinc h1
                    cases this
                  cases e4 with
                  | some e0 =>
                    simp only [Option.some.injEq] at hr0
                    subst hr0
                    simp only [deferredClose, Prod.mk.injEq] at hdc
                    obtain ⟨rfl, rfl, rfl⟩ := hdc
                    have : evs = [Event.load loc c, Event.fetch loc, Event.parse loc]
                        ++ (evs3 ++ evs4) := by
                      apply @List.append_cancel_left _ ws.trace
                      rw [← ht, ← hevs4, ← hevs3, startState_trace]
                      simp only [List.append_assoc]
                    subst this
                    rcases hf.of_append with h1 | h1
                    · exact absurd h1 hown
                    · rcases h1.of_append with h2 | h2
                      · exact absurd h2 hnone3
                      · exact ⟨rfl, himp h2⟩
                  | none =>
                    simp only [Option.some.injEq] at hr0
                    subst hr0
                    have htr : ws2.trace = ws4.trace := by
                      have := congrArg (fun r : LoadResult => r.1.trace) hdc
                      simp only [deferredClose_fst] at this
                      exact this.symm
                    have : evs = [Event.load loc c, Event.fetch loc, Event.parse loc]
                        ++ (evs3 ++ evs4) := by
                      apply @List.append_cancel_left _ ws.trace
                      rw [← ht, htr, ← hevs4, ← hevs3, startState_trace]
                      simp only [List.append_assoc]
                    subst this
                    rcases hf.of_append with h1 | h1
                    · exact absurd h1 hown
                    · rcases h1.of_append with h2 | h2
                      · exact absurd h2 hnone3
                      · have := himp h2
                        cases this

theorem loadXsd_fetch_error (env : Env) (n : Nat) (ws : Workspace) (loc : String) (c : Bool)
    (e : String) (hmiss : mapLookup ws.Cache loc = none)
    (ho : openLocation env loc = .error e) :
    ws.loadXsd env (n + 1) loc c
      = some ((ws.log (.load loc c)).log (.fetch loc), none, some e) := by
  simp [Workspace.loadXsd, hmiss, ho]

/-- A root whose single include cannot be fetched: the exact outcome of the load. -/
theorem loadXsd_missingInclude (env : Env) (n : Nat) (ws : Workspace) (root : String) (c : Bool)
    (fR : ReadCloser) (R : Schema) (i : Include) (dir : String) (e : String)
    (hfresh : ws.Cache = [])
    (hoR : openLocation env root = .ok fR) (hpR : env.parseSchema fR = .ok R)
    (hdir : baseDir env root = .ok dir) (hincR : R.Includes = [i])
    (hoS : openLocation env (env.joinLocation dir i.SchemaLocation) = .error e) :
    ∃ ws2, ws.loadXsd env (n + 2) root c = some (ws2, none, some e) := by
  have hmiss : mapLookup ws.Cache root = none := by rw [hfresh]; rfl
  have hne : root ≠ env.joinLocation dir i.SchemaLocation := by
    intro h
    rw [← h, hoR] at hoS
    cases hoS
  have hmissS : mapLookup (startState ws root c R).Cache
      (env.joinLocation dir i.SchemaLocation) = none := by
    cases c with
    | false => rw [startState_false_Cache, hfresh]; rfl
    | true => rw [startState_true_Cache, mapLookup_mapInsert, if_neg hne, hfresh]; rfl
  refine ⟨((startState ws root c R).log (.load (env.joinLocation dir i.SchemaLocation) false)).log
    (.fetch (env.joinLocation dir i.SchemaLocation)), ?_⟩
  rw [loadXsd_miss env (n + 1) ws root c fR R hmiss hoR hpR]
  unfold loadDeps
  rw [hdir]
  simp only [startState_deref, stampSchema_Includes, hincR]
  rw [loadIncludes_cons, loadXsd_fetch_error env n _ _ false e hmissS hoS]
  rfl

/-! ## C6: termination -/

theorem selfInclude_diverges :
    ∀ (n : Nat) (ws : Workspace), mapLookup ws.Cache "x.xsd" = none →
      ws.loadXsd (fsEnv selfInclude) n "x.xsd" false = none := by
  intro n
  induction n with
  | zero => intro ws _; rfl
  | succ m ih =>
    intro ws hmiss
    rw [loadXsd_miss (fsEnv selfInclude) m ws "x.xsd" false { bytes := "x.xsd" }
      { Includes := [{ SchemaLocation := "x.xsd" }] } hmiss rfl rfl]
    unfold loadDeps
    have hd : baseDir (fsEnv selfInclude) "x.xsd" = .ok "." := rfl
    rw [hd]
    simp only [startState_deref, stampSchema_Includes]
    rw [loadIncludes_cons]
    have hj : (fsEnv selfInclude).joinLocation "."
        (Include.SchemaLocation { SchemaLocation := "x.xsd" }) = "x.xsd" := rfl
    rw [hj, ih _ (by rw [startState_false_Cache]; exact hmiss)]
    rfl

theorem selfInclude_root_diverges (ws : Workspace) (hfresh : ws.Cache = []) :
    ∀ fuel : Nat, ws.loadXsd (fsEnv selfInclude) fuel "root.xsd" true = none := by
  intro fuel
  cases fuel with
  | zero => rfl
  | succ m =>
    rw [loadXsd_miss (fsEnv selfInclude) m ws "root.xsd" true { bytes := "root.xsd" }
      { Includes := [{ SchemaLocation := "x.xsd" }] } (by rw [hfresh]; rfl) rfl rfl]
    unfold loadDeps
    have hd : baseDir (fsEnv selfInclude) "root.xsd" = .ok "." := rfl
    rw [hd]
    simp only [startState_deref, stampSchema_Includes]
    rw [loadIncludes_cons]
    have hj : (fsEnv selfInclude).joinLocation "."
        (Include.SchemaLocation { SchemaLocation := "x.xsd" }) = "x.xsd" := rfl
    rw [hj, selfInclude_diverges m _
      (by rw [startState_true_Cache, hfresh, mapLookup_mapInsert,
        if_neg (by decide : ¬ "root.xsd" = "x.xsd")]; rfl)]
    rfl

/-- C6, as stated, fails on its own example: for the root `root.xsd` that includes
`x.xsd`, which includes itself, every fetch and parse succeeds and `loadXsd` of the
root returns no result, whatever the fuel: `x.xsd` is loaded as an include, is therefore
never registered, and its re-reference recurses again. -/
theorem C6_counterexample :
    ¬ ∃ (fuel : Nat) (res : LoadResult),
      ({} : Workspace).loadXsd (fsEnv selfInclude) fuel "root.xsd" true = some res := by
  rintro ⟨fuel, res, h⟩
  rw [selfInclude_root_diverges {} rfl fuel] at h
  cases h

/-! ## More fuel never hurts -/

theorem loadIncludes_mono (env : Env) (load load2 : Workspace → String → Bool → Option LoadResult)
    (hmono : ∀ ws loc c r, load ws loc c = some r → load2 ws loc c = some r)
    (dir : String) (p : Nat) :
    ∀ (incs : List Include) (ws : Workspace) (r : Workspace × Option String),
      loadIncludes env load dir p incs ws = some r →
      loadIncludes env load2 dir p incs ws = some r := by
  intro incs
  induction incs with
  | nil => intro ws r h; simpa [loadIncludes] using h
  | cons si rest ih =>
    intro ws r h
    rw [loadIncludes_cons] at h ⊢
    cases hl : load ws (env.joinLocation dir si.SchemaLocation) false with
    | none => rw [hl] at h; simp at h
    | some res =>
      obtain ⟨ws1, d, e⟩ := res
      rw [hl] at h
      rw [hmono _ _ _ _ hl]
      cases e with
      | some err => simpa using h
      | none =>
        cases d with
        | none => simp at h
        | some isch =>
          simp only at h ⊢
          exact ih _ _ h

theorem loadImports_mono (env : Env) (load load2 : Workspace → String → Bool → Option LoadResult)
    (hmono : ∀ ws loc c r, load ws loc c = some r → load2 ws loc c = some r)
    (dir : String) (p : Nat) :
    ∀ (imps : List Import) (idx : Nat) (ws : Workspace) (r : Workspace × Option String),
      loadImports env load dir p idx imps ws = some r →
      loadImports env load2 dir p idx imps ws = some r := by
  intro imps
  induction imps with
  | nil => intro idx ws r h; simpa [loadImports] using h
  | cons im rest ih =>
    intro idx ws r h
    rw [loadImports_cons] at h ⊢
    cases hl : load ws (env.joinLocation dir im.SchemaLocation) true with
    | none => rw [hl] at h; simp at h
    | some res =>
      obtain ⟨ws1, d, e⟩ := res
      rw [hl] at h
      rw [hmono _ _ _ _ hl]
      cases e with
      | some err => simpa using h
      | none =>
        simp only at h ⊢
        exact ih _ _ _ h

theorem loadDeps_mono (env : Env) (load load2 : Workspace → String → Bool → Option LoadResult)
    (hmono : ∀ ws loc c r, load ws loc c = some r → load2 ws loc c = some r)
    (ws : Workspace) (loc : String) (p : Nat) (r : LoadResult)
    (h : loadDeps env load ws loc p = some r) : loadDeps env load2 ws loc p = some r := by
  unfold loadDeps at h ⊢
  cases hd : baseDir env loc with
  | error e => rw [hd] at h; exact h
  | ok dir =>
    rw [hd] at h
    simp only at h ⊢
    cases hi : loadIncludes env load dir p (ws.deref p).Includes ws with
    | none => rw [hi] at h; simp at h
    | some ri =>
      obtain ⟨ws3, e3⟩ := ri
      rw [hi] at h
      rw [loadIncludes_mono env load load2 hmono dir p _ _ _ hi]
      cases e3 with
      | some e => exact h
      | none =>
        simp only at h ⊢
        cases hm : loadImports env load dir p 0 (ws3.deref p).Imports ws3 with
        | none => rw [hm] at h; simp at h
        | some rm =>
          rw [hm] at h
          rw [loadImports_mono env load load2 hmono dir p _ _ _ _ hm]
          exact h

theorem loadXsd_fuel_succ (env : Env) :
    ∀ (n : Nat) (ws : Workspace) (loc : String) (c : Bool) (r : LoadResult),
      ws.loadXsd env n loc c = some r → ws.loadXsd env (n + 1) loc c = some r := by
  intro n
  induction n with
  | zero => intro ws loc c r h; simp [Workspace.loadXsd] at h
  | succ m ih =>
    intro ws loc c r h
    simp only [Workspace.loadXsd] at h ⊢
    cases hl : mapLookup ws.Cache loc with
    | some q => rw [hl] at h; exact h
    | none =>
      rw [hl] at h
      simp only at h ⊢
      cases ho : openLocation env loc with
      | error e => rw [ho] at h; exact h
      | ok f =>
        rw [ho] at h
        simp only [Option.map_eq_some'] at h ⊢
        obtain ⟨r0, hr0, hdc⟩ := h
        refine ⟨r0, ?_, hdc⟩
        unfold loadBody at hr0 ⊢
        cases hp : env.parseSchema f with
        | error e => rw [hp] at hr0; exact hr0
        | ok parsed =>
          rw [hp] at hr0
          exact loadDeps_mono env _ _ ih _ _ _ _ hr0

/-- A result obtained with some fuel is obtained with any larger fuel. -/
theorem loadXsd_fuel_le (env : Env) (n m : Nat) (hnm : n ≤ m) (ws : Workspace) (loc : String)
    (c : Bool) (r : LoadResult) (h : ws.loadXsd env n loc c = some r) :
    ws.loadXsd env m loc c = some r := by
  induction hnm with
  | refl => exact h
  | step _ ih => exact loadXsd_fuel_succ env _ ws loc c r ih

/-! ## Counting the locations that are not registered -/

theorem uncachedKeys_mono (V : List String) (c1 c2 : List (String × Nat))
    (h : ∀ k v, mapLookup c1 k = some v → mapLookup c2 k = some v) :
    uncachedKeys V c2 ≤ uncachedKeys V c1 := by
  unfold uncachedKeys
  apply List.Sublist.length_le
  apply List.monotone_filter_right
  intro L hL
  cases h1 : mapLookup c1 L with
  | none => simp
  | some v =>
    rw [h _ _ h1] at hL
    simp at hL

theorem uncachedKeys_insert (V : List String) (cache : List (String × Nat)) (loc : String)
    (p : Nat) (hV : loc ∈ V) (hmiss : mapLookup cache loc = none) :
    uncachedKeys V (mapInsert cache loc p) + 1 ≤ uncachedKeys V cache := by
  induction V with
  | nil => cases hV
  | cons a rest ih =>
    have hmono : uncachedKeys rest (mapInsert cache loc p) ≤ uncachedKeys rest cache :=
      uncachedKeys_mono rest cache (mapInsert cache loc p) (by
        intro k v hk
        rw [mapLookup_mapInsert]
        by_cases hak : loc = k
        · subst hak; rw [hmiss] at hk; cases hk
        · simp [hak, hk])
    by_cases ha : a = loc
    · subst ha
      have h1 : uncachedKeys (a :: rest) (mapInsert cache a p)
          = uncachedKeys rest (mapInsert cache a p) := by
        simp [uncachedKeys, List.filter_cons, mapLookup_mapInsert]
      have h2 : uncachedKeys (a :: rest) cache = uncachedKeys rest cache + 1 := by
        simp [uncachedKeys, List.filter_cons, hmiss]
      rw [h1, h2]
      omega
    · have hrest : loc ∈ rest := by
        rcases List.mem_cons.1 hV with h | h
        · exact absurd h.symm ha
        · exact h
      have hne : ¬ loc = a := fun e => ha e.symm
      have := ih hrest
      cases hc : mapLookup cache a with
      | none =>
        have h1 : uncachedKeys (a :: rest) (mapInsert cache loc p)
            = uncachedKeys rest (mapInsert cache loc p) + 1 := by
          simp [uncachedKeys, List.filter_cons, mapLookup_mapInsert, hne, hc]
        have h2 : uncachedKeys (a :: rest) cache = uncachedKeys rest cache + 1 := by
          simp [uncachedKeys, List.filter_cons, hc]
        rw [h1, h2]
        omega
      | some v =>
        have h1 : uncachedKeys (a :: rest) (mapInsert cache loc p)
            = uncachedKeys rest (mapInsert cache loc p) := by
          simp [uncachedKeys, List.filter_cons, mapLookup_mapInsert, hne, hc]
        have h2 : uncachedKeys (a :: rest) cache = uncachedKeys rest cache := by
          simp [uncachedKeys, List.filter_cons, hc]
        rw [h1, h2]
        exact this

/-! ## Tracking the import entries and the cached objects -/

theorem deref_alloc_cases (ws : Workspace) (s : Schema) (q : Nat) :
    (ws.alloc s).1.deref q = ws.deref q ∨ (ws.alloc s).1.deref q = s := by
  rcases Nat.lt_trichotomy q ws.heap.length with h | h | h
  · exact Or.inl (deref_alloc_old ws s q h)
  · subst h; exact Or.inr (deref_alloc_new ws s)
  · left
    simp only [Workspace.deref, alloc_heap, List.getD_eq_getElem?_getD]
    rw [List.getElem?_eq_none (by simp; omega), List.getElem?_eq_none (by omega)]

theorem deref_store_cases (ws : Workspace) (p q : Nat) (s : Schema) :
    (ws.store p s).deref q = ws.deref q ∨ (p = q ∧ (ws.store p s).deref q = s) := by
  by_cases hpq : p = q
  · subst hpq
    by_cases hlt : p < ws.heap.length
    · exact Or.inr ⟨rfl, deref_store_same ws p s hlt⟩
    · left
      simp only [Workspace.deref, store_heap, List.getD_eq_getElem?_getD]
      rw [List.getElem?_eq_none (by simp; omega), List.getElem?_eq_none (by omega)]
  · exact Or.inl (deref_store_other ws p q s hpq)

theorem stampSchema_filePath (ws : Workspace) (loc : String) (parsed : Schema) :
    (stampSchema ws loc parsed).filePath = loc := rfl

theorem mergeInclude_filePath (isch schema : Schema) :
    (mergeInclude isch schema).filePath = schema.filePath := rfl

theorem mergeInclude_Imports (isch schema : Schema) :
    (mergeInclude isch schema).Imports = isch.Imports ++ schema.Imports := rfl

/-- Overwriting an object by one of the same file path whose import entries are
references of that document keeps the heap and cache tracked. -/
theorem Tracked.stored {Imp : String → String → Prop} {ws : Workspace} (h : Tracked Imp ws)
    (p : Nat) (s : Schema) (hf : s.filePath = (ws.deref p).filePath)
    (hs : ∀ m ∈ s.Imports, Imp s.filePath m.SchemaLocation) : Tracked Imp (ws.store p s) := by
  refine ⟨?_, ?_, ?_⟩
  · intro q m hm
    rcases deref_store_cases ws p q s with h1 | ⟨_, h1⟩
    · rw [h1] at hm ⊢; exact h.imports q m hm
    · rw [h1] at hm ⊢; exact hs m hm
  · intro k v hk
    rcases deref_store_cases ws p v s with h1 | ⟨hpv, h1⟩
    · rw [h1]; exact h.files k v hk
    · rw [h1, hf, hpv]; exact h.files k v hk
  · intro k v hk
    have := h.valid k v hk
    simpa using this

/-- The state in which a freshly parsed document starts resolving its dependencies
is tracked. -/
theorem Tracked.start {Imp : String → String → Prop} {ws : Workspace} (h : Tracked Imp ws)
    (loc : String) (c : Bool) (parsed : Schema)
    (hown : ∀ m ∈ parsed.Imports, Imp loc m.SchemaLocation) :
    Tracked Imp (startState ws loc c parsed) := by
  have hd : ∀ q, (startState ws loc c parsed).deref q = ws.deref q ∨
      (q = ws.heap.length ∧ (startState ws loc c parsed).deref q = stampSchema ws loc parsed) := by
    intro q
    unfold startState
    rw [registerSchema_deref]
    by_cases hq : q = ws.heap.length
    · subst hq
      exact Or.inr ⟨rfl, deref_alloc_new _ _⟩
    · rcases deref_alloc_cases (((ws.log (.load loc c)).log (.fetch loc)).log (.parse loc))
        (stampSchema ws loc parsed) q with h1 | h1
      · exact Or.inl h1
      · left
        rcases Nat.lt_or_gt_of_ne hq with h2 | h2
        · exact deref_alloc_old _ _ q h2
        · simp only [Workspace.deref, alloc_heap, List.getD_eq_getElem?_getD]
          rw [List.getElem?_eq_none (by simp; omega)]
          show _ = (ws.heap[q]?).getD default
          rw [List.getElem?_eq_none (by omega)]
  refine ⟨?_, ?_, ?_⟩
  · intro q m hm
    rcases hd q with h1 | ⟨_, h1⟩
    · rw [h1] at hm ⊢; exact h.imports q m hm
    · rw [h1] at hm ⊢; exact hown m hm
  · intro k v hk
    cases c with
    | false =>
      rw [startState_false_Cache] at hk
      rcases hd v with h1 | ⟨hv, _⟩
      · rw [h1]; exact h.files k v hk
      · have := h.valid k v hk; omega
    | true =>
      rw [startState_true_Cache, mapLookup_mapInsert] at hk
      by_cases hloc : loc = k
      · simp only [hloc, if_true, Option.some.injEq] at hk
        subst hk
        rw [startState_deref, ← hloc]; rfl
      · simp only [hloc, if_false] at hk
        rcases hd v with h1 | ⟨hv, _⟩
        · rw [h1]; exact h.files k v hk
        · have := h.valid k v hk; omega
  · intro k v hk
    rw [startState_length]
    cases c with
    | false =>
      rw [startState_false_Cache] at hk
      have := h.valid k v hk; omega
    | true =>
      rw [startState_true_Cache, mapLookup_mapInsert] at hk
      by_cases hloc : loc = k
      · simp only [hloc, if_true, Option.some.injEq] at hk
        omega
      · simp only [hloc, if_false] at hk
        have := h.valid k v hk; omega

theorem Tracked.logged {Imp : String → String → Prop} {ws : Workspace} (h : Tracked Imp ws)
    (e : Event) : Tracked Imp (ws.log e) :=
  ⟨fun q m hm => h.imports q m hm, fun k v hk => h.files k v hk,
    fun k v hk => h.valid k v hk⟩

/-! ## Successful loads keep the heap and cache tracked -/

theorem loadIncludes_tracked (env : Env) (V : List String) (Imp : String → String → Prop)
    (load : Workspace → String → Bool → Option LoadResult)
    (hload : KeepsTracked V Imp load)
    (hreach : ∀ ws loc c r, load ws loc c = some r → Reach env ws r.1)
    (dir loc : String) (p : Nat) :
    ∀ (incs : List Include) (ws ws3 : Workspace),
      Tracked Imp ws → p < ws.heap.length → (ws.deref p).filePath = loc →
      (∀ si ∈ incs, env.joinLocation dir si.SchemaLocation ∈ V ∧
        ∀ r, Imp (env.joinLocation dir si.SchemaLocation) r → Imp loc r) →
      loadIncludes env load dir p incs ws = some (ws3, none) →
      Tracked Imp ws3 ∧ p < ws3.heap.length ∧ (ws3.deref p).filePath = loc := by
  intro incs
  induction incs with
  | nil =>
    intro ws ws3 ht hp hf _ h
    simp only [loadIncludes, Option.some.injEq, Prod.mk.injEq, and_true] at h
    subst h; exact ⟨ht, hp, hf⟩
  | cons si rest ih =>
    intro ws ws3 ht hp hf hincs h
    obtain ⟨hV, hinh⟩ := hincs si (by simp)
    rw [loadIncludes_cons] at h
    cases hl : load ws (env.joinLocation dir si.SchemaLocation) false with
    | none => rw [hl] at h; simp at h
    | some res =>
      obtain ⟨ws1, d, e⟩ := res
      rw [hl] at h
      cases e with
      | some err => cases d <;> simp at h
      | none =>
        obtain ⟨ht1, q, hq, hfq⟩ := hload ws _ false ws1 d hV ht hl
        subst hq
        simp only at h
        have hr := hreach _ _ _ _ hl
        have hp1 : p < ws1.heap.length := lt_of_lt_of_le hp hr.heap_length_le
        have hf1 : (ws1.deref p).filePath = loc := by rw [hr.deref_eq p hp]; exact hf
        refine ih _ ws3 (ht1.stored p _ (mergeInclude_filePath _ _) ?_) (by simpa using hp1)
          (by rw [deref_store_same _ _ _ hp1]; exact hf1)
          (fun x hx => hincs x (by simp [hx])) h
        intro m hm
        rw [mergeInclude_filePath, hf1]
        rw [mergeInclude_Imports, List.mem_append] at hm
        rcases hm with hm | hm
        · have := ht1.imports q m hm
          rw [hfq] at this
          exact hinh _ this
        · have := ht1.imports p m hm
          rw [hf1] at this
          exact this

theorem loadImports_tracked (env : Env) (V : List String) (Imp : String → String → Prop)
    (load : Workspace → String → Bool → Option LoadResult)
    (hload : KeepsTracked V Imp load)
    (hreach : ∀ ws loc c r, load ws loc c = some r → Reach env ws r.1)
    (dir loc : String) (p : Nat) :
    ∀ (imps : List Import) (idx : Nat) (ws ws4 : Workspace),
      Tracked Imp ws → p < ws.heap.length → (ws.deref p).filePath = loc →
      (∀ im ∈ imps, Imp loc im.SchemaLocation ∧ env.joinLocation dir im.SchemaLocation ∈ V) →
      loadImports env load dir p idx imps ws = some (ws4, none) →
      Tracked Imp ws4 ∧ p < ws4.heap.length ∧ (ws4.deref p).filePath = loc := by
  intro imps
  induction imps with
  | nil =>
    intro idx ws ws4 ht hp hf _ h
    simp only [loadImports, Option.some.injEq, Prod.mk.injEq, and_true] at h
    subst h; exact ⟨ht, hp, hf⟩
  | cons im rest ih =>
    intro idx ws ws4 ht hp hf himps h
    obtain ⟨himp, hV⟩ := himps im (by simp)
    rw [loadImports_cons] at h
    cases hl : load ws (env.joinLocation dir im.SchemaLocation) true with
    | none => rw [hl] at h; simp at h
    | some res =>
      obtain ⟨ws1, d, e⟩ := res
      rw [hl] at h
      cases e with
      | some err => simp at h
      | none =>
        obtain ⟨ht1, -⟩ := hload ws _ true ws1 d hV ht hl
        simp only at h
        have hr := hreach _ _ _ _ hl
        have hp1 : p < ws1.heap.length := lt_of_lt_of_le hp hr.heap_length_le
        have hf1 : (ws1.deref p).filePath = loc := by rw [hr.deref_eq p hp]; exact hf
        refine ih _ _ ws4 ?_ (by simpa using hp1) ?_ (fun x hx => himps x (by simp [hx])) h
        · refine ht1.stored p _ rfl ?_
          intro m hm
          show Imp (ws1.deref p).filePath m.SchemaLocation
          rw [hf1]
          rcases List.mem_or_eq_of_mem_set hm with hm | hm
          · have := ht1.imports p m hm
            rw [hf1] at this
            exact this
          · subst hm; exact himp
        · rw [deref_store_same _ _ _ hp1]; exact hf1

/-- On a ranked graph every successful load of a location of the graph keeps the heap
and cache tracked and returns an object stamped with the requested location. -/
theorem loadXsd_tracked (env : Env) (V : List String) (Imp : String → String → Prop)
    (rank : String → Nat) (R : Nat) (root : String)
    (hg : IncludeRanked env V Imp rank R root) :
    ∀ fuel : Nat, KeepsTracked V Imp (Workspace.loadXsd env fuel) := by
  intro fuel
  induction fuel with
  | zero => intro ws loc c ws2 d _ _ h; simp [Workspace.loadXsd] at h
  | succ n ih =>
    intro ws loc c ws2 d hV ht h
    obtain ⟨q, hq, hcase⟩ := loadXsd_ok_inv env (n + 1) ws loc c ws2 d h
    subst hq
    rcases hcase with ⟨hhit, rfl⟩ | ⟨m, f, parsed, dir, ws3, ws4, hm, hmiss, ho, -, hp, hd, hq,
      hinc, himp, rfl⟩
    · exact ⟨ht.logged _, q, rfl, ht.files loc q hhit⟩
    · have hmn : m = n := by omega
      subst hmn
      subst hq
      have ht0 : Tracked Imp (startState ws loc c parsed) :=
        ht.start loc c parsed (hg.own loc hV f parsed ho hp)
      have hlen : ws.heap.length < (startState ws loc c parsed).heap.length := by
        rw [startState_length]; omega
      have hf0 : ((startState ws loc c parsed).deref ws.heap.length).filePath = loc := by
        rw [startState_deref]; rfl
      obtain ⟨ht3, hlen3, hf3⟩ := loadIncludes_tracked env V Imp _ ih
        (fun ws loc c r hr => loadXsd_reach env m ws loc c r hr) dir loc ws.heap.length
        _ _ ws3 ht0 hlen hf0
        (fun si hsi => ⟨hg.includes_closed loc hV f parsed dir ho hp hd si hsi,
          hg.inherited loc hV f parsed dir ho hp hd si hsi⟩) hinc
      obtain ⟨ht4, hlen4, hf4⟩ := loadImports_tracked env V Imp _ ih
        (fun ws loc c r hr => loadXsd_reach env m ws loc c r hr) dir loc ws.heap.length
        _ 0 ws3 ws4 ht3 hlen3 hf3
        (fun im him => by
          have h1 := ht3.imports _ im him
          rw [hf3] at h1
          exact ⟨h1, hg.imports_closed loc hV dir _ hd h1⟩) himp
      refine ⟨ht4.stored _ _ (hg.compile_filePath _) ?_, ws.heap.length, rfl, ?_⟩
      · intro x hx
        rw [hg.compile_filePath]
        rw [hg.compile_imports] at hx
        exact ht4.imports _ x hx
      · rw [deref_store_same _ _ _ hlen4, hg.compile_filePath, hf4]

/-! ## Termination on ranked graphs -/

theorem Ready.extend {V : List String} {Imp : String → String → Prop} {root : String} {k : Nat}
    {ws ws2 : Workspace} (h : Ready V Imp root k ws) (hg : Grow ws ws2)
    (ht : Tracked Imp ws2) : Ready V Imp root k ws2 := by
  refine ⟨ht, ?_, le_trans (uncachedKeys_mono V _ _ hg.cache) h.bound⟩
  cases hq : mapLookup ws.Cache root with
  | none => have := h.rooted; rw [hq] at this; cases this
  | some v => rw [hg.cache root v hq]; rfl

theorem loadIncludes_total (env : Env) (V : List String) (Imp : String → String → Prop)
    (rank : String → Nat) (R : Nat) (root : String)
    (hg : IncludeRanked env V Imp rank R root) (N k ρ : Nat) (dir loc : String) (p : Nat)
    (IH : ∀ (w : Workspace) (t : String), t ∈ V → Ready V Imp root k w →
      mapLookup w.Cache t = none → rank t < ρ →
      ∃ res, w.loadXsd env (N + 1) t false = some res ∧ (AllLoad env V → res.2.2 = none)) :
    ∀ (incs : List Include) (ws : Workspace), Ready V Imp root k ws →
      p < ws.heap.length → (ws.deref p).filePath = loc →
      (∀ si ∈ incs, env.joinLocation dir si.SchemaLocation ∈ V ∧
        (∀ r, Imp (env.joinLocation dir si.SchemaLocation) r → Imp loc r) ∧
        (env.joinLocation dir si.SchemaLocation = root ∨
          rank (env.joinLocation dir si.SchemaLocation) < ρ)) →
      ∃ res, loadIncludes env (Workspace.loadXsd env (N + 1)) dir p incs ws = some res ∧
        (AllLoad env V → res.2 = none) := by
  intro incs
  induction incs with
  | nil => intro ws _ _ _ _; exact ⟨(ws, none), rfl, fun _ => rfl⟩
  | cons si rest ih =>
    intro ws hG hp hf hincs
    obtain ⟨hV, hinh, hrank⟩ := hincs si (by simp)
    have hcall : ∃ res, ws.loadXsd env (N + 1) (env.joinLocation dir si.SchemaLocation) false
        = some res ∧ (AllLoad env V → res.2.2 = none) := by
      cases hq : mapLookup ws.Cache (env.joinLocation dir si.SchemaLocation) with
      | some q => exact ⟨_, loadXsd_hit env N ws _ false q hq, fun _ => rfl⟩
      | none =>
        rcases hrank with hr | hr
        · rw [hr] at hq
          have := hG.rooted
          rw [hq] at this
          cases this
        · exact IH ws _ hV hG hq hr
    obtain ⟨⟨ws1, d, e⟩, hl, hok⟩ := hcall
    cases e with
    | some err =>
      exact ⟨(ws1, some err), by rw [loadIncludes_cons, hl]; cases d <;> rfl,
        fun h => by cases hok h⟩
    | none =>
      obtain ⟨-, q, hq, -⟩ := loadXsd_tracked env V Imp rank R root hg (N + 1) ws _ false ws1 d
        hV hG.tracked hl
      subst hq
      have hone : loadIncludes env (Workspace.loadXsd env (N + 1)) dir p [si] ws
          = some (ws1.store p (mergeInclude (ws1.deref q) (ws1.deref p)), none) := by
        rw [loadIncludes_cons, hl]; rfl
      obtain ⟨ht2, hp2, hf2⟩ := loadIncludes_tracked env V Imp _
        (loadXsd_tracked env V Imp rank R root hg (N + 1))
        (fun ws loc c r hr => loadXsd_reach env (N + 1) ws loc c r hr) dir loc p [si] ws _
        hG.tracked hp hf (fun x hx => by
          rw [List.mem_singleton] at hx; subst hx; exact ⟨hV, hinh⟩) hone
      have hgrow := loadIncludes_grow env _
        (fun ws loc c r hr => loadXsd_reach env (N + 1) ws loc c r hr) dir p [si] ws _ hone
      obtain ⟨res, hres, hres2⟩ := ih _ (hG.extend hgrow ht2) hp2 hf2
        (fun x hx => hincs x (by simp [hx]))
      exact ⟨res, by rw [loadIncludes_cons, hl]; exact hres, hres2⟩

theorem loadImports_total (env : Env) (V : List String) (Imp : String → String → Prop)
    (rank : String → Nat) (R : Nat) (root : String)
    (hg : IncludeRanked env V Imp rank R root) (N k : Nat) (dir loc : String) (p : Nat)
    (IH : ∀ (w : Workspace) (t : String), t ∈ V → Ready V Imp root k w →
      mapLookup w.Cache t = none →
      ∃ res, w.loadXsd env (N + 1) t true = some res ∧ (AllLoad env V → res.2.2 = none)) :
    ∀ (imps : List Import) (idx : Nat) (ws : Workspace), Ready V Imp root k ws →
      p < ws.heap.length → (ws.deref p).filePath = loc →
      (∀ im ∈ imps, Imp loc im.SchemaLocation ∧ env.joinLocation dir im.SchemaLocation ∈ V) →
      ∃ res, loadImports env (Workspace.loadXsd env (N + 1)) dir p idx imps ws = some res ∧
        (AllLoad env V → res.2 = none) := by
  intro imps
  induction imps with
  | nil => intro idx ws _ _ _ _; exact ⟨(ws, none), rfl, fun _ => rfl⟩
  | cons im rest ih =>
    intro idx ws hG hp hf himps
    obtain ⟨himp, hV⟩ := himps im (by simp)
    have hcall : ∃ res, ws.loadXsd env (N + 1) (env.joinLocation dir im.SchemaLocation) true
        = some res ∧ (AllLoad env V → res.2.2 = none) := by
      cases hq : mapLookup ws.Cache (env.joinLocation dir im.SchemaLocation) with
      | some q => exact ⟨_, loadXsd_hit env N ws _ true q hq, fun _ => rfl⟩
      | none => exact IH ws _ hV hG hq
    obtain ⟨⟨ws1, d, e⟩, hl, hok⟩ := hcall
    cases e with
    | some err => exact ⟨_, by rw [loadImports_cons, hl], fun h => by cases hok h⟩
    | none =>
      have hone : loadImports env (Workspace.loadXsd env (N + 1)) dir p idx [im] ws
          = some (ws1.store p (withImports (ws1.deref p)
              ((ws1.deref p).Imports.set idx { im with ImportedSchema := d })), none) := by
        rw [loadImports_cons, hl]; rfl
      obtain ⟨ht2, hp2, hf2⟩ := loadImports_tracked env V Imp _
        (loadXsd_tracked env V Imp rank R root hg (N + 1))
        (fun ws loc c r hr => loadXsd_reach env (N + 1) ws loc c r hr) dir loc p [im] idx ws _
        hG.tracked hp hf (fun x hx => by
          rw [List.mem_singleton] at hx; subst hx; exact ⟨himp, hV⟩) hone
      have hgrow := loadImports_grow env _
        (fun ws loc c r hr => loadXsd_reach env (N + 1) ws loc c r hr) dir p [im] idx ws _ hone
      obtain ⟨res, hres, hres2⟩ := ih (idx + 1) _ (hG.extend hgrow ht2) hp2 hf2
        (fun x hx => himps x (by simp [hx]))
      exact ⟨res, by rw [loadImports_cons, hl]; exact hres, hres2⟩

theorem loadXsd_total_step (env : Env) (V : List String) (Imp : String → String → Prop)
    (rank : String → Nat) (R : Nat) (root : String)
    (hg : IncludeRanked env V Imp rank R root) (N k : Nat)
    (ws : Workspace) (loc : String) (c : Bool)
    (IHinc : ∀ (w : Workspace) (t : String), t ∈ V → Ready V Imp root k w →
      mapLookup w.Cache t = none → rank t < rank loc →
      ∃ res, w.loadXsd env (N + 1) t false = some res ∧ (AllLoad env V → res.2.2 = none))
    (IHimp : ∀ (w : Workspace) (t : String), t ∈ V → Ready V Imp root k w →
      mapLookup w.Cache t = none →
      ∃ res, w.loadXsd env (N + 1) t true = some res ∧ (AllLoad env V → res.2.2 = none))
    (hV : loc ∈ V) (ht : Tracked Imp ws)
    (hroot : (mapLookup ws.Cache root).isSome = true ∨ (c = true ∧ loc = root))
    (hmiss : mapLookup ws.Cache loc = none)
    (hk : uncachedKeys V (registerSchema ws loc c ws.heap.length).Cache ≤ k) :
    ∃ res, ws.loadXsd env (N + 1 + 1) loc c = some res ∧ (AllLoad env V → res.2.2 = none) := by
  cases ho : openLocation env loc with
  | error e =>
    refine ⟨_, by simp [Workspace.loadXsd, hmiss, ho]; rfl, fun hA => ?_⟩
    obtain ⟨f1, S1, d1, ho1, -, -, -⟩ := hA loc hV
    rw [ho] at ho1
    cases ho1
  | ok f =>
    cases hp : env.parseSchema f with
    | error e =>
      refine ⟨_, by simp [Workspace.loadXsd, hmiss, ho, loadBody, hp]; rfl, fun hA => ?_⟩
      obtain ⟨f1, S1, d1, ho1, -, hp1, -⟩ := hA loc hV
      rw [ho] at ho1
      cases ho1
      rw [hp] at hp1
      cases hp1
    | ok parsed =>
      rw [loadXsd_miss env (N + 1) ws loc c f parsed hmiss ho hp]
      have hsr := startState_reach env ws loc c f parsed hmiss ho hp
      have hG : Ready V Imp root k (startState ws loc c parsed) := by
        refine ⟨ht.start loc c parsed (hg.own loc hV f parsed ho hp), ?_, ?_⟩
        · rcases hroot with h | ⟨rfl, rfl⟩
          · cases hq : mapLookup ws.Cache root with
            | none => rw [hq] at h; cases h
            | some v => rw [hsr.cache_mono root v hq]; rfl
          · rw [startState_true_lookup]; rfl
        · have hc : (startState ws loc c parsed).Cache
              = (registerSchema ws loc c ws.heap.length).Cache := by cases c <;> rfl
          rw [hc]; exact hk
      have hlen : ws.heap.length < (startState ws loc c parsed).heap.length := by
        rw [startState_length]; omega
      have hf0 : ((startState ws loc c parsed).deref ws.heap.length).filePath = loc := by
        rw [startState_deref]; rfl
      unfold loadDeps
      cases hd : baseDir env loc with
      | error e =>
        refine ⟨_, rfl, fun hA => ?_⟩
        obtain ⟨f1, S1, d1, -, -, -, hd1⟩ := hA loc hV
        rw [hd] at hd1
        cases hd1
      | ok dir =>
        have hincs : ∀ si ∈ ((startState ws loc c parsed).deref ws.heap.length).Includes,
            env.joinLocation dir si.SchemaLocation ∈ V ∧
            (∀ r, Imp (env.joinLocation dir si.SchemaLocation) r → Imp loc r) ∧
            (env.joinLocation dir si.SchemaLocation = root ∨
              rank (env.joinLocation dir si.SchemaLocation) < rank loc) := by
          intro si hsi
          rw [startState_deref] at hsi
          exact ⟨hg.includes_closed loc hV f parsed dir ho hp hd si hsi,
            hg.inherited loc hV f parsed dir ho hp hd si hsi,
            hg.rank_dec loc hV f parsed dir ho hp hd si hsi⟩
        obtain ⟨⟨ws3, e3⟩, hi, hi2⟩ := loadIncludes_total env V Imp rank R root hg N k
          (rank loc) dir loc ws.heap.length IHinc _ _ hG hlen hf0 hincs
        simp only [hi]
        cases e3 with
        | some e => exact ⟨_, rfl, fun hA => by cases hi2 hA⟩
        | none =>
          obtain ⟨ht3, hlen3, hf3⟩ := loadIncludes_tracked env V Imp _
            (loadXsd_tracked env V Imp rank R root hg (N + 1))
            (fun ws loc c r hr => loadXsd_reach env (N + 1) ws loc c r hr) dir loc
            ws.heap.length _ _ ws3 hG.tracked hlen hf0
            (fun si hsi => ⟨(hincs si hsi).1, (hincs si hsi).2.1⟩) hi
          have hgrow := loadIncludes_grow env _
            (fun ws loc c r hr => loadXsd_reach env (N + 1) ws loc c r hr) dir ws.heap.length
            _ _ _ hi
          have himps : ∀ im ∈ (ws3.deref ws.heap.length).Imports,
              Imp loc im.SchemaLocation ∧ env.joinLocation dir im.SchemaLocation ∈ V := by
            intro im him
            have h1 := ht3.imports _ im him
            rw [hf3] at h1
            exact ⟨h1, hg.imports_closed loc hV dir _ hd h1⟩
          obtain ⟨⟨ws4, e4⟩, hm, hm2⟩ := loadImports_total env V Imp rank R root hg N k
            dir loc ws.heap.length IHimp _ 0 _ (hG.extend hgrow ht3) hlen3 hf3 himps
          simp only [hm]
          cases e4 with
          | some e => exact ⟨_, rfl, fun hA => by cases hm2 hA⟩
          | none =>
            refine ⟨_, rfl, fun hA => ?_⟩
            obtain ⟨f1, S1, d1, ho1, hc1, -, -⟩ := hA loc hV
            rw [ho] at ho1
            cases ho1
            exact hc1

/-- On a ranked graph a request for a location of the graph that is not registered
returns once the fuel exceeds `k * (R + 1) + r + 1`, where `k` bounds the number of
locations still to be registered and `r` the rank of the requested one. -/
theorem loadXsd_total (env : Env) (V : List String) (Imp : String → String → Prop)
    (rank : String → Nat) (R : Nat) (root : String)
    (hg : IncludeRanked env V Imp rank R root) :
    ∀ (k r : Nat) (ws : Workspace) (loc : String) (c : Bool),
      loc ∈ V → Tracked Imp ws →
      ((mapLookup ws.Cache root).isSome = true ∨ (c = true ∧ loc = root)) →
      mapLookup ws.Cache loc = none →
      uncachedKeys V (registerSchema ws loc c ws.heap.length).Cache ≤ k →
      rank loc ≤ r →
      ∃ res, ws.loadXsd env (k * (R + 1) + r + 1 + 1) loc c = some res ∧
        (AllLoad env V → res.2.2 = none) := by
  intro k
  induction k using Nat.strong_induction_on with
  | _ k IHk =>
    intro r
    induction r using Nat.strong_induction_on with
    | _ r IHr =>
      intro ws loc c hV ht hroot hmiss hk hrank
      refine loadXsd_total_step env V Imp rank R root hg (k * (R + 1) + r) k ws loc c
        ?_ ?_ hV ht hroot hmiss hk
      · intro w t htV hG htmiss htrank
        obtain ⟨res, hres, hres2⟩ := IHr (r - 1) (by omega) w t false htV hG.tracked
          (Or.inl hG.rooted) htmiss hG.bound (by omega)
        refine ⟨res, loadXsd_fuel_le env _ _ ?_ w t false res hres, hres2⟩
        generalize k * (R + 1) = A
        omega
      · intro w t htV hG htmiss
        have hins := uncachedKeys_insert V w.Cache t w.heap.length htV htmiss
        have hle := hG.bound
        obtain ⟨k1, rfl⟩ : ∃ k1, k = k1 + 1 := ⟨k - 1, by omega⟩
        obtain ⟨res, hres, hres2⟩ := IHk k1 (by omega) R w t true htV hG.tracked
          (Or.inl hG.rooted) htmiss (by rw [registerSchema_true_Cache]; omega) (hg.bound t htV)
        refine ⟨res, loadXsd_fuel_le env _ _ ?_ w t true res hres, hres2⟩
        rw [Nat.succ_mul]
        generalize k1 * (R + 1) = A
        omega

theorem tracked_initialWorkspace (Imp : String → String → Prop) (g : String)
    (ov : List (String × String)) : Tracked Imp (initialWorkspace g ov) := by
  refine ⟨?_, ?_, ?_⟩
  · intro q m hm
    have h0 : ((initialWorkspace g ov).deref q).Imports = [] := by
      simp [initialWorkspace, Workspace.deref]
      rfl
    rw [h0] at hm
    cases hm
  · intro k v hk; simp [initialWorkspace, mapLookup] at hk
  · intro k v hk; simp [initialWorkspace, mapLookup] at hk

theorem uncachedKeys_le_length (V : List String) (cache : List (String × Nat)) :
    uncachedKeys V cache ≤ V.length := List.length_filter_le _ _

/-! ## C6: termination on graphs whose include cycles pass through the root -/

theorem dirEnv_open_parse (files : List (String × Schema)) (L : String) (f : ReadCloser)
    (S : Schema) (ho : openLocation (dirEnv files) L = .ok f)
    (hp : (dirEnv files).parseSchema f = .ok S) : mapLookup files L = some S := by
  unfold openLocation at ho
  split at ho
  · cases ho
  · simp only [dirEnv, fsEnv] at ho hp
    cases hl : mapLookup files L with
    | none => rw [hl] at ho; cases ho
    | some s =>
      rw [hl] at ho
      simp only [Except.ok.injEq] at ho
      subst ho
      simp only [hl, Except.ok.injEq] at hp
      rw [hp]

theorem includeRanked_twoDirectories :
    IncludeRanked (dirEnv twoDirectories) twoDirectoriesLocations twoDirectoriesImp
      twoDirectoriesRank 2 "a.xsd" where
  compile_imports := fun _ => rfl
  compile_filePath := fun _ => rfl
  own := by
    intro L hL f S ho hp m hm
    have h := dirEnv_open_parse _ _ _ _ ho hp
    simp only [twoDirectoriesLocations, List.mem_cons, List.mem_singleton, List.not_mem_nil,
      or_false] at hL
    rcases hL with rfl | rfl | rfl | rfl | rfl <;> cases h <;>
      simp only [List.mem_singleton, List.not_mem_nil] at hm <;> subst hm <;>
      simp [twoDirectoriesImp]
  inherited := by
    intro L hL f S d ho hp hd i hi r hr
    have h := dirEnv_open_parse _ _ _ _ ho hp
    simp only [twoDirectoriesLocations, List.mem_cons, List.mem_singleton, List.not_mem_nil,
      or_false] at hL
    rcases hL with rfl | rfl | rfl | rfl | rfl <;> cases hd <;> cases h <;>
      simp only [List.mem_cons, List.mem_singleton, List.not_mem_nil, or_false] at hi
    · rcases hi with rfl | rfl <;> revert hr <;> simp [twoDirectoriesImp, dirEnv, fsEnv, parentDir]
    · subst hi; revert hr; simp [twoDirectoriesImp, dirEnv, fsEnv, parentDir]
    · subst hi; revert hr; simp [twoDirectoriesImp, dirEnv, fsEnv, parentDir]
    · subst hi; revert hr; simp [twoDirectoriesImp, dirEnv, fsEnv, parentDir]
  includes_closed := by
    intro L hL f S d ho hp hd i hi
    have h := dirEnv_open_parse _ _ _ _ ho hp
    simp only [twoDirectoriesLocations, List.mem_cons, List.mem_singleton, List.not_mem_nil,
      or_false] at hL
    rcases hL with rfl | rfl | rfl | rfl | rfl <;> cases hd <;> cases h <;>
      simp only [List.mem_cons, List.mem_singleton, List.not_mem_nil, or_false] at hi
    · rcases hi with rfl | rfl <;> decide
    · subst hi; decide
    · subst hi; decide
    · subst hi; decide
  imports_closed := by
    intro L hL d r hd hr
    simp only [twoDirectoriesLocations, List.mem_cons, List.mem_singleton, List.not_mem_nil,
      or_false] at hL
    rcases hL with rfl | rfl | rfl | rfl | rfl <;> cases hd <;>
      simp [twoDirectoriesImp] at hr <;> subst hr <;> decide
  bound := by
    intro L _
    unfold twoDirectoriesRank
    split_ifs <;> omega
  rank_dec := by
    intro L hL f S d ho hp hd i hi
    have h := dirEnv_open_parse _ _ _ _ ho hp
    simp only [twoDirectoriesLocations, List.mem_cons, List.mem_singleton, List.not_mem_nil,
      or_false] at hL
    rcases hL with rfl | rfl | rfl | rfl | rfl <;> cases hd <;> cases h <;>
      simp only [List.mem_cons, List.mem_singleton, List.not_mem_nil, or_false] at hi
    · rcases hi with rfl | rfl <;> decide
    · subst hi; decide
    · subst hi; decide
    · subst hi; decide

/-- C6 (amended): on every finite document graph in which every cycle made of include
edges alone passes through the root (given as a rank, bounded by `R`, that strictly
decreases along every include edge not leading back to the root), `loadXsd` of the
root on the initial workspace terminates, whatever the import edges and whether or
not fetches and parses succeed: fuel `|V| * (R + 1) + R + 2` or more returns a
result. The graph is the finite list `V` of the locations that the include entries
and the import references of its documents resolve to, each from the directory of
the document that holds it. -/
theorem C6_terminates_when_include_cycles_pass_through_root (env : Env) (V : List String)
    (Imp : String → String → Prop) (rank : String → Nat) (R : Nat) (root : String)
    (hg : IncludeRanked env V Imp rank R root) (hroot : root ∈ V)
    (g : String) (ov : List (String × String)) (fuel : Nat)
    (hfuel : V.length * (R + 1) + R + 2 ≤ fuel) :
    ∃ res, (initialWorkspace g ov).loadXsd env fuel root true = some res := by
  obtain ⟨res, hres, -⟩ := loadXsd_total env V Imp rank R root hg V.length R
    (initialWorkspace g ov) root true hroot (tracked_initialWorkspace Imp g ov)
    (Or.inr ⟨rfl, rfl⟩) rfl (uncachedKeys_le_length V _) (hg.bound root hroot)
  exact ⟨res, loadXsd_fuel_le env _ _ hfuel _ _ _ _ hres⟩

/-- C6 (amended) on `twoDirectories`, a graph over two directories whose include cycle
passes through the root and whose import cycle closes on a registered location. -/
theorem C6_terminates_when_include_cycles_pass_through_root_witness :
    "a.xsd" ∈ twoDirectoriesLocations ∧
    twoDirectoriesLocations.length * (2 + 1) + 2 + 2 ≤ 19 ∧
    ∃ res, (initialWorkspace "" []).loadXsd (dirEnv twoDirectories) 19 "a.xsd" true
      = some res :=
  ⟨by decide, by decide,
    C6_terminates_when_include_cycles_pass_through_root (dirEnv twoDirectories)
      twoDirectoriesLocations twoDirectoriesImp twoDirectoriesRank 2 "a.xsd"
      includeRanked_twoDirectories (by decide) "" [] 19 (by decide)⟩

/-! ## C10: a successful load has resolved everything reachable -/

theorem Resolved.persist {env : Env} {ws ws2 : Workspace} {L : String}
    (h : Resolved env ws L) (hg : Grow ws ws2) : Resolved env ws2 L := by
  obtain ⟨f, S, d, ho, hp, hd, hi, hm⟩ := h
  exact ⟨f, S, d, ho, hp, hd, fun i hi2 => hg.trace.subset (hi i hi2),
    fun m hm2 => hg.trace.subset (hm m hm2)⟩

theorem Settled.keep_store {env : Env} {P : List String} {ws : Workspace} (h : Settled env P ws)
    (p : Nat) (s : Schema) : Settled env P (ws.store p s) := h

theorem loadXsd_ok_logs (env : Env) (fuel : Nat) (ws : Workspace) (loc : String) (c : Bool)
    (ws2 : Workspace) (d : Option Nat) (h : ws.loadXsd env fuel loc c = some (ws2, d, none)) :
    Event.load loc c ∈ ws2.trace := by
  obtain ⟨q, -, hcase⟩ := loadXsd_ok_inv env fuel ws loc c ws2 d h
  rcases hcase with ⟨-, rfl⟩ | ⟨n, f, parsed, dir, ws3, ws4, -, -, -, -, -, -, -, hinc, himp, rfl⟩
  · simp
  · have g1 := loadIncludes_grow env _ (fun ws loc c r hr => loadXsd_reach env n ws loc c r hr)
      dir q _ _ _ hinc
    have g2 := loadImports_grow env _ (fun ws loc c r hr => loadXsd_reach env n ws loc c r hr)
      dir q _ 0 _ _ himp
    have h0 : Event.load loc c ∈ (startState ws loc c parsed).trace := by
      rw [startState_trace]; simp
    exact g2.trace.subset (g1.trace.subset h0)

theorem loadIncludes_requests (env : Env) (load : Workspace → String → Bool → Option LoadResult)
    (hlog : ∀ ws loc c ws2 d, load ws loc c = some (ws2, d, none) → Event.load loc c ∈ ws2.trace)
    (hreach : ∀ ws loc c r, load ws loc c = some r → Reach env ws r.1)
    (dir : String) (p : Nat) :
    ∀ (incs : List Include) (ws ws3 : Workspace),
      p < ws.heap.length → loadIncludes env load dir p incs ws = some (ws3, none) →
      (∀ si ∈ incs, Event.load (env.joinLocation dir si.SchemaLocation) false ∈ ws3.trace) ∧
      p < ws3.heap.length ∧ ∀ m ∈ (ws.deref p).Imports, m ∈ (ws3.deref p).Imports := by
  intro incs
  induction incs with
  | nil =>
    intro ws ws3 hp h
    simp only [loadIncludes, Option.some.injEq, Prod.mk.injEq, and_true] at h
    subst h
    exact ⟨fun _ hsi => (by cases hsi), hp, fun m hm => hm⟩
  | cons si rest ih =>
    intro ws ws3 hp h
    have hgrow := loadIncludes_grow env load hreach dir p rest
    rw [loadIncludes_cons] at h
    cases hl : load ws (env.joinLocation dir si.SchemaLocation) false with
    | none => rw [hl] at h; simp at h
    | some res =>
      obtain ⟨ws1, d, e⟩ := res
      rw [hl] at h
      cases e with
      | some err => cases d <;> simp at h
      | none =>
        cases d with
        | none => simp at h
        | some q =>
          simp only at h
          have hr := hreach _ _ _ _ hl
          have hp1 : p < ws1.heap.length := lt_of_lt_of_le hp hr.heap_length_le
          obtain ⟨h1, h2, h3⟩ := ih _ ws3 (by simpa using hp1) h
          have hg := hgrow _ _ h
          refine ⟨?_, h2, ?_⟩
          · intro x hx
            rcases List.mem_cons.1 hx with rfl | hx
            · exact hg.trace.subset (by simpa using hlog _ _ _ _ _ hl)
            · exact h1 x hx
          · intro m hm
            apply h3
            rw [deref_store_same _ _ _ hp1, mergeInclude_Imports, List.mem_append]
            right
            rw [hr.deref_eq p hp]
            exact hm

theorem loadImports_requests (env : Env) (load : Workspace → String → Bool → Option LoadResult)
    (hlog : ∀ ws loc c ws2 d, load ws loc c = some (ws2, d, none) → Event.load loc c ∈ ws2.trace)
    (hreach : ∀ ws loc c r, load ws loc c = some r → Reach env ws r.1)
    (dir : String) (p : Nat) :
    ∀ (imps : List Import) (idx : Nat) (ws ws4 : Workspace),
      loadImports env load dir p idx imps ws = some (ws4, none) →
      ∀ im ∈ imps, Event.load (env.joinLocation dir im.SchemaLocation) true ∈ ws4.trace := by
  intro imps
  induction imps with
  | nil => intro idx ws ws4 _ im him; cases him
  | cons im rest ih =>
    intro idx ws ws4 h
    have hgrow := loadImports_grow env load hreach dir p rest
    rw [loadImports_cons] at h
    cases hl : load ws (env.joinLocation dir im.SchemaLocation) true with
    | none => rw [hl] at h; simp at h
    | some res =>
      obtain ⟨ws1, d, e⟩ := res
      rw [hl] at h
      cases e with
      | some err => simp at h
      | none =>
        simp only at h
        intro x hx
        rcases List.mem_cons.1 hx with rfl | hx
        · exact (hgrow _ _ _ h).trace.subset (by simpa using hlog _ _ _ _ _ hl)
        · exact ih _ _ ws4 h x hx

theorem Resolved.at_store {env : Env} {ws : Workspace} {L : String} (h : Resolved env ws L)
    (p : Nat) (s : Schema) : Resolved env (ws.store p s) L := h

/-- One frame of `loadXsd` whose two loops succeeded: the document is resolved, and
what was settled up to the loads in progress stays so. -/
theorem frame_settled (env : Env) (load : Workspace → String → Bool → Option LoadResult)
    (P : List String) (ws : Workspace) (loc : String) (c : Bool) (f : ReadCloser)
    (parsed : Schema) (dir : String) (ws3 ws4 : Workspace)
    (hload : ∀ ws loc2 c ws2 d, Settled env (loc :: P) ws → load ws loc2 c = some (ws2, d, none) →
      Settled env (loc :: P) ws2)
    (hlog : ∀ ws loc c ws2 d, load ws loc c = some (ws2, d, none) → Event.load loc c ∈ ws2.trace)
    (hreach : ∀ ws loc c r, load ws loc c = some r → Reach env ws r.1)
    (hS : Settled env P ws) (hmiss : mapLookup ws.Cache loc = none)
    (ho : openLocation env loc = .ok f) (hp : env.parseSchema f = .ok parsed)
    (hd : baseDir env loc = .ok dir)
    (hinc : loadIncludes env load dir ws.heap.length (stampSchema ws loc parsed).Includes
      (startState ws loc c parsed) = some (ws3, none))
    (himp : loadImports env load dir ws.heap.length 0 (ws3.deref ws.heap.length).Imports ws3
      = some (ws4, none)) :
    Settled env P ws4 ∧ Resolved env ws4 loc := by
  have hsr := (startState_reach env ws loc c f parsed hmiss ho hp).grow
  have hS0 : Settled env (loc :: P) (startState ws loc c parsed) := by
    constructor
    · intro L c2 hL
      rw [startState_trace, List.mem_append] at hL
      rcases hL with hL | hL
      · rcases hS.1 L c2 hL with h1 | h1
        · exact Or.inl (h1.persist hsr)
        · exact Or.inr (List.mem_cons_of_mem _ h1)
      · simp only [List.mem_cons, Event.load.injEq, List.mem_singleton, List.not_mem_nil,
          or_false, reduceCtorEq] at hL
        exact Or.inr (by simp [hL.1])
    · intro L hL
      cases c with
      | false =>
        rw [startState_false_Cache] at hL
        rcases hS.2 L hL with h1 | h1
        · exact Or.inl (h1.persist hsr)
        · exact Or.inr (List.mem_cons_of_mem _ h1)
      | true =>
        rw [startState_true_Cache, mapLookup_mapInsert] at hL
        by_cases hloc : loc = L
        · exact Or.inr (by simp [hloc])
        · simp only [hloc, if_false] at hL
          rcases hS.2 L hL with h1 | h1
          · exact Or.inl (h1.persist hsr)
          · exact Or.inr (List.mem_cons_of_mem _ h1)
  have hS3 : Settled env (loc :: P) ws3 :=
    loadIncludes_ok_preserves env load (Settled env (loc :: P)) (fun _ _ _ h => h) hload dir
      ws.heap.length _ _ ws3 hS0 hinc
  have hS4 : Settled env (loc :: P) ws4 :=
    loadImports_ok_preserves env load (Settled env (loc :: P)) (fun _ _ _ h => h) hload dir
      ws.heap.length _ 0 _ ws4 hS3 himp
  have hlen : ws.heap.length < (startState ws loc c parsed).heap.length := by
    rw [startState_length]; omega
  obtain ⟨hreq, -, hkeep⟩ := loadIncludes_requests env load hlog hreach dir ws.heap.length
    _ _ ws3 hlen hinc
  have hreq2 := loadImports_requests env load hlog hreach dir ws.heap.length _ 0 _ ws4 himp
  have hg4 := loadImports_grow env load hreach dir ws.heap.length _ 0 _ _ himp
  have hres : Resolved env ws4 loc := by
    refine ⟨f, parsed, dir, ho, hp, hd, ?_, ?_⟩
    · intro i hi
      exact hg4.trace.subset (hreq i hi)
    · intro m hm
      apply hreq2 m
      apply hkeep
      rw [startState_deref]
      exact hm
  refine ⟨⟨?_, ?_⟩, hres⟩
  · intro L c2 hL
    rcases hS4.1 L c2 hL with h1 | h1
    · exact Or.inl h1
    · rcases List.mem_cons.1 h1 with rfl | h2
      · exact Or.inl hres
      · exact Or.inr h2
  · intro L hL
    rcases hS4.2 L hL with h1 | h1
    · exact Or.inl h1
    · rcases List.mem_cons.1 h1 with rfl | h2
      · exact Or.inl hres
      · exact Or.inr h2

/-- Every successful load keeps the workspace settled, and leaves the requested
location resolved unless its load is still in progress. -/
theorem loadXsd_settled (env : Env) :
    ∀ (fuel : Nat) (P : List String) (ws : Workspace) (loc : String) (c : Bool)
      (ws2 : Workspace) (d : Option Nat),
      Settled env P ws → ws.loadXsd env fuel loc c = some (ws2, d, none) →
      Settled env P ws2 ∧ (Resolved env ws2 loc ∨ loc ∈ P) := by
  intro fuel
  induction fuel with
  | zero => intro P ws loc c ws2 d _ h; simp [Workspace.loadXsd] at h
  | succ n ih =>
    intro P ws loc c ws2 d hS h
    have hgrow := (loadXsd_reach env (n + 1) ws loc c _ h).grow
    obtain ⟨q, -, hcase⟩ := loadXsd_ok_inv env (n + 1) ws loc c ws2 d h
    rcases hcase with ⟨hhit, rfl⟩ | ⟨m, f, parsed, dir, ws3, ws4, hm, hmiss, ho, -, hp, hd, hq,
      hinc, himp, rfl⟩
    · have hloc : Resolved env (ws.log (.load loc c)) loc ∨ loc ∈ P := by
        rcases hS.2 loc (by rw [hhit]; rfl) with h1 | h1
        · exact Or.inl (h1.persist hgrow)
        · exact Or.inr h1
      refine ⟨⟨?_, ?_⟩, hloc⟩
      · intro L c2 hL
        simp only [log_trace, List.mem_append, List.mem_singleton] at hL
        rcases hL with hL | hL
        · rcases hS.1 L c2 hL with h1 | h1
          · exact Or.inl (h1.persist hgrow)
          · exact Or.inr h1
        · cases hL; exact hloc
      · intro L hL
        rcases hS.2 L hL with h1 | h1
        · exact Or.inl (h1.persist hgrow)
        · exact Or.inr h1
    · have hmn : m = n := by omega
      subst hmn
      subst hq
      obtain ⟨h1, h2⟩ := frame_settled env (Workspace.loadXsd env m) P ws loc c f parsed dir
        ws3 ws4 (fun ws loc2 c ws2 d hs hl => (ih (loc :: P) ws loc2 c ws2 d hs hl).1)
        (fun ws loc c ws2 d hl => loadXsd_ok_logs env m ws loc c ws2 d hl)
        (fun ws loc c r hr => loadXsd_reach env m ws loc c r hr) hS hmiss ho hp hd hinc himp
      exact ⟨h1, Or.inl h2⟩

theorem loadDeps_ok_inv (env : Env) (load : Workspace → String → Bool → Option LoadResult)
    (ws : Workspace) (loc : String) (p : Nat) (w : Workspace) (d : Option Nat)
    (h : loadDeps env load ws loc p = some (w, d, none)) :
    ∃ (dir : String) (ws3 ws4 : Workspace), baseDir env loc = .ok dir ∧
      loadIncludes env load dir p (ws.deref p).Includes ws = some (ws3, none) ∧
      loadImports env load dir p 0 (ws3.deref p).Imports ws3 = some (ws4, none) := by
  unfold loadDeps at h
  cases hd : baseDir env loc with
  | error e => rw [hd] at h; simp at h
  | ok dir =>
    rw [hd] at h
    simp only at h
    cases hi : loadIncludes env load dir p (ws.deref p).Includes ws with
    | none => rw [hi] at h; simp at h
    | some ri =>
      obtain ⟨ws3, e3⟩ := ri
      rw [hi] at h
      cases e3 with
      | some e => simp at h
      | none =>
        simp only at h
        cases hm : loadImports env load dir p 0 (ws3.deref p).Imports ws3 with
        | none => rw [hm] at h; simp at h
        | some rm =>
          obtain ⟨ws4, e4⟩ := rm
          rw [hm] at h
          cases e4 with
          | some e => simp at h
          | none => exact ⟨dir, ws3, ws4, rfl, hi, hm⟩

theorem loadDeps_error_nil (env : Env) (load : Workspace → String → Bool → Option LoadResult)
    (ws : Workspace) (loc : String) (p : Nat) (w : Workspace) (d : Option Nat) (e : String)
    (h : loadDeps env load ws loc p = some (w, d, some e)) : d = none := by
  unfold loadDeps at h
  cases hd : baseDir env loc with
  | error e => rw [hd] at h; simp at h; exact h.2.1.symm
  | ok dir =>
    rw [hd] at h
    simp only at h
    cases hi : loadIncludes env load dir p (ws.deref p).Includes ws with
    | none => rw [hi] at h; simp at h
    | some ri =>
      obtain ⟨ws3, e3⟩ := ri
      rw [hi] at h
      cases e3 with
      | some e => simp at h; exact h.2.1.symm
      | none =>
        simp only at h
        cases hm : loadImports env load dir p 0 (ws3.deref p).Imports ws3 with
        | none => rw [hm] at h; simp at h
        | some rm =>
          obtain ⟨ws4, e4⟩ := rm
          rw [hm] at h
          cases e4 with
          | some e => simp at h; exact h.2.1.symm
          | none => simp at h

theorem reachable_resolved (env : Env) (w : Workspace) (root : String)
    (hS : Settled env [] w) (hroot : Resolved env w root) :
    ∀ L, Reachable env root L → Resolved env w L := by
  intro L hL
  induction hL with
  | root => exact hroot
  | included L f S d i _ ho hp hd hi ih =>
    obtain ⟨f2, S2, d2, ho2, hp2, hd2, hinc, -⟩ := ih
    rw [ho] at ho2; cases ho2
    rw [hp] at hp2; cases hp2
    rw [hd] at hd2; cases hd2
    rcases hS.1 _ _ (hinc i hi) with h1 | h1
    · exact h1
    · cases h1
  | imported L f S d m _ ho hp hd hm ih =>
    obtain ⟨f2, S2, d2, ho2, hp2, hd2, -, himp⟩ := ih
    rw [ho] at ho2; cases ho2
    rw [hp] at hp2; cases hp2
    rw [hd] at hd2; cases hd2
    rcases hS.1 _ _ (himp m hm) with h1 | h1
    · exact h1
    · cases h1

theorem Resolved.loadable {env : Env} {w : Workspace} {L : String} (h : Resolved env w L) :
    ¬ Unloadable env L := by
  obtain ⟨f, S, d, ho, hp, -, -, -⟩ := h
  rintro (⟨e, he⟩ | ⟨f2, e, ho2, he⟩)
  · rw [ho] at he; cases he
  · rw [ho] at ho2; cases ho2
    rw [hp] at he; cases he

/-- When a document reachable from the root cannot be fetched or parsed, a load of the
root that returns does not return a document: it returns nil and an error. -/
theorem loadXsd_unloadable (env : Env) (fuel : Nat) (ws : Workspace) (root L : String)
    (ws2 : Workspace) (d : Option Nat) (err : Option String)
    (hS : Settled env [] ws) (hmiss : mapLookup ws.Cache root = none)
    (hR : Reachable env root L) (hU : Unloadable env L)
    (h : ws.loadXsd env fuel root true = some (ws2, d, err)) :
    d = none ∧ ∃ e, err = some e := by
  cases fuel with
  | zero => simp [Workspace.loadXsd] at h
  | succ n =>
    cases ho : openLocation env root with
    | error e =>
      rw [loadXsd_fetch_error env n ws root true e hmiss ho] at h
      simp only [Option.some.injEq, Prod.mk.injEq] at h
      exact ⟨h.2.1.symm, e, h.2.2.symm⟩
    | ok f =>
      cases hp : env.parseSchema f with
      | error e =>
        simp only [Workspace.loadXsd, hmiss, ho, loadBody, hp, Option.map_some',
          Option.some.injEq] at h
        simp only [deferredClose, Prod.mk.injEq] at h
        exact ⟨h.2.1.symm, e, h.2.2.symm⟩
      | ok parsed =>
        rw [loadXsd_miss env n ws root true f parsed hmiss ho hp] at h
        simp only [Option.map_eq_some'] at h
        obtain ⟨⟨w, d0, e0⟩, hdeps, hdc⟩ := h
        cases e0 with
        | some e =>
          have hd0 := loadDeps_error_nil env _ _ _ _ _ _ _ hdeps
          subst hd0
          simp only [deferredClose, Prod.mk.injEq] at hdc
          exact ⟨hdc.2.1.symm, e, hdc.2.2.symm⟩
        | none =>
          exfalso
          obtain ⟨dir, ws3, ws4, hd, hinc, himp⟩ := loadDeps_ok_inv env _ _ _ _ _ _ hdeps
          rw [startState_deref] at hinc
          obtain ⟨h1, h2⟩ := frame_settled env (Workspace.loadXsd env n) [] ws root true f
            parsed dir ws3 ws4
            (fun ws loc2 c ws2 d hs hl => (loadXsd_settled env n _ ws loc2 c ws2 d hs hl).1)
            (fun ws loc c ws2 d hl => loadXsd_ok_logs env n ws loc c ws2 d hl)
            (fun ws loc c r hr => loadXsd_reach env n ws loc c r hr) hS hmiss ho hp hd hinc himp
          exact (reachable_resolved env ws4 root h1 h2 L hR).loadable hU

theorem settled_initialWorkspace (env : Env) (g : String) (ov : List (String × String)) :
    Settled env [] (initialWorkspace g ov) :=
  ⟨fun _ _ h => (by cases h), fun _ h => (by cases h)⟩

/-! ## Where a returned error comes from -/

theorem loadIncludes_error_origin (env : Env)
    (load : Workspace → String → Bool → Option LoadResult)
    (hload : ∀ ws loc c ws2 d e, load ws loc c = some (ws2, d, some e) → ErrorOrigin env ws2 e)
    (dir : String) (p : Nat) :
    ∀ (incs : List Include) (ws ws3 : Workspace) (e : String),
      loadIncludes env load dir p incs ws = some (ws3, some e) → ErrorOrigin env ws3 e := by
  intro incs
  induction incs with
  | nil => intro ws ws3 e h; simp [loadIncludes] at h
  | cons si rest ih =>
    intro ws ws3 e h
    rw [loadIncludes_cons] at h
    cases hl : load ws (env.joinLocation dir si.SchemaLocation) false with
    | none => rw [hl] at h; simp at h
    | some res =>
      obtain ⟨ws1, d, e1⟩ := res
      rw [hl] at h
      cases e1 with
      | some err =>
        have h2 : ws1 = ws3 ∧ err = e := by cases d <;> simpa using h
        rw [← h2.1, ← h2.2]
        exact hload _ _ _ _ _ _ hl
      | none =>
        cases d with
        | none => simp at h
        | some q => exact ih _ _ _ h

theorem loadImports_error_origin (env : Env)
    (load : Workspace → String → Bool → Option LoadResult)
    (hload : ∀ ws loc c ws2 d e, load ws loc c = some (ws2, d, some e) → ErrorOrigin env ws2 e)
    (dir : String) (p : Nat) :
    ∀ (imps : List Import) (idx : Nat) (ws ws4 : Workspace) (e : String),
      loadImports env load dir p idx imps ws = some (ws4, some e) → ErrorOrigin env ws4 e := by
  intro imps
  induction imps with
  | nil => intro idx ws ws4 e h; simp [loadImports] at h
  | cons im rest ih =>
    intro idx ws ws4 e h
    rw [loadImports_cons] at h
    cases hl : load ws (env.joinLocation dir im.SchemaLocation) true with
    | none => rw [hl] at h; simp at h
    | some res =>
      obtain ⟨ws1, d, e1⟩ := res
      rw [hl] at h
      cases e1 with
      | some err =>
        simp only [Option.some.injEq, Prod.mk.injEq] at h
        obtain ⟨h1, h2⟩ := h
        subst h1; subst h2
        have h3 : ErrorOrigin env ws1 err := hload _ _ _ _ _ _ hl
        exact h3
      | none => exact ih _ _ _ _ h

/-- An error that `loadXsd` returns is the error of a fetch or parse of the run that
failed, or of a `Close`, or of the computation of a base directory. -/
theorem loadXsd_error_origin (env : Env) :
    ∀ (fuel : Nat) (ws : Workspace) (loc : String) (c : Bool) (ws2 : Workspace)
      (d : Option Nat) (e : String),
      ws.loadXsd env fuel loc c = some (ws2, d, some e) → ErrorOrigin env ws2 e := by
  intro fuel
  induction fuel with
  | zero => intro ws loc c ws2 d e h; simp [Workspace.loadXsd] at h
  | succ n ih =>
    intro ws loc c ws2 d e h
    cases hl : mapLookup ws.Cache loc with
    | some cached =>
      rw [loadXsd_hit env n ws loc c cached hl] at h
      simp at h
    | none =>
      cases ho : openLocation env loc with
      | error e1 =>
        rw [loadXsd_fetch_error env n ws loc c e1 hl ho] at h
        simp only [Option.some.injEq, Prod.mk.injEq] at h
        obtain ⟨rfl, -, rfl⟩ := h
        exact Or.inl ⟨Event.fetch loc, by simp, ho⟩
      | ok f =>
        cases hp : env.parseSchema f with
        | error e1 =>
          simp only [Workspace.loadXsd, hl, ho, loadBody, hp, Option.map_some',
            Option.some.injEq] at h
          simp only [deferredClose, Prod.mk.injEq, Option.some.injEq] at h
          obtain ⟨rfl, -, rfl⟩ := h
          exact Or.inl ⟨Event.parse loc, by simp, f, ho, hp⟩
        | ok parsed =>
          rw [loadXsd_miss env n ws loc c f parsed hl ho hp] at h
          simp only [Option.map_eq_some'] at h
          obtain ⟨⟨w, d0, e0⟩, hdeps, hdc⟩ := h
          cases e0 with
          | none =>
            simp only [deferredClose, Prod.mk.injEq] at hdc
            exact Or.inr (Or.inl ⟨loc, f, ho, hdc.2.2⟩)
          | some e1 =>
            simp only [deferredClose, Prod.mk.injEq] at hdc
            obtain ⟨rfl, -, hee⟩ := hdc
            cases hee
            unfold loadDeps at hdeps
            cases hd : baseDir env loc with
            | error e2 =>
              rw [hd] at hdeps
              simp only [Option.some.injEq, Prod.mk.injEq] at hdeps
              obtain ⟨-, -, rfl⟩ := hdeps
              exact Or.inr (Or.inr ⟨loc, hd⟩)
            | ok dir =>
              rw [hd] at hdeps
              simp only at hdeps
              cases hi : loadIncludes env (Workspace.loadXsd env n) dir ws.heap.length
                  ((startState ws loc c parsed).deref ws.heap.length).Includes
                  (startState ws loc c parsed) with
              | none => rw [hi] at hdeps; simp at hdeps
              | some ri =>
                obtain ⟨ws3, e3⟩ := ri
                rw [hi] at hdeps
                cases e3 with
                | some e2 =>
                  simp only [Option.some.injEq, Prod.mk.injEq] at hdeps
                  obtain ⟨rfl, -, rfl⟩ := hdeps
                  exact loadIncludes_error_origin env _ ih dir _ _ _ _ _ hi
                | none =>
                  simp only at hdeps
                  cases hm : loadImports env (Workspace.loadXsd env n) dir ws.heap.length 0
                      (ws3.deref ws.heap.length).Imports ws3 with
                  | none => rw [hm] at hdeps; simp at hdeps
                  | some rm =>
                    obtain ⟨ws4, e4⟩ := rm
                    rw [hm] at hdeps
                    cases e4 with
                    | some e2 =>
                      simp only [Option.some.injEq, Prod.mk.injEq] at hdeps
                      obtain ⟨rfl, -, rfl⟩ := hdeps
                      exact loadImports_error_origin env _ ih dir _ _ _ _ _ _ hm
                    | none => simp at hdeps

/-! ## C10: a document that cannot be loaded aborts the run -/

theorem NewWorkspace_load_error (env : Env) (fuel : Nat) (goModulesPath root : String)
    (overrides : List String) (ov : List (String × String)) (ws2 : Workspace) (d : Option Nat)
    (e : String) (hov : env.ParseXmlnsOverrides overrides = .ok ov)
    (hrun : (initialWorkspace goModulesPath ov).loadXsd env fuel root true
      = some (ws2, d, some e)) :
    NewWorkspace env fuel goModulesPath root overrides = some (none, some e) := by
  unfold NewWorkspace
  rw [hov]
  simp only
  unfold initialWorkspace at hrun
  rw [hrun]

/-- C10, as stated, fails: the root `a.xsd` includes `gone1.xsd` and `gone2.xsd`, which
both do not exist. `gone2.xsd` is reachable from the root and its fetch fails, but
`loadXsd` and `NewWorkspace` return the error of `gone1.xsd`, which is another error:
the run stops at the first failure and never attempts `gone2.xsd`. -/
theorem C10_counterexample :
    Reachable (fsEnv twoMissing) "a.xsd" "gone2.xsd" ∧
    openLocation (fsEnv twoMissing) "gone2.xsd"
      = .error "open gone2.xsd: no such file or directory" ∧
    ((initialWorkspace "" []).loadXsd (fsEnv twoMissing) 2 "a.xsd" true).map (fun r => r.2)
      = some (none, some "open gone1.xsd: no such file or directory") ∧
    NewWorkspace (fsEnv twoMissing) 2 "" "a.xsd" []
      = some (none, some "open gone1.xsd: no such file or directory") ∧
    "open gone1.xsd: no such file or directory" ≠ "open gone2.xsd: no such file or directory" :=
  ⟨Reachable.included "a.xsd" { bytes := "a.xsd" }
      { Includes := [{ SchemaLocation := "gone1.xsd" }, { SchemaLocation := "gone2.xsd" }] } "."
      { SchemaLocation := "gone2.xsd" } Reachable.root rfl rfl rfl (by simp),
    rfl, rfl, rfl, by decide⟩

theorem includeRanked_missingImport :
    IncludeRanked (dirEnv missingImport) missingImportLocations missingImportImp
      missingImportRank 1 "a.xsd" where
  compile_imports := fun _ => rfl
  compile_filePath := fun _ => rfl
  own := by
    intro L hL f S ho hp m hm
    have h := dirEnv_open_parse _ _ _ _ ho hp
    simp only [missingImportLocations, List.mem_cons, List.mem_singleton, List.not_mem_nil,
      or_false] at hL
    rcases hL with rfl | rfl | rfl <;> cases h <;>
      simp only [List.mem_singleton, List.not_mem_nil] at hm
    subst hm
    simp [missingImportImp]
  inherited := by
    intro L hL f S d ho hp hd i hi r hr
    have h := dirEnv_open_parse _ _ _ _ ho hp
    simp only [missingImportLocations, List.mem_cons, List.mem_singleton, List.not_mem_nil,
      or_false] at hL
    rcases hL with rfl | rfl | rfl <;> cases hd <;> cases h <;>
      simp only [List.mem_cons, List.mem_singleton, List.not_mem_nil, or_false] at hi
    subst hi; revert hr; simp [missingImportImp, dirEnv, fsEnv, parentDir]
  includes_closed := by
    intro L hL f S d ho hp hd i hi
    have h := dirEnv_open_parse _ _ _ _ ho hp
    simp only [missingImportLocations, List.mem_cons, List.mem_singleton, List.not_mem_nil,
      or_false] at hL
    rcases hL with rfl | rfl | rfl <;> cases hd <;> cases h <;>
      simp only [List.mem_cons, List.mem_singleton, List.not_mem_nil, or_false] at hi
    subst hi; decide
  imports_closed := by
    intro L hL d r hd hr
    simp only [missingImportLocations, List.mem_cons, List.mem_singleton, List.not_mem_nil,
      or_false] at hL
    rcases hL with rfl | rfl | rfl <;> cases hd <;> simp [missingImportImp] at hr
    subst hr
    decide
  bound := by
    intro L _
    unfold missingImportRank
    split_ifs <;> omega
  rank_dec := by
    intro L hL f S d ho hp hd i hi
    have h := dirEnv_open_parse _ _ _ _ ho hp
    simp only [missingImportLocations, List.mem_cons, List.mem_singleton, List.not_mem_nil,
      or_false] at hL
    rcases hL with rfl | rfl | rfl <;> cases hd <;> cases h <;>
      simp only [List.mem_cons, List.mem_singleton, List.not_mem_nil, or_false] at hi
    subst hi; decide

/-- C10 (amended): when a document reachable from the root through include or import
edges cannot be fetched or parsed, `loadXsd` of the root on the initial workspace
never returns a document. Whenever it returns, it returns nil and an error, and
`NewWorkspace` returns nil and the same error; the error is that of a fetch or parse
of the run that failed, or of a `Close` or a base-directory computation, and it is
the error of any fetch or parse of the run that failed: the first failure on the
traversal ends the run. On a finite graph all of whose include cycles pass through
the root, fuel `|V| * (R + 1) + R + 2` or more makes both return. A root whose
single include cannot be fetched returns that fetch error with fuel 2 or more. -/
theorem C10_unloadable_document_aborts_the_run (env : Env) (root L : String)
    (goModulesPath : String) (overrides : List String) (ov : List (String × String))
    (hR : Reachable env root L) (hU : Unloadable env L)
    (hov : env.ParseXmlnsOverrides overrides = .ok ov) :
    (∀ (fuel : Nat) (ws2 : Workspace) (d : Option Nat) (err : Option String),
      (initialWorkspace goModulesPath ov).loadXsd env fuel root true = some (ws2, d, err) →
      d = none ∧ ∃ e, err = some e ∧ ErrorOrigin env ws2 e ∧
        (∀ e2, Failure env ws2.trace e2 → e2 = e) ∧
        NewWorkspace env fuel goModulesPath root overrides = some (none, some e)) ∧
    (∀ (V : List String) (Imp : String → String → Prop) (rank : String → Nat) (R : Nat),
      IncludeRanked env V Imp rank R root → root ∈ V →
      ∀ fuel : Nat, V.length * (R + 1) + R + 2 ≤ fuel →
      ∃ ws2 e, (initialWorkspace goModulesPath ov).loadXsd env fuel root true
          = some (ws2, none, some e) ∧
        NewWorkspace env fuel goModulesPath root overrides = some (none, some e)) ∧
    (∀ (fuel : Nat) (fR : ReadCloser) (S : Schema) (i : Include) (dir e : String),
      openLocation env root = .ok fR → env.parseSchema fR = .ok S →
      baseDir env root = .ok dir → S.Includes = [i] →
      openLocation env (env.joinLocation dir i.SchemaLocation) = .error e →
      (∃ ws2, (initialWorkspace goModulesPath ov).loadXsd env (fuel + 2) root true
        = some (ws2, none, some e)) ∧
      NewWorkspace env (fuel + 2) goModulesPath root overrides = some (none, some e)) := by
  have key : ∀ (fuel : Nat) (ws2 : Workspace) (d : Option Nat) (err : Option String),
      (initialWorkspace goModulesPath ov).loadXsd env fuel root true = some (ws2, d, err) →
      d = none ∧ ∃ e, err = some e ∧ ErrorOrigin env ws2 e ∧
        (∀ e2, Failure env ws2.trace e2 → e2 = e) ∧
        NewWorkspace env fuel goModulesPath root overrides = some (none, some e) := by
    intro fuel ws2 d err h
    obtain ⟨hd, e, he⟩ := loadXsd_unloadable env fuel _ root L ws2 d err
      (settled_initialWorkspace env goModulesPath ov) rfl hR hU h
    subst hd; subst he
    refine ⟨rfl, e, rfl, loadXsd_error_origin env fuel _ root true ws2 none e h, ?_,
      NewWorkspace_load_error env fuel goModulesPath root overrides ov ws2 none e hov h⟩
    intro e2 hf
    have := (loadXsd_failure env fuel _ root true ws2 none (some e) ws2.trace e2 h
      (by simp [initialWorkspace]) hf).2
    cases this
    rfl
  refine ⟨key, ?_, ?_⟩
  swap
  · intro fuel fR S i dir e hoR hpR hdir hincR hoS
    obtain ⟨ws2, hrun⟩ := loadXsd_missingInclude env fuel (initialWorkspace goModulesPath ov)
      root true fR S i dir e rfl hoR hpR hdir hincR hoS
    exact ⟨⟨ws2, hrun⟩,
      NewWorkspace_load_error env (fuel + 2) goModulesPath root overrides ov ws2 none e hov hrun⟩
  intro V Imp rank R hg hroot fuel hfuel
  obtain ⟨⟨ws2, d, err⟩, hres, -⟩ := loadXsd_total env V Imp rank R root hg V.length R
    (initialWorkspace goModulesPath ov) root true hroot
    (tracked_initialWorkspace Imp goModulesPath ov) (Or.inr ⟨rfl, rfl⟩) rfl
    (uncachedKeys_le_length V _) (hg.bound root hroot)
  have hrun := loadXsd_fuel_le env _ _ hfuel _ _ _ _ hres
  obtain ⟨hd, e, he, -, -, hnew⟩ := key fuel ws2 d err hrun
  subst hd; subst he
  exact ⟨ws2, e, hrun, hnew⟩

/-- C10 (amended) on the root `a.xsd` that includes `b.xsd` and imports `gone.xsd`, which
does not exist: the include is merged, the fetch of the import target fails, and
the run returns that error and neither a document nor a workspace. -/
theorem C10_unloadable_document_aborts_the_run_witness :
    Reachable (dirEnv missingImport) "a.xsd" "gone.xsd" ∧
    Unloadable (dirEnv missingImport) "gone.xsd" ∧
    ((initialWorkspace "" []).loadXsd (dirEnv missingImport) 9 "a.xsd" true).map (fun r => r.2)
      = some (none, some "open gone.xsd: no such file or directory") ∧
    ∃ ws2 e, (initialWorkspace "" []).loadXsd (dirEnv missingImport) 9 "a.xsd" true
        = some (ws2, none, some e) ∧
      NewWorkspace (dirEnv missingImport) 9 "" "a.xsd" [] = some (none, some e) :=
  ⟨Reachable.imported "a.xsd" { bytes := "a.xsd" } _ "."
      { Namespace := "urn:g", SchemaLocation := "gone.xsd" } Reachable.root rfl rfl rfl (by simp),
    Or.inl ⟨_, rfl⟩, rfl,
    (C10_unloadable_document_aborts_the_run (dirEnv missingImport) "a.xsd" "gone.xsd" "" [] []
      (Reachable.imported "a.xsd" { bytes := "a.xsd" } _ "."
        { Namespace := "urn:g", SchemaLocation := "gone.xsd" } Reachable.root rfl rfl rfl
        (by simp))
      (Or.inl ⟨_, rfl⟩) rfl).2.1 missingImportLocations missingImportImp missingImportRank 1
      includeRanked_missingImport (by decide) 9 (by decide)⟩

/-! ## C11: what `NewWorkspace` returns -/

/-- Whenever `NewWorkspace` returns, a nil workspace comes with an error and a nil
error comes with a workspace. -/
theorem NewWorkspace_result_shape (env : Env) (fuel : Nat) (goModulesPath xsdPath : String)
    (xmlnsOverrides : List String) (w : Option Workspace) (e : Option String)
    (h : NewWorkspace env fuel goModulesPath xsdPath xmlnsOverrides = some (w, e)) :
    (w = none → e.isSome = true) ∧ (e = none → w.isSome = true) := by
  unfold NewWorkspace at h
  cases hov : env.ParseXmlnsOverrides xmlnsOverrides with
  | error err =>
    rw [hov] at h
    simp only [Option.some.injEq, Prod.mk.injEq] at h
    obtain ⟨rfl, rfl⟩ := h
    simp
  | ok ov =>
    rw [hov] at h
    simp only at h
    cases hl : ({ GoModulesPath := goModulesPath, xmlnsOverrides := ov } : Workspace).loadXsd env
        fuel xsdPath true with
    | none => rw [hl] at h; simp at h
    | some r =>
      obtain ⟨ws1, d, err⟩ := r
      rw [hl] at h
      cases err with
      | some err =>
        simp only [Option.some.injEq, Prod.mk.injEq] at h
        obtain ⟨rfl, rfl⟩ := h
        simp
      | none =>
        simp only [Option.some.injEq, Prod.mk.injEq] at h
        obtain ⟨rfl, rfl⟩ := h
        simp

/-- C11 at a failing input: the root `a.xsd` (namespace `urn:a/foo`) imports `b.xsd`
(namespace `urn:b/foo`); both load, both derive the package name `foo`, and
`NewWorkspace` returns the workspace holding the two documents together with the
conflict error of `compile`, not exactly one of the two. -/
theorem C11_conflict_returns_workspace_and_error :
    ∃ ws, NewWorkspace (pkgEnv conflicting) 2 "" "a.xsd" [] =
        some (some ws, some (conflictMessage "foo" "urn:a/foo" "urn:b/foo")) ∧
      mapKeys ws.Cache = ["a.xsd", "b.xsd"] :=
  ⟨_, rfl, rfl⟩

/-! ## C12: what a nil error of `compile` guarantees -/

theorem compile_none_no_conflict (env : Env) (ws : Workspace)
    (hperm : (env.rangeOrder ws.Cache).Perm ws.Cache) (hc : ws.compile env = none) :
    ¬ NamespaceConflict env ws := by
  have hnd : (packageNames env ws).Nodup := by
    have key := compileLoop_eq_none_iff env ws (env.rangeOrder ws.Cache) []
    have hp : ((env.rangeOrder ws.Cache).map (fun e => (ws.deref e.2).GoPackageName env)).Perm
        (packageNames env ws) := hperm.map _
    exact hp.nodup_iff.1 (key.1 hc).1
  rintro ⟨e1, h1, e2, h2, hname, hns⟩
  have heq : e1 = e2 := List.inj_on_of_nodup_map hnd h1 h2 hname
  subst heq
  exact hns rfl

/-- C12: whenever `compile` returns nil on a cache it ranges over entry by entry, and
so whenever `NewWorkspace` returns a nil error, no two documents of the final cache
that differ in target namespace derive the same package name. -/
theorem C12_no_error_means_no_namespace_conflict (env : Env)
    (hrange : ∀ cache : List (String × Nat), (env.rangeOrder cache).Perm cache) :
    (∀ ws : Workspace, ws.compile env = none → ¬ NamespaceConflict env ws) ∧
    (∀ (fuel : Nat) (goModulesPath xsdPath : String) (xmlnsOverrides : List String)
        (w : Option Workspace),
      NewWorkspace env fuel goModulesPath xsdPath xmlnsOverrides = some (w, none) →
      ∃ ws, w = some ws ∧ ws.compile env = none ∧ ¬ NamespaceConflict env ws) := by
  refine ⟨fun ws hc => compile_none_no_conflict env ws (hrange _) hc, ?_⟩
  intro fuel g x ov w h
  have hshape := (NewWorkspace_result_shape env fuel g x ov w none h).2 rfl
  cases w with
  | none => cases hshape
  | some ws =>
    obtain ⟨_, _, -, -, hc⟩ := NewWorkspace_ok_inv env fuel g x ov ws none h
    exact ⟨ws, rfl, hc.symm, compile_none_no_conflict env ws (hrange _) hc.symm⟩

/-- C12 on the root `r.xsd` importing `m.xsd`: the run returns a nil error and the two
cached documents, of namespaces `urn:r` and `urn:m`, derive different package names. -/
theorem C12_no_error_means_no_namespace_conflict_witness :
    (∀ cache : List (String × Nat), ((fsEnv rootImports).rangeOrder cache).Perm cache) ∧
    ∃ w, NewWorkspace (fsEnv rootImports) 2 "" "r.xsd" [] = some (w, none) ∧
      ∃ ws, w = some ws ∧ ws.compile (fsEnv rootImports) = none ∧
        ¬ NamespaceConflict (fsEnv rootImports) ws :=
  ⟨fun _ => List.Perm.refl _, _, rfl,
    (C12_no_error_means_no_namespace_conflict (fsEnv rootImports)
      (fun _ => List.Perm.refl _)).2 2 "" "r.xsd" [] _ rfl⟩

/-! ## C4: the merged collections, block by block -/

theorem Content.append_empty (c : Content) : c ++ ({} : Content) = c := by
  show Content.append c {} = c
  simp [Content.append]

theorem blockContent_cons (env : Env) (L : String) (docs : List String) :
    blockContent env (L :: docs) = ownContent env L ++ blockContent env docs := rfl

theorem blockContent_append (env : Env) (a b : List String) :
    blockContent env (a ++ b) = blockContent env a ++ blockContent env b := by
  induction a with
  | nil =>
    show blockContent env b = Content.append {} (blockContent env b)
    simp [Content.append]
  | cons L rest ih =>
    rw [List.cons_append, blockContent_cons, blockContent_cons, ih, Content.append_assoc]

theorem blockContent_singleton (env : Env) (L : String) :
    blockContent env [L] = ownContent env L := by
  rw [blockContent_cons]
  exact Content.append_empty _

theorem blockContent_get (env : Env) (docs : List String) (k : Kind) :
    (blockContent env docs).get k = (docs.map (fun L => (ownContent env L).get k)).flatten := by
  induction docs with
  | nil => cases k <;> rfl
  | cons L rest ih => rw [blockContent_cons, Content.get_append, ih]; rfl

theorem ownContent_eq (env : Env) (L : String) (f : ReadCloser) (S : Schema)
    (ho : openLocation env L = .ok f) (hp : env.parseSchema f = .ok S) :
    ownContent env L = S.content := by
  simp [ownContent, ho, hp]

theorem includesFresh_split (root : String) (T : String) (b : List Event) :
    ∀ (a : List Event) (seen : List String),
      includesFresh root (a ++ Event.load T false :: b) seen = true →
      T = root ∨ (T ∉ seen ∧ Event.load T true ∉ a) := by
  intro a
  induction a with
  | nil =>
    intro seen h
    simp only [List.nil_append, includesFresh, Bool.and_eq_true, Bool.or_eq_true,
      decide_eq_true_eq, Bool.not_eq_true', decide_eq_false_iff_not] at h
    rcases h.1 with h1 | h1
    · exact Or.inl h1
    · exact Or.inr ⟨h1, by simp⟩
  | cons ev rest ih =>
    intro seen h
    cases ev with
    | load L c =>
      cases c with
      | true =>
        simp only [List.cons_append, includesFresh] at h
        rcases ih _ h with h1 | ⟨h1, h2⟩
        · exact Or.inl h1
        · refine Or.inr ⟨fun hm => h1 (List.mem_cons_of_mem _ hm), ?_⟩
          intro hm
          rcases List.mem_cons.1 hm with h3 | h3
          · cases h3; exact h1 (List.mem_cons_self _ _)
          · exact h2 h3
      | false =>
        simp only [List.cons_append, includesFresh, Bool.and_eq_true] at h
        rcases ih _ h.2 with h1 | ⟨h1, h2⟩
        · exact Or.inl h1
        · refine Or.inr ⟨h1, ?_⟩
          intro hm
          rcases List.mem_cons.1 hm with h3 | h3
          · cases h3
          · exact h2 h3
    | fetch L =>
      simp only [List.cons_append, includesFresh] at h
      rcases ih _ h with h1 | ⟨h1, h2⟩
      · exact Or.inl h1
      · refine Or.inr ⟨h1, ?_⟩
        intro hm
        rcases List.mem_cons.1 hm with h3 | h3
        · cases h3
        · exact h2 h3
    | parse L =>
      simp only [List.cons_append, includesFresh] at h
      rcases ih _ h with h1 | ⟨h1, h2⟩
      · exact Or.inl h1
      · refine Or.inr ⟨h1, ?_⟩
        intro hm
        rcases List.mem_cons.1 hm with h3 | h3
        · cases h3
        · exact h2 h3

theorem freshIncludes_of_check (root : String) (t : List Event)
    (h : includesFresh root t [] = true) : FreshIncludes root t := by
  intro a b T ht
  subst ht
  rcases includesFresh_split root T b a [] h with h1 | ⟨-, h2⟩
  · exact Or.inl h1
  · exact Or.inr h2

theorem FreshIncludes.of_extends {root : String} {t t2 : List Event}
    (h : FreshIncludes root t2) (hp : t <+: t2) : FreshIncludes root t := by
  obtain ⟨x, rfl⟩ := hp
  intro a b T ht
  subst ht
  exact h a (b ++ x) T (by simp)

theorem KeysLogged.reach {env : Env} {root : String} {ws ws2 : Workspace}
    (h : KeysLogged root ws) (hr : Reach env ws ws2) : KeysLogged root ws2 := by
  intro T hT
  rcases hr.keys_requested T hT with h1 | h1
  · rcases h T h1 with h2 | h2
    · exact Or.inl h2
    · exact Or.inr (hr.trace_extends.subset h2)
  · exact Or.inr h1

/-! ## C14: the text of the conflict error -/

theorem contains_append_left (t s y : String) (h : Contains t s) : Contains (t ++ y) s := by
  obtain ⟨a, b, hab⟩ := h
  exact ⟨a, b ++ y.data, by rw [String.data_append, ← hab]; simp [List.append_assoc]⟩

theorem contains_append_right (x t s : String) (h : Contains t s) : Contains (x ++ t) s := by
  obtain ⟨a, b, hab⟩ := h
  exact ⟨x.data ++ a, b, by rw [String.data_append, ← hab]; simp [List.append_assoc]⟩

theorem contains_self (s : String) : Contains s s := List.infix_refl _

theorem conflictMessage_contains (name prev cur : String) :
    Contains (conflictMessage name prev cur) name ∧
    Contains (conflictMessage name prev cur) prev ∧
    Contains (conflictMessage name prev cur) cur ∧
    Contains (conflictMessage name prev cur) ("--xmlns-override=" ++ cur) := by
  have hlit : "Consider providing --xmlns-override="
      = "Consider providing " ++ "--xmlns-override=" := by decide
  refine ⟨?_, ?_, ?_, ?_⟩
  · unfold conflictMessage
    iterate 8 apply contains_append_left
    exact contains_append_right _ _ _ (contains_self _)
  · unfold conflictMessage
    iterate 6 apply contains_append_left
    exact contains_append_right _ _ _ (contains_self _)
  · unfold conflictMessage
    apply contains_append_left
    exact contains_append_right _ _ _ (contains_self _)
  · unfold conflictMessage
    apply contains_append_left
    rw [hlit, ← String.append_assoc, String.append_assoc _ "--xmlns-override=" cur]
    exact contains_append_right _ _ _ (contains_self _)

/-- What a failing `compileLoop` found: `done` are the entries already visited, whose
package names `uniq` records with the namespace of the entry that brought each. -/
theorem compileLoop_some_inv (env : Env) (ws : Workspace) :
    ∀ (entries done : List (String × Nat)) (uniq : List (String × String)) (msg : String),
      (done.map (entryPackage env ws)).Nodup →
      (∀ n v, mapLookup uniq n = some v →
        ∃ e ∈ done, entryPackage env ws e = n ∧ entryNamespace ws e = v) →
      (∀ n, mapLookup uniq n = none → n ∉ done.map (entryPackage env ws)) →
      compileLoop env ws entries uniq = some msg →
      ∃ l1 e1 l2 e2 l3, done ++ entries = l1 ++ e1 :: l2 ++ e2 :: l3 ∧
        entryPackage env ws e1 = entryPackage env ws e2 ∧
        ((l1 ++ e1 :: l2).map (entryPackage env ws)).Nodup ∧
        msg = conflictMessage (entryPackage env ws e2) (entryNamespace ws e1)
          (entryNamespace ws e2) := by
  intro entries
  induction entries with
  | nil => intro done uniq msg _ _ _ h; simp [compileLoop] at h
  | cons hd tl ih =>
    intro done uniq msg hnd hsome hnone h
    obtain ⟨k, p⟩ := hd
    simp only [compileLoop] at h
    cases hlk : mapLookup uniq ((ws.deref p).GoPackageName env) with
    | some prev =>
      rw [hlk] at h
      simp only [Option.some.injEq] at h
      obtain ⟨e, he, hname, hns⟩ := hsome _ _ hlk
      obtain ⟨l1, l2, hsplit⟩ := List.append_of_mem he
      refine ⟨l1, e, l2, (k, p), tl, by rw [hsplit], hname, by rw [← hsplit]; exact hnd, ?_⟩
      rw [← h, hns]
      rfl
    | none =>
      rw [hlk] at h
      simp only at h
      have hfresh := hnone _ hlk
      obtain ⟨l1, e1, l2, e2, l3, hsplit, hname, hnd2, hmsg⟩ :=
        ih (done ++ [(k, p)]) _ msg
          (by
            rw [List.map_append, List.nodup_append]
            refine ⟨hnd, by simp, ?_⟩
            intro a ha hb
            simp only [List.map_cons, List.map_nil, List.mem_singleton] at hb
            subst hb
            exact hfresh ha)
          (by
            intro n v hl
            rw [mapLookup_mapInsert] at hl
            by_cases hn : (ws.deref p).GoPackageName env = n
            · simp only [hn, if_true, Option.some.injEq] at hl
              exact ⟨(k, p), by simp, hn, hl⟩
            · simp only [hn, if_false] at hl
              obtain ⟨e, he, h1, h2⟩ := hsome n v hl
              exact ⟨e, by simp [he], h1, h2⟩)
          (by
            intro n hl
            rw [mapLookup_mapInsert] at hl
            by_cases hn : (ws.deref p).GoPackageName env = n
            · simp [hn] at hl
            · simp only [hn, if_false] at hl
              have := hnone n hl
              simp only [List.map_append, List.mem_append, List.map_cons, List.map_nil,
                List.mem_singleton, not_or]
              exact ⟨this, fun e => hn e.symm⟩)
          h
      refine ⟨l1, e1, l2, e2, l3, ?_, hname, hnd2, hmsg⟩
      rw [← hsplit]
      simp

/-- C14: whenever `compile` fails, the enumeration of the cache has an entry `e1`
followed later by an entry `e2` of the same package name, the package names up to
`e2` being otherwise distinct (so `e1` is the entry recorded under that name), and the
message is the text of line 132 for that name and the two namespaces: it contains the
package name, the namespace of `e1`, the namespace of `e2` and the hint
`--xmlns-override=` followed by the namespace of `e2`. -/
theorem C14_conflict_message_names_both_namespaces (env : Env) (ws : Workspace) (msg : String)
    (h : ws.compile env = some msg) :
    ∃ l1 e1 l2 e2 l3, env.rangeOrder ws.Cache = l1 ++ e1 :: l2 ++ e2 :: l3 ∧
      entryPackage env ws e1 = entryPackage env ws e2 ∧
      ((l1 ++ e1 :: l2).map (entryPackage env ws)).Nodup ∧
      msg = conflictMessage (entryPackage env ws e2) (entryNamespace ws e1)
        (entryNamespace ws e2) ∧
      Contains msg (entryPackage env ws e2) ∧
      Contains msg (entryNamespace ws e1) ∧
      Contains msg (entryNamespace ws e2) ∧
      Contains msg ("--xmlns-override=" ++ entryNamespace ws e2) := by
  obtain ⟨l1, e1, l2, e2, l3, hsplit, hname, hnd, hmsg⟩ :=
    compileLoop_some_inv env ws (env.rangeOrder ws.Cache) [] [] msg (by simp)
      (by intro n v hl; simp [mapLookup] at hl) (by simp) h
  obtain ⟨c1, c2, c3, c4⟩ := conflictMessage_contains (entryPackage env ws e2)
    (entryNamespace ws e1) (entryNamespace ws e2)
  rw [List.nil_append] at hsplit
  refine ⟨l1, e1, l2, e2, l3, hsplit, hname, hnd, hmsg, ?_, ?_, ?_, ?_⟩ <;> rw [hmsg] <;>
    assumption

/-- C14 on the two cached documents of namespaces `urn:a/foo` and `urn:b/foo`, which
both derive the package name `foo`. -/
theorem C14_conflict_message_names_both_namespaces_witness :
    (fooDocuments []).compile (pkgEnv [])
      = some (conflictMessage "foo" "urn:a/foo" "urn:b/foo") ∧
    ∃ l1 e1 l2 e2 l3,
      (pkgEnv []).rangeOrder (fooDocuments []).Cache = l1 ++ e1 :: l2 ++ e2 :: l3 ∧
      entryPackage (pkgEnv []) (fooDocuments []) e1
        = entryPackage (pkgEnv []) (fooDocuments []) e2 ∧
      ((l1 ++ e1 :: l2).map (entryPackage (pkgEnv []) (fooDocuments []))).Nodup ∧
      conflictMessage "foo" "urn:a/foo" "urn:b/foo"
        = conflictMessage (entryPackage (pkgEnv []) (fooDocuments []) e2)
          (entryNamespace (fooDocuments []) e1) (entryNamespace (fooDocuments []) e2) ∧
      Contains (conflictMessage "foo" "urn:a/foo" "urn:b/foo")
        (entryPackage (pkgEnv []) (fooDocuments []) e2) ∧
      Contains (conflictMessage "foo" "urn:a/foo" "urn:b/foo")
        (entryNamespace (fooDocuments []) e1) ∧
      Contains (conflictMessage "foo" "urn:a/foo" "urn:b/foo")
        (entryNamespace (fooDocuments []) e2) ∧
      Contains (conflictMessage "foo" "urn:a/foo" "urn:b/foo")
        ("--xmlns-override=" ++ entryNamespace (fooDocuments []) e2) :=
  ⟨rfl, C14_conflict_message_names_both_namespaces (pkgEnv []) (fooDocuments []) _ rfl⟩

theorem loadIncludes_blocks (env : Env) (root : String) (m : Nat)
    (hI : IncludeBlocksSound env root m) (acc : List String) (p0 : Nat) (dir : String)
    (p : Nat) (hne : p0 ≠ p) :
    ∀ (incs : List Include) (ws ws3 : Workspace) (cur : List String),
      loadIncludes env (Workspace.loadXsd env m) dir p incs ws = some (ws3, none) →
      FreshIncludes root ws3.trace → KeysLogged root ws →
      mapLookup ws.Cache root = some p0 → p0 < ws.heap.length → p < ws.heap.length →
      (ws.deref p0).content = blockContent env acc →
      (ws.deref p).content = blockContent env cur →
      ∃ docs, foldBlocks env (includeBlocks env root acc m) dir incs cur = some docs ∧
        (ws3.deref p).content = blockContent env docs := by
  intro incs
  induction incs with
  | nil =>
    intro ws ws3 cur h _ _ _ _ _ _ hc
    simp only [loadIncludes, Option.some.injEq, Prod.mk.injEq, and_true] at h
    subst h
    exact ⟨cur, rfl, hc⟩
  | cons si rest ih =>
    intro ws ws3 cur h hF hK hroot hp0 hp hacc hc
    rw [loadIncludes_cons] at h
    cases hl : ws.loadXsd env m (env.joinLocation dir si.SchemaLocation) false with
    | none => rw [hl] at h; simp at h
    | some res =>
      obtain ⟨ws1, d, e⟩ := res
      rw [hl] at h
      cases e with
      | some err => cases d <;> simp at h
      | none =>
        cases d with
        | none => simp at h
        | some q1 =>
          simp only at h
          have hr : Reach env ws ws1 := loadXsd_reach env m ws _ false _ hl
          have hK0 : KeysLogged root ws1 := hK.reach hr
          have hK1 : KeysLogged root
              (ws1.store p (mergeInclude (ws1.deref q1) (ws1.deref p))) := hK0
          have hg := loadIncludes_grow env _
            (fun ws loc c r hr => loadXsd_reach env m ws loc c r hr) dir p rest _ _ h
          have hF1 : FreshIncludes root ws1.trace := hF.of_extends hg.trace
          obtain ⟨docs1, hd1, hc1⟩ := hI acc p0 ws _ ws1 q1 hl hF1 hK hroot hp0 hacc
          have hp1 : p < ws1.heap.length := lt_of_lt_of_le hp hr.heap_length_le
          have hp01 : p0 < ws1.heap.length := lt_of_lt_of_le hp0 hr.heap_length_le
          obtain ⟨docs, hd, hcd⟩ := ih _ ws3 (docs1 ++ cur) h hF hK1
            (hr.cache_mono root p0 hroot) (by simpa using hp01) (by simpa using hp1)
            (by rw [deref_store_other _ _ _ _ (fun e => hne e.symm), hr.deref_eq p0 hp0]
                exact hacc)
            (by rw [deref_store_same _ _ _ hp1, mergeInclude_content, hc1, hr.deref_eq p hp, hc,
                  blockContent_append])
          refine ⟨docs, ?_, hcd⟩
          simp only [foldBlocks, hd1]
          exact hd

theorem loadIncludes_rootBlocks (env : Env) (root : String) (m : Nat)
    (hI : IncludeBlocksSound env root m) (p0 : Nat) (dir : String) :
    ∀ (incs : List Include) (ws ws3 : Workspace) (cur : List String),
      loadIncludes env (Workspace.loadXsd env m) dir p0 incs ws = some (ws3, none) →
      FreshIncludes root ws3.trace → KeysLogged root ws →
      mapLookup ws.Cache root = some p0 → p0 < ws.heap.length →
      (ws.deref p0).content = blockContent env cur →
      ∃ docs, foldRootBlocks env root m dir incs cur = some docs ∧
        (ws3.deref p0).content = blockContent env docs := by
  intro incs
  induction incs with
  | nil =>
    intro ws ws3 cur h _ _ _ _ hc
    simp only [loadIncludes, Option.some.injEq, Prod.mk.injEq, and_true] at h
    subst h
    exact ⟨cur, rfl, hc⟩
  | cons si rest ih =>
    intro ws ws3 cur h hF hK hroot hp0 hc
    rw [loadIncludes_cons] at h
    cases hl : ws.loadXsd env m (env.joinLocation dir si.SchemaLocation) false with
    | none => rw [hl] at h; simp at h
    | some res =>
      obtain ⟨ws1, d, e⟩ := res
      rw [hl] at h
      cases e with
      | some err => cases d <;> simp at h
      | none =>
        cases d with
        | none => simp at h
        | some q1 =>
          simp only at h
          have hr : Reach env ws ws1 := loadXsd_reach env m ws _ false _ hl
          have hK0 : KeysLogged root ws1 := hK.reach hr
          have hK1 : KeysLogged root
              (ws1.store p0 (mergeInclude (ws1.deref q1) (ws1.deref p0))) := hK0
          have hg := loadIncludes_grow env _
            (fun ws loc c r hr => loadXsd_reach env m ws loc c r hr) dir p0 rest _ _ h
          have hF1 : FreshIncludes root ws1.trace := hF.of_extends hg.trace
          obtain ⟨docs1, hd1, hc1⟩ := hI cur p0 ws _ ws1 q1 hl hF1 hK hroot hp0 hc
          have hp01 : p0 < ws1.heap.length := lt_of_lt_of_le hp0 hr.heap_length_le
          obtain ⟨docs, hd, hcd⟩ := ih _ ws3 (docs1 ++ cur) h hF hK1
            (hr.cache_mono root p0 hroot) (by simpa using hp01)
            (by rw [deref_store_same _ _ _ hp01, mergeInclude_content, hc1, hr.deref_eq p0 hp0,
                  hc, blockContent_append])
          refine ⟨docs, ?_, hcd⟩
          simp only [foldRootBlocks, hd1]
          exact hd

theorem withImports_content (s : Schema) (imports : List Import) :
    (withImports s imports).content = s.content := rfl

/-- In a run with fresh includes, a successful load of an include target returns the
blocks of the include paths below it. -/
theorem includeBlocks_sound (env : Env) (root : String) (hkeep : CompileKeepsContent env) :
    ∀ m : Nat, IncludeBlocksSound env root m := by
  intro m
  induction m with
  | zero => intro acc p0 ws loc ws2 q h; simp [Workspace.loadXsd] at h
  | succ n ih =>
    intro acc p0 ws loc ws2 q h hF hK hroot hp0 hacc
    by_cases hloc : loc = root
    · subst hloc
      rw [loadXsd_hit env n ws loc false p0 hroot] at h
      simp only [Option.some.injEq, Prod.mk.injEq, and_true] at h
      obtain ⟨rfl, rfl⟩ := h
      exact ⟨acc, by simp [includeBlocks], hacc⟩
    · rcases loadXsd_success_inv env (n + 1) ws loc false ws2 q h with ⟨hhit, rfl⟩ |
        ⟨k, f, parsed, dir, ws3, ws4, hk, hmiss, ho, -, hp, hd, hq, hinc, himp, rfl⟩
      · exfalso
        rcases hK loc (by rw [hhit]; rfl) with h1 | h1
        · exact hloc h1
        · rcases hF ws.trace [] loc (by simp) with h2 | h2
          · exact hloc h2
          · exact h2 h1
      · have hkn : k = n := by omega
        subst hkn
        subst hq
        have hsr := startState_reach env ws loc false f parsed hmiss ho hp
        have hlen : ws.heap.length < (startState ws loc false parsed).heap.length := by
          rw [startState_length]; omega
        have hg1 := loadIncludes_grow env _
          (fun ws loc c r hr => loadXsd_reach env k ws loc c r hr) dir ws.heap.length _ _ _ hinc
        have hg2 := loadImports_grow env _
          (fun ws loc c r hr => loadXsd_reach env k ws loc c r hr) dir ws.heap.length _ 0 _ _ himp
        have hF3 : FreshIncludes root ws3.trace := hF.of_extends hg2.trace
        obtain ⟨docs, hdocs, hc3⟩ := loadIncludes_blocks env root k ih acc p0 dir ws.heap.length
          (by omega) _ _ ws3 [loc] hinc hF3 (hK.reach hsr) (hsr.cache_mono root p0 hroot)
          (by omega) hlen (by rw [hsr.deref_eq p0 hp0]; exact hacc)
          (by rw [startState_deref, stampSchema_content, blockContent_singleton,
                ownContent_eq env loc f parsed ho hp])
        refine ⟨docs, ?_, ?_⟩
        · simp only [includeBlocks, hloc, if_false, ho, hp, hd]
          exact hdocs
        · have hlen3 : ws.heap.length < ws3.heap.length := lt_of_lt_of_le hlen hg1.heap
          obtain ⟨hlen4, imports, hcell⟩ := loadImports_cell env _
            (fun ws loc c r hr => loadXsd_reach env k ws loc c r hr) dir ws.heap.length _ 0 ws3 _
            hlen3 himp
          rw [deref_store_same _ _ _ hlen4, (hkeep _).2, hcell, withImports_content, hc3]

/-- A successful load of the root into an empty cache, in a run with fresh includes,
returns the blocks `rootBlocks` computes. -/
theorem rootBlocks_sound (env : Env) (hkeep : CompileKeepsContent env)
    (fuel : Nat) (ws : Workspace) (root : String) (ws2 : Workspace) (p : Nat)
    (hfresh : ws.Cache = [])
    (hrun : ws.loadXsd env fuel root true = some (ws2, some p, none))
    (hF : FreshIncludes root ws2.trace) :
    ∃ docs, rootBlocks env fuel root = some docs ∧
      (ws2.deref p).content = blockContent env docs := by
  rcases loadXsd_success_inv env fuel ws root true ws2 p hrun with ⟨hhit, -⟩ |
    ⟨n, f, parsed, dir, ws3, ws4, hk, hmiss, ho, -, hp, hd, hq, hi, himp, rfl⟩
  · rw [hfresh] at hhit; cases hhit
  · subst hk
    subst hq
    have hlen : ws.heap.length < (startState ws root true parsed).heap.length := by
      rw [startState_length]; omega
    have hg1 := loadIncludes_grow env _
      (fun ws loc c r hr => loadXsd_reach env n ws loc c r hr) dir ws.heap.length _ _ _ hi
    have hg2 := loadImports_grow env _
      (fun ws loc c r hr => loadXsd_reach env n ws loc c r hr) dir ws.heap.length _ 0 _ _ himp
    have hK : KeysLogged root (startState ws root true parsed) := by
      intro T hT
      rw [startState_true_Cache, hfresh, mapLookup_mapInsert] at hT
      by_cases hTr : root = T
      · exact Or.inl hTr.symm
      · simp [hTr, mapLookup] at hT
    obtain ⟨docs, hdocs, hc3⟩ := loadIncludes_rootBlocks env root n
      (includeBlocks_sound env root hkeep n) ws.heap.length dir _ _ ws3 [root] hi
      (hF.of_extends hg2.trace) hK (startState_true_lookup ws root parsed) hlen
      (by rw [startState_deref, stampSchema_content, blockContent_singleton,
            ownContent_eq env root f parsed ho hp])
    have hlen3 : ws.heap.length < ws3.heap.length := lt_of_lt_of_le hlen hg1.heap
    obtain ⟨hlen4, imports, hcell⟩ := loadImports_cell env _
      (fun ws loc c r hr => loadXsd_reach env n ws loc c r hr) dir ws.heap.length _ 0 ws3 _
      hlen3 himp
    have hcont : ((ws4.store ws.heap.length (env.schemaCompile (ws4.deref ws.heap.length))).deref
        ws.heap.length).content = blockContent env docs := by
      rw [deref_store_same _ _ _ hlen4, (hkeep _).2, hcell, withImports_content, hc3]
    refine ⟨docs, ?_, hcont⟩
    simp only [rootBlocks, ho, hp, hd]
    exact hdocs

/-- The counts `g` of the entries of `docs` add up to the count of `B` when `B` occurs
once in `docs` and the other entries count nothing. -/
theorem sum_map_single (docs : List String) (g : String → Nat) (B : String)
    (h1 : docs.count B = 1) (h0 : ∀ L ∈ docs, L ≠ B → g L = 0) :
    (docs.map g).sum = g B := by
  induction docs with
  | nil => simp at h1
  | cons L rest ih =>
    by_cases hL : L = B
    · subst hL
      have hc : rest.count L = 0 := by simpa using h1
      have hz : ∀ X ∈ rest, g X = 0 := fun X hX =>
        h0 X (List.mem_cons_of_mem _ hX) (fun h => by
          subst h; exact (List.count_eq_zero.1 hc) hX)
      have hs : (rest.map g).sum = 0 := by
        apply List.sum_eq_zero
        intro x hx
        obtain ⟨X, hX, rfl⟩ := List.mem_map.1 hx
        exact hz X hX
      simp [hs]
    · have hc : rest.count B = 1 := by
        rw [List.count_cons_of_ne (fun h => hL h.symm)] at h1; exact h1
      rw [List.map_cons, List.sum_cons, h0 L (by simp) hL,
        ih hc (fun X hX => h0 X (List.mem_cons_of_mem _ hX)), Nat.zero_add]

/-! ## C13 and C17: overrides and the enumeration order -/

theorem compile_eq_none_iff (env : Env) (ws : Workspace)
    (hperm : (env.rangeOrder ws.Cache).Perm ws.Cache) :
    ws.compile env = none ↔ (packageNames env ws).Nodup := by
  have hp : ((env.rangeOrder ws.Cache).map (fun e => (ws.deref e.2).GoPackageName env)).Perm
      (packageNames env ws) := hperm.map _
  have key := compileLoop_eq_none_iff env ws (env.rangeOrder ws.Cache) []
  simp only [mapLookup, implies_true, and_true] at key
  rw [hp.nodup_iff] at key
  exact key

theorem twoDocuments_Cache (g : String) (ov : List (String × String)) (kA kB : String)
    (SA SB : Schema) (hk : kA ≠ kB) :
    (twoDocuments g ov kA kB SA SB).Cache = [(kA, 0), (kB, 1)] := by
  simp [twoDocuments, mapInsert, hk]

theorem twoDocuments_packageNames (env : Env) (g : String) (ov : List (String × String))
    (kA kB : String) (SA SB : Schema) (hk : kA ≠ kB) :
    packageNames env (twoDocuments g ov kA kB SA SB)
      = [(xmlnsOverride ov SA.TargetNamespace).getD (env.defaultPackageName SA.TargetNamespace),
         (xmlnsOverride ov SB.TargetNamespace).getD (env.defaultPackageName SB.TargetNamespace)] := by
  unfold packageNames
  rw [twoDocuments_Cache g ov kA kB SA SB hk]
  simp only [List.map_cons, List.map_nil, twoDocuments, Workspace.deref, Schema.GoPackageName,
    stampSchema, List.getD_cons_zero, List.getD_cons_succ]
  cases xmlnsOverride ov SA.TargetNamespace <;> cases xmlnsOverride ov SB.TargetNamespace <;> rfl

/-- C13: for every cache holding exactly two documents, of different target
namespaces `nsA` and `nsB` that derive the same default package name, `compile` fails
when the documents are stamped without overrides and succeeds when they are stamped
with an override that maps `nsA`, or `nsB`, to a package name other than the default
one. -/
theorem C13_override_resolves_conflict (env : Env) (g : String) (kA kB : String)
    (SA SB : Schema) (q : String)
    (hrange : (env.rangeOrder [(kA, 0), (kB, 1)]).Perm [(kA, 0), (kB, 1)])
    (hk : kA ≠ kB)
    (hns : SA.TargetNamespace ≠ SB.TargetNamespace)
    (hp : env.defaultPackageName SA.TargetNamespace = env.defaultPackageName SB.TargetNamespace)
    (hq : q ≠ env.defaultPackageName SA.TargetNamespace) :
    ((twoDocuments g [] kA kB SA SB).compile env).isSome = true ∧
    (twoDocuments g [(SA.TargetNamespace, q)] kA kB SA SB).compile env = none ∧
    (twoDocuments g [(SB.TargetNamespace, q)] kA kB SA SB).compile env = none := by
  have hperm : ∀ ov, (env.rangeOrder (twoDocuments g ov kA kB SA SB).Cache).Perm
      (twoDocuments g ov kA kB SA SB).Cache := by
    intro ov
    rw [twoDocuments_Cache g ov kA kB SA SB hk]
    exact hrange
  have hns2 : ¬ SB.TargetNamespace = SA.TargetNamespace := fun e => hns e.symm
  refine ⟨?_, ?_, ?_⟩
  · cases hc : (twoDocuments g [] kA kB SA SB).compile env with
    | some msg => rfl
    | none =>
      have hnd := (compile_eq_none_iff env _ (hperm [])).1 hc
      rw [twoDocuments_packageNames env g [] kA kB SA SB hk] at hnd
      simp [xmlnsOverride, mapLookup, hp] at hnd
  · rw [compile_eq_none_iff env _ (hperm _), twoDocuments_packageNames env g _ kA kB SA SB hk]
    simp [xmlnsOverride, mapLookup, hns, ← hp, hq]
  · rw [compile_eq_none_iff env _ (hperm _), twoDocuments_packageNames env g _ kA kB SA SB hk]
    simp [xmlnsOverride, mapLookup, hns2, ← hp]
    exact fun e => hq e.symm

/-- C13 on the namespaces `urn:a/foo` and `urn:b/foo`, both of default package name
`foo`, with an override to `bar`. -/
theorem C13_override_resolves_conflict_witness :
    ((fooDocuments []).compile (pkgEnv [])).isSome = true ∧
    (fooDocuments [("urn:a/foo", "bar")]).compile (pkgEnv []) = none ∧
    (fooDocuments [("urn:b/foo", "bar")]).compile (pkgEnv []) = none :=
  C13_override_resolves_conflict (pkgEnv []) "" "a.xsd" "b.xsd" { TargetNamespace := "urn:a/foo" }
    { TargetNamespace := "urn:b/foo" } "bar" (List.Perm.refl _) (by decide) (by decide)
    (by decide) (by decide)

/-- C17: whether `compile` fails does not depend on the order in which the cache is
ranged over: for any two enumerations of the entries of the cache, it returns an error
under the one if and only if it returns an error under the other. -/
theorem C17_compile_outcome_is_order_independent (env : Env) (ws : Workspace)
    (order1 order2 : List (String × Nat) → List (String × Nat))
    (h1 : (order1 ws.Cache).Perm ws.Cache) (h2 : (order2 ws.Cache).Perm ws.Cache) :
    (ws.compile { env with rangeOrder := order1 }).isSome = true ↔
      (ws.compile { env with rangeOrder := order2 }).isSome = true := by
  have e1 := compile_eq_none_iff { env with rangeOrder := order1 } ws h1
  have e2 := compile_eq_none_iff { env with rangeOrder := order2 } ws h2
  have hn : packageNames { env with rangeOrder := order1 } ws
      = packageNames { env with rangeOrder := order2 } ws := rfl
  rw [hn] at e1
  cases hc1 : ws.compile { env with rangeOrder := order1 } <;>
    cases hc2 : ws.compile { env with rangeOrder := order2 } <;> simp
  · have := e2.2 (e1.1 hc1)
    rw [hc2] at this
    cases this
  · have := e1.2 (e2.1 hc2)
    rw [hc1] at this
    cases this

/-- C17 on the two documents of package name `foo`, ranged over in cache order and in
reverse: `compile` fails either way, and only the order of the two namespaces in the
message differs. -/
theorem C17_compile_outcome_is_order_independent_witness :
    (fooDocuments []).compile { pkgEnv [] with rangeOrder := fun c => c }
      = some (conflictMessage "foo" "urn:a/foo" "urn:b/foo") ∧
    (fooDocuments []).compile { pkgEnv [] with rangeOrder := List.reverse }
      = some (conflictMessage "foo" "urn:b/foo" "urn:a/foo") ∧
    (((fooDocuments []).compile { pkgEnv [] with rangeOrder := fun c => c }).isSome = true ↔
      ((fooDocuments []).compile { pkgEnv [] with rangeOrder := List.reverse }).isSome = true) :=
  ⟨rfl, rfl, C17_compile_outcome_is_order_independent (pkgEnv []) (fooDocuments [])
    (fun c => c) List.reverse (List.Perm.refl _) (List.reverse_perm _)⟩

/-- The condition on the order of the requests cannot be dropped: on
`includeAfterImport` the include entry for `c.xsd` is resolved after `b.xsd` imported
`c.xsd`, so it is answered from the cache with what `c.xsd` held when it was registered;
the load succeeds and the root's types are not the blocks `rootBlocks` computes. -/
theorem includeAfterImport_blocks_differ :
    ∃ ws2 p, (initialWorkspace "" []).loadXsd (fsEnv includeAfterImport) 4 "a.xsd" true
        = some (ws2, some p, none) ∧
      includesFresh "a.xsd" ws2.trace [] = false ∧
      (ws2.deref p).ComplexTypes = ["TA", "TC", "TB", "TA"] ∧
      (rootBlocks (fsEnv includeAfterImport) 4 "a.xsd").map
        (fun docs => (blockContent (fsEnv includeAfterImport) docs).ComplexTypes)
        = some ["TB", "TA", "TC", "TB", "TA"] :=
  ⟨_, 0, rfl, rfl, rfl, rfl⟩

/-- C4 (amended): for every root document loaded into a fresh cache by a run in which
no include entry, other than one naming the root, is resolved after an import entry
resolved to the same location, when `loadXsd` of the root succeeds the root's merged
collections consist of one copy of the collections of a document for every include
path from the root to it, in the merge order `rootBlocks` computes: every declaration
is merged exactly once for each include path that leads to its document, so exactly
once when one path leads there, twice in a diamond, and an include of the root
contributes what the root has merged so far. -/
theorem C4_merged_once_per_include_path (env : Env) (hkeep : CompileKeepsContent env)
    (fuel : Nat) (ws : Workspace) (root : String) (ws2 : Workspace) (p : Nat)
    (hfresh : ws.Cache = [])
    (hrun : ws.loadXsd env fuel root true = some (ws2, some p, none))
    (hinc : includesFresh root ws2.trace [] = true) :
    ∃ docs, rootBlocks env fuel root = some docs ∧
      (ws2.deref p).content = blockContent env docs ∧
      (∀ k : Kind, (ws2.deref p).content.get k
        = (docs.map (fun L => (ownContent env L).get k)).flatten) ∧
      ∀ (k : Kind) (x : Decl), ((ws2.deref p).content.get k).count x
        = (docs.map (fun L => ((ownContent env L).get k).count x)).sum := by
  obtain ⟨docs, hdocs, hcont⟩ := rootBlocks_sound env hkeep fuel ws root ws2 p hfresh hrun
    (freshIncludes_of_check root ws2.trace hinc)
  refine ⟨docs, hdocs, hcont, fun k => (by rw [hcont, blockContent_get]), fun k x => ?_⟩
  rw [hcont, blockContent_get, List.count_flatten, List.map_map]
  rfl

/-- C4 (amended) on the chain `r.xsd` includes `b.xsd` includes `d.xsd`: one include path
leads to each document and the root's types are `TD`, `TB`, `TR`. -/
theorem C4_merged_once_per_include_path_witness :
    ∃ ws2 p, (initialWorkspace "" []).loadXsd (fsEnv includeChain) 3 "r.xsd" true
        = some (ws2, some p, none) ∧
      includesFresh "r.xsd" ws2.trace [] = true ∧
      rootBlocks (fsEnv includeChain) 3 "r.xsd" = some ["d.xsd", "b.xsd", "r.xsd"] ∧
      (ws2.deref p).ComplexTypes = ["TD", "TB", "TR"] ∧
      ∃ docs, rootBlocks (fsEnv includeChain) 3 "r.xsd" = some docs ∧
        (ws2.deref p).content = blockContent (fsEnv includeChain) docs ∧
        (∀ k : Kind, (ws2.deref p).content.get k
          = (docs.map (fun L => (ownContent (fsEnv includeChain) L).get k)).flatten) ∧
        ∀ (k : Kind) (x : Decl), ((ws2.deref p).content.get k).count x
          = (docs.map (fun L => ((ownContent (fsEnv includeChain) L).get k).count x)).sum :=
  ⟨_, 0, rfl, rfl, rfl, rfl,
    C4_merged_once_per_include_path (fsEnv includeChain) (compileKeepsContent_fsEnv _) 3
      (initialWorkspace "" []) "r.xsd" _ 0 rfl rfl rfl⟩

/-! ## C15 and C16: what merging one include does -/

theorem foldl_mapInsert_lookup {α : Type} (k : String) :
    ∀ (l m : List (String × α)), (mapKeys l).Nodup →
      mapLookup (l.foldl (fun acc kv => mapInsert acc kv.1 kv.2) m) k =
        match mapLookup l k with
        | some v => some v
        | none => mapLookup m k := by
  intro l
  induction l with
  | nil => intro m _; rfl
  | cons hd tl ih =>
    intro m hnd
    obtain ⟨a, v⟩ := hd
    simp only [mapKeys, List.map_cons, List.nodup_cons] at hnd
    rw [List.foldl_cons, ih _ hnd.2]
    simp only [mapLookup, mapLookup_mapInsert]
    by_cases hak : a = k
    · subst hak
      have hnone : mapLookup tl a = none := (mapLookup_eq_none_iff tl a).2 hnd.1
      simp [hnone]
    · simp [hak]

/-- The state in which the include loop goes on after a successful include load: the
merged document is stored at `p` and nothing else changes. -/
theorem loadIncludes_step (env : Env) (fuel : Nat) (dir : String) (p : Nat)
    (si : Include) (rest : List Include) (ws ws1 : Workspace) (isch : Nat)
    (hp : p < ws.heap.length)
    (hl : ws.loadXsd env fuel (env.joinLocation dir si.SchemaLocation) false
      = some (ws1, some isch, none)) :
    loadIncludes env (Workspace.loadXsd env fuel) dir p (si :: rest) ws
      = loadIncludes env (Workspace.loadXsd env fuel) dir p rest
          (ws1.store p (mergeInclude (ws1.deref isch) (ws1.deref p))) ∧
    (ws1.store p (mergeInclude (ws1.deref isch) (ws1.deref p))).deref p
      = mergeInclude (ws1.deref isch) (ws1.deref p) ∧
    ws1.deref p = ws.deref p := by
  have hr := loadXsd_reach env fuel ws _ false _ hl
  have hp1 : p < ws1.heap.length := lt_of_lt_of_le hp hr.heap_length_le
  refine ⟨?_, deref_store_same _ _ _ hp1, hr.deref_eq p hp⟩
  rw [loadIncludes_cons, hl]

/-- C15: for every document `*p` in the include loop of `loadXsd` and every include
entry `si` whose load succeeds with the document `*isch`, the loop goes on in a state
`ws2` that differs from the state `ws1` the load returned only in `*p`, and in `ws2`
each of the seven collections of `*p` is the collection of `*isch` followed by the
collection `*p` had just before the merge (which is the one it had before the include
was loaded). -/
theorem C15_include_collections_are_prepended (env : Env) (fuel : Nat) (dir : String) (p : Nat)
    (si : Include) (rest : List Include) (ws ws1 : Workspace) (isch : Nat)
    (hp : p < ws.heap.length)
    (hl : ws.loadXsd env fuel (env.joinLocation dir si.SchemaLocation) false
      = some (ws1, some isch, none)) :
    ∃ ws2,
      loadIncludes env (Workspace.loadXsd env fuel) dir p (si :: rest) ws
        = loadIncludes env (Workspace.loadXsd env fuel) dir p rest ws2 ∧
      ws2 = ws1.store p (ws2.deref p) ∧
      ws1.deref p = ws.deref p ∧
      (ws2.deref p).Imports = (ws1.deref isch).Imports ++ (ws1.deref p).Imports ∧
      (ws2.deref p).Elements = (ws1.deref isch).Elements ++ (ws1.deref p).Elements ∧
      (ws2.deref p).Attributes = (ws1.deref isch).Attributes ++ (ws1.deref p).Attributes ∧
      (ws2.deref p).AttributeGroups
        = (ws1.deref isch).AttributeGroups ++ (ws1.deref p).AttributeGroups ∧
      (ws2.deref p).ComplexTypes = (ws1.deref isch).ComplexTypes ++ (ws1.deref p).ComplexTypes ∧
      (ws2.deref p).SimpleTypes = (ws1.deref isch).SimpleTypes ++ (ws1.deref p).SimpleTypes ∧
      (ws2.deref p).inlinedElements
        = (ws1.deref isch).inlinedElements ++ (ws1.deref p).inlinedElements := by
  obtain ⟨hstep, hderef, hsame⟩ := loadIncludes_step env fuel dir p si rest ws ws1 isch hp hl
  refine ⟨_, hstep, ?_, hsame, ?_⟩
  · rw [hderef]
  · rw [hderef]
    exact ⟨rfl, rfl, rfl, rfl, rfl, rfl, rfl⟩

/-- C15 on the root `r.xsd` including `i.xsd`: after the merge the root's elements are
`ei`, `er` and its imports are the import of `i.xsd` followed by its own. -/
theorem C15_include_collections_are_prepended_witness :
    0 < includingRoot.heap.length ∧
    ∃ ws1, includingRoot.loadXsd (fsEnv includeWithModules) 2
        ((fsEnv includeWithModules).joinLocation "."
          (Include.SchemaLocation { SchemaLocation := "i.xsd" })) false
        = some (ws1, some 1, none) ∧
      (ws1.deref 1).Elements ++ (ws1.deref 0).Elements = ["ei", "er"] ∧
      ∃ ws2,
        loadIncludes (fsEnv includeWithModules)
            (Workspace.loadXsd (fsEnv includeWithModules) 2) "." 0
            [{ SchemaLocation := "i.xsd" }] includingRoot
          = loadIncludes (fsEnv includeWithModules)
            (Workspace.loadXsd (fsEnv includeWithModules) 2) "." 0 [] ws2 ∧
        ws2 = ws1.store 0 (ws2.deref 0) ∧
        ws1.deref 0 = includingRoot.deref 0 ∧
        (ws2.deref 0).Imports = (ws1.deref 1).Imports ++ (ws1.deref 0).Imports ∧
        (ws2.deref 0).Elements = (ws1.deref 1).Elements ++ (ws1.deref 0).Elements ∧
        (ws2.deref 0).Attributes = (ws1.deref 1).Attributes ++ (ws1.deref 0).Attributes ∧
        (ws2.deref 0).AttributeGroups
          = (ws1.deref 1).AttributeGroups ++ (ws1.deref 0).AttributeGroups ∧
        (ws2.deref 0).ComplexTypes = (ws1.deref 1).ComplexTypes ++ (ws1.deref 0).ComplexTypes ∧
        (ws2.deref 0).SimpleTypes = (ws1.deref 1).SimpleTypes ++ (ws1.deref 0).SimpleTypes ∧
        (ws2.deref 0).inlinedElements
          = (ws1.deref 1).inlinedElements ++ (ws1.deref 0).inlinedElements :=
  ⟨by decide, _, rfl, rfl,
    C15_include_collections_are_prepended (fsEnv includeWithModules) 2 "." 0
      { SchemaLocation := "i.xsd" } [] includingRoot _ 1 (by decide) rfl⟩

/-- C16: for every document `*p` in the include loop of `loadXsd` and every include
entry whose load succeeds with the document `*isch`, whose imported-modules table has
no key twice, after the merge the table of `*p` maps every key of the table of `*isch`
to the value it has there, and gives every other key what the table of `*p` gave it
before the merge. -/
theorem C16_include_modules_take_priority (env : Env) (fuel : Nat) (dir : String) (p : Nat)
    (si : Include) (rest : List Include) (ws ws1 : Workspace) (isch : Nat)
    (hp : p < ws.heap.length)
    (hl : ws.loadXsd env fuel (env.joinLocation dir si.SchemaLocation) false
      = some (ws1, some isch, none))
    (hkeys : (mapKeys (ws1.deref isch).importedModules).Nodup) :
    ∃ ws2,
      loadIncludes env (Workspace.loadXsd env fuel) dir p (si :: rest) ws
        = loadIncludes env (Workspace.loadXsd env fuel) dir p rest ws2 ∧
      ws2 = ws1.store p (ws2.deref p) ∧
      (∀ k v, mapLookup (ws1.deref isch).importedModules k = some v →
        mapLookup (ws2.deref p).importedModules k = some v) ∧
      (∀ k, mapLookup (ws1.deref isch).importedModules k = none →
        mapLookup (ws2.deref p).importedModules k
          = mapLookup (ws1.deref p).importedModules k) := by
  obtain ⟨hstep, hderef, -⟩ := loadIncludes_step env fuel dir p si rest ws ws1 isch hp hl
  refine ⟨_, hstep, by rw [hderef], ?_, ?_⟩
  · intro k v hk
    have hlook := foldl_mapInsert_lookup k _ (ws1.deref p).importedModules hkeys
    rw [hk] at hlook
    rw [hderef]
    exact hlook
  · intro k hk
    have hlook := foldl_mapInsert_lookup k _ (ws1.deref p).importedModules hkeys
    rw [hk] at hlook
    rw [hderef]
    exact hlook

/-- C16 on the root `r.xsd`, whose table maps `m` to 3 and `n` to 4, including `i.xsd`,
whose table maps `m` to 7 and `k` to 8: afterwards `m` is mapped to 7. -/
theorem C16_include_modules_take_priority_witness :
    0 < includingRoot.heap.length ∧
    ∃ ws1, includingRoot.loadXsd (fsEnv includeWithModules) 2
        ((fsEnv includeWithModules).joinLocation "."
          (Include.SchemaLocation { SchemaLocation := "i.xsd" })) false
        = some (ws1, some 1, none) ∧
      (mapKeys (ws1.deref 1).importedModules).Nodup ∧
      mapLookup (ws1.deref 1).importedModules "m" = some 7 ∧
      mapLookup (ws1.deref 0).importedModules "m" = some 3 ∧
      ∃ ws2,
        loadIncludes (fsEnv includeWithModules)
            (Workspace.loadXsd (fsEnv includeWithModules) 2) "." 0
            [{ SchemaLocation := "i.xsd" }] includingRoot
          = loadIncludes (fsEnv includeWithModules)
            (Workspace.loadXsd (fsEnv includeWithModules) 2) "." 0 [] ws2 ∧
        ws2 = ws1.store 0 (ws2.deref 0) ∧
        (∀ k v, mapLookup (ws1.deref 1).importedModules k = some v →
          mapLookup (ws2.deref 0).importedModules k = some v) ∧
        (∀ k, mapLookup (ws1.deref 1).importedModules k = none →
          mapLookup (ws2.deref 0).importedModules k
            = mapLookup (ws1.deref 0).importedModules k) :=
  ⟨by decide, _, rfl, by decide, rfl, rfl,
    C16_include_modules_take_priority (fsEnv includeWithModules) 2 "." 0
      { SchemaLocation := "i.xsd" } [] includingRoot _ 1 (by decide) rfl (by decide)⟩

/-! ## The requests a load logs -/

theorem loadIncludes_events (env : Env) (V : List String) (Imp : String → String → Prop)
    (load : Workspace → String → Bool → Option LoadResult)
    (hload : KeepsTracked V Imp load) (hev : KeepsRequests env V Imp load)
    (hreach : ∀ ws loc c r, load ws loc c = some r → Reach env ws r.1)
    (dir loc : String) (p : Nat) :
    ∀ (incs : List Include) (ws ws3 : Workspace),
      Tracked Imp ws → p < ws.heap.length → (ws.deref p).filePath = loc →
      (∀ si ∈ incs, env.joinLocation dir si.SchemaLocation ∈ V ∧
        (∀ r, Imp (env.joinLocation dir si.SchemaLocation) r → Imp loc r) ∧
        Requested env V Imp (env.joinLocation dir si.SchemaLocation) false) →
      loadIncludes env load dir p incs ws = some (ws3, none) →
      ∀ (T : String) (b : Bool), Event.load T b ∈ ws3.trace →
        Event.load T b ∈ ws.trace ∨ Requested env V Imp T b := by
  intro incs
  induction incs with
  | nil =>
    intro ws ws3 _ _ _ _ h T b hT
    simp only [loadIncludes, Option.some.injEq, Prod.mk.injEq, and_true] at h
    subst h; exact Or.inl hT
  | cons si rest ih =>
    intro ws ws3 ht hp hf hincs h T b hT
    obtain ⟨hV, hinh, hreq⟩ := hincs si (by simp)
    rw [loadIncludes_cons] at h
    cases hl : load ws (env.joinLocation dir si.SchemaLocation) false with
    | none => rw [hl] at h; simp at h
    | some res =>
      obtain ⟨ws1, d, e⟩ := res
      rw [hl] at h
      cases e with
      | some err => cases d <;> simp at h
      | none =>
        obtain ⟨-, q, hq, -⟩ := hload ws _ false ws1 d hV ht hl
        subst hq
        have hone : loadIncludes env load dir p [si] ws
            = some (ws1.store p (mergeInclude (ws1.deref q) (ws1.deref p)), none) := by
          rw [loadIncludes_cons, hl]; rfl
        obtain ⟨ht2, hp2, hf2⟩ := loadIncludes_tracked env V Imp load hload hreach dir loc p
          [si] ws _ ht hp hf (fun x hx => by
            rw [List.mem_singleton] at hx; subst hx; exact ⟨hV, hinh⟩) hone
        simp only at h
        rcases ih _ ws3 ht2 hp2 hf2 (fun x hx => hincs x (by simp [hx])) h T b hT with h1 | h1
        · rcases hev ws _ false ws1 (some q) hV ht hl T b h1 with h2 | ⟨rfl, rfl⟩ | h2
          · exact Or.inl h2
          · exact Or.inr hreq
          · exact Or.inr h2
        · exact Or.inr h1

theorem loadImports_events (env : Env) (V : List String) (Imp : String → String → Prop)
    (load : Workspace → String → Bool → Option LoadResult)
    (hload : KeepsTracked V Imp load) (hev : KeepsRequests env V Imp load)
    (hreach : ∀ ws loc c r, load ws loc c = some r → Reach env ws r.1)
    (dir loc : String) (p : Nat) :
    ∀ (imps : List Import) (idx : Nat) (ws ws4 : Workspace),
      Tracked Imp ws → p < ws.heap.length → (ws.deref p).filePath = loc →
      (∀ im ∈ imps, Imp loc im.SchemaLocation ∧ env.joinLocation dir im.SchemaLocation ∈ V ∧
        Requested env V Imp (env.joinLocation dir im.SchemaLocation) true) →
      loadImports env load dir p idx imps ws = some (ws4, none) →
      ∀ (T : String) (b : Bool), Event.load T b ∈ ws4.trace →
        Event.load T b ∈ ws.trace ∨ Requested env V Imp T b := by
  intro imps
  induction imps with
  | nil =>
    intro idx ws ws4 _ _ _ _ h T b hT
    simp only [loadImports, Option.some.injEq, Prod.mk.injEq, and_true] at h
    subst h; exact Or.inl hT
  | cons im rest ih =>
    intro idx ws ws4 ht hp hf himps h T b hT
    obtain ⟨himp, hV, hreq⟩ := himps im (by simp)
    rw [loadImports_cons] at h
    cases hl : load ws (env.joinLocation dir im.SchemaLocation) true with
    | none => rw [hl] at h; simp at h
    | some res =>
      obtain ⟨ws1, d, e⟩ := res
      rw [hl] at h
      cases e with
      | some err => simp at h
      | none =>
        have hone : loadImports env load dir p idx [im] ws
            = some (ws1.store p (withImports (ws1.deref p)
                ((ws1.deref p).Imports.set idx { im with ImportedSchema := d })), none) := by
          rw [loadImports_cons, hl]; rfl
        obtain ⟨ht2, hp2, hf2⟩ := loadImports_tracked env V Imp load hload hreach dir loc p
          [im] idx ws _ ht hp hf (fun x hx => by
            rw [List.mem_singleton] at hx; subst hx; exact ⟨himp, hV⟩) hone
        simp only at h
        rcases ih (idx + 1) _ ws4 ht2 hp2 hf2 (fun x hx => himps x (by simp [hx])) h T b hT
          with h1 | h1
        · rcases hev ws _ true ws1 d hV ht hl T b h1 with h2 | ⟨rfl, rfl⟩ | h2
          · exact Or.inl h2
          · exact Or.inr hreq
          · exact Or.inr h2
        · exact Or.inr h1

/-- On a ranked graph the requests a successful load of a location of the graph logs
are its own and requests of documents of the graph. -/
theorem loadXsd_events (env : Env) (V : List String) (Imp : String → String → Prop)
    (rank : String → Nat) (R : Nat) (root : String)
    (hg : IncludeRanked env V Imp rank R root) :
    ∀ fuel : Nat, KeepsRequests env V Imp (Workspace.loadXsd env fuel) := by
  intro fuel
  induction fuel with
  | zero => intro ws loc c ws2 d _ _ h; simp [Workspace.loadXsd] at h
  | succ n ih =>
    intro ws loc c ws2 d hV ht h T b hT
    obtain ⟨q, hq, hcase⟩ := loadXsd_ok_inv env (n + 1) ws loc c ws2 d h
    subst hq
    rcases hcase with ⟨-, rfl⟩ | ⟨m, f, parsed, dir, ws3, ws4, hm, hmiss, ho, -, hp, hd, hq,
      hinc, himp, rfl⟩
    · rw [log_trace, List.mem_append, List.mem_singleton] at hT
      rcases hT with hT | hT
      · exact Or.inl hT
      · cases hT; exact Or.inr (Or.inl ⟨rfl, rfl⟩)
    · have hmn : m = n := by omega
      subst hmn
      subst hq
      have ht0 : Tracked Imp (startState ws loc c parsed) :=
        ht.start loc c parsed (hg.own loc hV f parsed ho hp)
      have hlen : ws.heap.length < (startState ws loc c parsed).heap.length := by
        rw [startState_length]; omega
      have hf0 : ((startState ws loc c parsed).deref ws.heap.length).filePath = loc := by
        rw [startState_deref]; rfl
      have hincs : ∀ si ∈ (stampSchema ws loc parsed).Includes,
          env.joinLocation dir si.SchemaLocation ∈ V ∧
          (∀ r, Imp (env.joinLocation dir si.SchemaLocation) r → Imp loc r) ∧
          Requested env V Imp (env.joinLocation dir si.SchemaLocation) false :=
        fun si hsi => ⟨hg.includes_closed loc hV f parsed dir ho hp hd si hsi,
          hg.inherited loc hV f parsed dir ho hp hd si hsi,
          loc, hV, f, parsed, dir, si, ho, hp, hd, hsi, rfl⟩
      obtain ⟨ht3, hlen3, hf3⟩ := loadIncludes_tracked env V Imp _
        (loadXsd_tracked env V Imp rank R root hg m)
        (fun ws loc c r hr => loadXsd_reach env m ws loc c r hr) dir loc ws.heap.length
        _ _ ws3 ht0 hlen hf0 (fun si hsi => ⟨(hincs si hsi).1, (hincs si hsi).2.1⟩) hinc
      have himps : ∀ im ∈ (ws3.deref ws.heap.length).Imports,
          Imp loc im.SchemaLocation ∧ env.joinLocation dir im.SchemaLocation ∈ V ∧
          Requested env V Imp (env.joinLocation dir im.SchemaLocation) true := by
        intro im him
        have h1 := ht3.imports _ im him
        rw [hf3] at h1
        exact ⟨h1, hg.imports_closed loc hV dir _ hd h1, loc, hV, dir, _, hd, h1, rfl⟩
      have e4 := loadImports_events env V Imp _ (loadXsd_tracked env V Imp rank R root hg m) ih
        (fun ws loc c r hr => loadXsd_reach env m ws loc c r hr) dir loc ws.heap.length
        _ 0 ws3 ws4 ht3 hlen3 hf3 himps himp T b hT
      rcases e4 with h3 | h3
      · have e3 := loadIncludes_events env V Imp _ (loadXsd_tracked env V Imp rank R root hg m)
          ih (fun ws loc c r hr => loadXsd_reach env m ws loc c r hr) dir loc ws.heap.length
          _ _ ws3 ht0 hlen hf0 hincs hinc T b h3
        rcases e3 with h0 | h0
        · rw [startState_trace, List.mem_append] at h0
          rcases h0 with h0 | h0
          · exact Or.inl h0
          · simp only [List.mem_cons, Event.load.injEq, List.mem_singleton, reduceCtorEq,
              or_false, List.not_mem_nil] at h0
            exact Or.inr (Or.inl h0)
        · exact Or.inr (Or.inr h0)
      · exact Or.inr (Or.inr h3)

theorem freshIncludes_of_apart (env : Env) (V : List String) (Imp : String → String → Prop)
    (root : String) (hapart : IncludesApart env V Imp root) (t : List Event)
    (ht : ∀ (T : String) (b : Bool), Event.load T b ∈ t →
      (T = root ∧ b = true) ∨ Requested env V Imp T b) :
    FreshIncludes root t := by
  intro a b T hsplit
  have hmem : Event.load T false ∈ t := by rw [hsplit]; simp
  rcases ht T false hmem with ⟨-, h⟩ | h
  · cases h
  · rcases hapart T h with h1 | h1
    · exact Or.inl h1
    · by_cases hr : T = root
      · exact Or.inl hr
      · refine Or.inr (fun ha => ?_)
        have hmem2 : Event.load T true ∈ t := by rw [hsplit]; simp [ha]
        rcases ht T true hmem2 with ⟨h2, -⟩ | h2
        · exact hr h2
        · exact h1 h2

/-! ## C5: two documents that refer to each other -/

theorem includeRanked_pairWithLeaf :
    IncludeRanked (dirEnv pairWithLeaf) pairWithLeafLocations pairWithLeafImp
      pairWithLeafRank 1 "a.xsd" where
  compile_imports := fun _ => rfl
  compile_filePath := fun _ => rfl
  own := by
    intro L hL f S ho hp m hm
    have h := dirEnv_open_parse _ _ _ _ ho hp
    simp only [pairWithLeafLocations, List.mem_cons, List.mem_singleton, List.not_mem_nil,
      or_false] at hL
    rcases hL with rfl | rfl | rfl <;> cases h <;>
      simp only [List.mem_singleton, List.not_mem_nil] at hm
    subst hm
    simp [pairWithLeafImp]
  inherited := by
    intro L hL f S d ho hp hd i hi r hr
    have h := dirEnv_open_parse _ _ _ _ ho hp
    simp only [pairWithLeafLocations, List.mem_cons, List.mem_singleton, List.not_mem_nil,
      or_false] at hL
    rcases hL with rfl | rfl | rfl <;> cases hd <;> cases h <;>
      simp only [List.mem_cons, List.mem_singleton, List.not_mem_nil, or_false] at hi
    · subst hi; revert hr; simp [pairWithLeafImp, dirEnv, fsEnv, parentDir]
    · subst hi; revert hr; simp [pairWithLeafImp, dirEnv, fsEnv, parentDir]
  includes_closed := by
    intro L hL f S d ho hp hd i hi
    have h := dirEnv_open_parse _ _ _ _ ho hp
    simp only [pairWithLeafLocations, List.mem_cons, List.mem_singleton, List.not_mem_nil,
      or_false] at hL
    rcases hL with rfl | rfl | rfl <;> cases hd <;> cases h <;>
      simp only [List.mem_cons, List.mem_singleton, List.not_mem_nil, or_false] at hi
    · subst hi; decide
    · subst hi; decide
  imports_closed := by
    intro L hL d r hd hr
    obtain ⟨-, rfl⟩ := hr
    simp only [pairWithLeafLocations, List.mem_cons, List.mem_singleton, List.not_mem_nil,
      or_false] at hL
    rcases hL with rfl | rfl | rfl <;> cases hd <;> decide
  bound := by
    intro L _
    unfold pairWithLeafRank
    split_ifs <;> omega
  rank_dec := by
    intro L hL f S d ho hp hd i hi
    have h := dirEnv_open_parse _ _ _ _ ho hp
    simp only [pairWithLeafLocations, List.mem_cons, List.mem_singleton, List.not_mem_nil,
      or_false] at hL
    rcases hL with rfl | rfl | rfl <;> cases hd <;> cases h <;>
      simp only [List.mem_cons, List.mem_singleton, List.not_mem_nil, or_false] at hi
    · subst hi; decide
    · subst hi; decide

theorem allLoad_pairWithLeaf : AllLoad (dirEnv pairWithLeaf) pairWithLeafLocations := by
  intro L hL
  simp only [pairWithLeafLocations, List.mem_cons, List.mem_singleton, List.not_mem_nil,
    or_false] at hL
  rcases hL with rfl | rfl | rfl
  · exact ⟨{ bytes := "a.xsd" }, _, ".", rfl, rfl, rfl, rfl⟩
  · exact ⟨{ bytes := "b.xsd" }, _, ".", rfl, rfl, rfl, rfl⟩
  · exact ⟨{ bytes := "leaf.xsd" }, _, ".", rfl, rfl, rfl, rfl⟩

theorem includesApart_pairWithLeaf :
    IncludesApart (dirEnv pairWithLeaf) pairWithLeafLocations pairWithLeafImp "a.xsd" := by
  rintro T ⟨L, hL, f, S, d, i, ho, hp, hd, hi, rfl⟩
  have h := dirEnv_open_parse _ _ _ _ ho hp
  simp only [pairWithLeafLocations, List.mem_cons, List.mem_singleton, List.not_mem_nil,
    or_false] at hL
  rcases hL with rfl | rfl | rfl <;> cases hd <;> cases h <;>
    simp only [List.mem_cons, List.mem_singleton, List.not_mem_nil, or_false] at hi
  · subst hi
    right
    rintro ⟨L2, hL2, d2, r, hd2, ⟨-, rfl⟩, hj⟩
    simp only [pairWithLeafLocations, List.mem_cons, List.mem_singleton, List.not_mem_nil,
      or_false] at hL2
    rcases hL2 with rfl | rfl | rfl <;> cases hd2 <;> revert hj <;> decide
  · subst hi
    left
    rfl

theorem pairSelfInclude_diverges :
    ∀ (n : Nat) (ws : Workspace) (q : Nat), mapLookup ws.Cache "b.xsd" = none →
      mapLookup ws.Cache "a.xsd" = some q →
      ws.loadXsd (fsEnv pairSelfInclude) n "b.xsd" false = none := by
  intro n
  induction n with
  | zero => intro ws q _ _; rfl
  | succ m ih =>
    intro ws q hb ha
    rw [loadXsd_miss (fsEnv pairSelfInclude) m ws "b.xsd" false { bytes := "b.xsd" }
      { Includes := [{ SchemaLocation := "a.xsd" }, { SchemaLocation := "b.xsd" }]
        ComplexTypes := ["TB"] } hb rfl rfl]
    unfold loadDeps
    have hd : baseDir (fsEnv pairSelfInclude) "b.xsd" = .ok "." := rfl
    rw [hd]
    simp only [startState_deref, stampSchema_Includes]
    rw [loadIncludes_cons]
    have hj : (fsEnv pairSelfInclude).joinLocation "."
        (Include.SchemaLocation { SchemaLocation := "a.xsd" }) = "a.xsd" := rfl
    have hj2 : (fsEnv pairSelfInclude).joinLocation "."
        (Include.SchemaLocation { SchemaLocation := "b.xsd" }) = "b.xsd" := rfl
    rw [hj]
    cases m with
    | zero => rfl
    | succ k =>
      rw [loadXsd_hit (fsEnv pairSelfInclude) k _ "a.xsd" false q
        (by rw [startState_false_Cache]; exact ha)]
      simp only
      rw [loadIncludes_cons, hj2, ih _ q (by simpa [startState_false_Cache] using hb)
        (by simpa [startState_false_Cache] using ha)]
      rfl

theorem pairSelfInclude_root_diverges (ws : Workspace) (hfresh : ws.Cache = []) :
    ∀ fuel : Nat, ws.loadXsd (fsEnv pairSelfInclude) fuel "a.xsd" true = none := by
  intro fuel
  cases fuel with
  | zero => rfl
  | succ m =>
    rw [loadXsd_miss (fsEnv pairSelfInclude) m ws "a.xsd" true { bytes := "a.xsd" }
      { Includes := [{ SchemaLocation := "b.xsd" }], ComplexTypes := ["TA"] }
      (by rw [hfresh]; rfl) rfl rfl]
    unfold loadDeps
    have hd : baseDir (fsEnv pairSelfInclude) "a.xsd" = .ok "." := rfl
    rw [hd]
    simp only [startState_deref, stampSchema_Includes]
    rw [loadIncludes_cons]
    have hj : (fsEnv pairSelfInclude).joinLocation "."
        (Include.SchemaLocation { SchemaLocation := "b.xsd" }) = "b.xsd" := rfl
    rw [hj, pairSelfInclude_diverges m _ ws.heap.length
      (by rw [startState_true_Cache, hfresh, mapLookup_mapInsert,
        if_neg (by decide : ¬ "a.xsd" = "b.xsd")]; rfl)
      (startState_true_lookup ws "a.xsd" _)]
    rfl

/-- C5, as stated, fails for pairs that have further dependencies. When `a.xsd` holds
its include entry for `b.xsd` twice and `b.xsd` includes `a.xsd`, both fetch and parse
and the load returns `a.xsd`, but the one type of `b.xsd` occurs in it three times.
When `b.xsd` also includes itself, `loadXsd` of `a.xsd` returns no result, whatever
the fuel. When `a.xsd` also includes a missing document, the load returns an error
and no document. -/
theorem C5_counterexample :
    (∀ fuel, 3 ≤ fuel → ∃ ws2 p, (initialWorkspace "" []).loadXsd (fsEnv doubleInclude) fuel
        "a.xsd" true = some (ws2, some p, none) ∧
      (ownContent (fsEnv doubleInclude) "b.xsd").ComplexTypes = ["TB"] ∧
      (ws2.deref p).ComplexTypes = ["TA", "TB", "TA", "TB", "TA", "TB", "TA"] ∧
      (ws2.deref p).ComplexTypes.count "TB" = 3) ∧
    (¬ ∃ (fuel : Nat) (res : LoadResult),
      (initialWorkspace "" []).loadXsd (fsEnv pairSelfInclude) fuel "a.xsd" true = some res) ∧
    (∀ fuel, 3 ≤ fuel →
      ((initialWorkspace "" []).loadXsd (fsEnv pairMissing) fuel "a.xsd" true).map
        (fun r => r.2) = some (none, some "open gone.xsd: no such file or directory")) := by
  refine ⟨fun fuel hfuel => ⟨_, 0, loadXsd_fuel_le (fsEnv doubleInclude) 3 fuel hfuel _ _ _ _ rfl,
    rfl, rfl, by decide⟩, ?_, fun fuel hfuel => ?_⟩
  · rintro ⟨fuel, res, h⟩
    rw [pairSelfInclude_root_diverges _ rfl fuel] at h
    cases h
  · have h3 : ∃ ws2, (initialWorkspace "" []).loadXsd (fsEnv pairMissing) 3 "a.xsd" true
        = some (ws2, none, some "open gone.xsd: no such file or directory") := ⟨_, rfl⟩
    obtain ⟨ws2, h3⟩ := h3
    rw [loadXsd_fuel_le (fsEnv pairMissing) 3 fuel hfuel _ _ _ _ h3]
    rfl

/-- C5 (amended): on every finite document graph all of whose include cycles pass
through the root `A` (as in C6), so for every pair `A`, `B` that include or import
each other and whose further dependencies form such a graph, `loadXsd(A, true)` on the
initial workspace returns with fuel `|V| * (R + 1) + R + 2` or more. When every document
of the graph fetches, parses and closes without error, it returns the document `A`
and a nil error. When moreover no include entry other than one naming `A` resolves
to a location that an import reference resolves to, the collections of `A` are the
blocks `rootBlocks` computes, one copy of a document's collections for every include
path to it: the declarations of a document `B` that is the end of exactly one include
path, and that no other document of these paths declares, occur in `A` as often as
in `B` itself, so the content of `B` is folded in exactly once. -/
theorem C5_mutual_references_terminate_on_ranked_graphs (env : Env)
    (hkc : CompileKeepsContent env) (V : List String) (Imp : String → String → Prop)
    (rank : String → Nat) (R : Nat) (A : String)
    (hg : IncludeRanked env V Imp rank R A) (hA : A ∈ V)
    (g : String) (ov : List (String × String)) (fuel : Nat)
    (hfuel : V.length * (R + 1) + R + 2 ≤ fuel) :
    ∃ res, (initialWorkspace g ov).loadXsd env fuel A true = some res ∧
      (AllLoad env V → ∃ p, res.2 = (some p, none) ∧
        (IncludesApart env V Imp A →
          ∃ docs, rootBlocks env fuel A = some docs ∧
            (res.1.deref p).content = blockContent env docs ∧
            ∀ (B : String) (k : Kind) (x : Decl), docs.count B = 1 →
              (∀ L ∈ docs, L ≠ B → x ∉ (ownContent env L).get k) →
              ((res.1.deref p).content.get k).count x
                = ((ownContent env B).get k).count x)) := by
  obtain ⟨⟨ws2, d, err⟩, hres, hok⟩ := loadXsd_total env V Imp rank R A hg V.length R
    (initialWorkspace g ov) A true hA (tracked_initialWorkspace Imp g ov)
    (Or.inr ⟨rfl, rfl⟩) rfl (uncachedKeys_le_length V _) (hg.bound A hA)
  have hrun := loadXsd_fuel_le env _ _ hfuel _ _ _ _ hres
  refine ⟨_, hrun, fun hall => ?_⟩
  have herr : err = none := hok hall
  subst herr
  obtain ⟨p, hp, -⟩ := loadXsd_ok_inv env fuel _ A true ws2 d hrun
  subst hp
  refine ⟨p, rfl, fun hapart => ?_⟩
  have hev := loadXsd_events env V Imp rank R A hg fuel (initialWorkspace g ov) A true ws2
    (some p) hA (tracked_initialWorkspace Imp g ov) hrun
  have hF : FreshIncludes A ws2.trace := by
    refine freshIncludes_of_apart env V Imp A hapart _ (fun T b hT => ?_)
    rcases hev T b hT with h | h | h
    · simp [initialWorkspace] at h
    · exact Or.inl h
    · exact Or.inr h
  obtain ⟨docs, hdocs, hcont⟩ := rootBlocks_sound env hkc fuel (initialWorkspace g ov) A ws2 p
    rfl hrun hF
  refine ⟨docs, hdocs, hcont, fun B k x h1 h0 => ?_⟩
  show ((ws2.deref p).content.get k).count x = ((ownContent env B).get k).count x
  rw [hcont, blockContent_get, List.count_flatten, List.map_map]
  exact sum_map_single docs (fun L => ((ownContent env L).get k).count x) B h1
    (fun L hL hne => List.count_eq_zero.2 (h0 L hL hne))

/-- C5 (amended) on `pairWithLeaf`: `a.xsd` and `b.xsd` include each other and `a.xsd`
imports a leaf; the load returns `a.xsd`, whose blocks are `a.xsd`, `b.xsd`, `a.xsd`,
and the type `TB` of `b.xsd` occurs in it once. -/
theorem C5_mutual_references_terminate_on_ranked_graphs_witness :
    "a.xsd" ∈ pairWithLeafLocations ∧
    pairWithLeafLocations.length * (1 + 1) + 1 + 2 ≤ 9 ∧
    AllLoad (dirEnv pairWithLeaf) pairWithLeafLocations ∧
    IncludesApart (dirEnv pairWithLeaf) pairWithLeafLocations pairWithLeafImp "a.xsd" ∧
    rootBlocks (dirEnv pairWithLeaf) 9 "a.xsd" = some ["a.xsd", "b.xsd", "a.xsd"] ∧
    ((initialWorkspace "" []).loadXsd (dirEnv pairWithLeaf) 9 "a.xsd" true).map
      (fun r => ((r.1.deref 0).ComplexTypes, r.2)) = some (["TA", "TB", "TA"], some 0, none) ∧
    ∃ res, (initialWorkspace "" []).loadXsd (dirEnv pairWithLeaf) 9 "a.xsd" true = some res ∧
      (AllLoad (dirEnv pairWithLeaf) pairWithLeafLocations → ∃ p, res.2 = (some p, none) ∧
        (IncludesApart (dirEnv pairWithLeaf) pairWithLeafLocations pairWithLeafImp "a.xsd" →
          ∃ docs, rootBlocks (dirEnv pairWithLeaf) 9 "a.xsd" = some docs ∧
            (res.1.deref p).content = blockContent (dirEnv pairWithLeaf) docs ∧
            ∀ (B : String) (k : Kind) (x : Decl), docs.count B = 1 →
              (∀ L ∈ docs, L ≠ B → x ∉ (ownContent (dirEnv pairWithLeaf) L).get k) →
              ((res.1.deref p).content.get k).count x
                = ((ownContent (dirEnv pairWithLeaf) B).get k).count x)) :=
  ⟨by decide, by decide, allLoad_pairWithLeaf, includesApart_pairWithLeaf, rfl, rfl,
    C5_mutual_references_terminate_on_ranked_graphs (dirEnv pairWithLeaf)
      (fun _ => ⟨rfl, rfl⟩) pairWithLeafLocations pairWithLeafImp pairWithLeafRank 1 "a.xsd"
      includeRanked_pairWithLeaf (by decide) "" [] 9 (by decide)⟩

/-! ## C18: the two tests on the location -/

theorem startsWithChars_append (a b : List Char) :
    ∀ s : List Char, startsWithChars (a ++ b) s = true → startsWithChars a s = true := by
  induction a with
  | nil => intro s _; rfl
  | cons c cs ih =>
    intro s h
    cases s with
    | nil => simp [startsWithChars] at h
    | cons d ds =>
      simp only [List.cons_append, startsWithChars, Bool.and_eq_true] at h ⊢
      exact ⟨h.1, ih ds h.2⟩

/-- A location fetched over the network has its base directory computed by URL
parsing. -/
theorem network_location_has_url_directory (env : Env) (loc : String)
    (h : (startsWith loc "http://" || startsWith loc "https://") = true) :
    openLocation env loc = env.httpGet loc ∧ baseDir env loc = env.urlDir loc := by
  have hhttp : startsWith loc "http" = true := by
    rcases Bool.or_eq_true_iff.1 h with h1 | h1
    · exact startsWithChars_append "http".data "://".data loc.data h1
    · exact startsWithChars_append "http".data "s://".data loc.data h1
  exact ⟨by simp only [openLocation, h, if_true], by simp only [baseDir, hhttp, if_true]⟩

/-- C18 at a failing input: the relative file path `httpdocs/a.xsd` begins with `http`
and with neither `http://` nor `https://`, so it is opened as a file (line 55) while its
base directory is computed by URL parsing (line 86), not by `filepath.Dir`. -/
theorem C18_http_prefixed_path_is_classified_twice (env : Env) :
    openLocation env "httpdocs/a.xsd" = env.osOpen (env.filepathClean "httpdocs/a.xsd") ∧
    baseDir env "httpdocs/a.xsd" = env.urlDir "httpdocs/a.xsd" :=
  ⟨rfl, rfl⟩

end Xsd
